import Mathlib

/-!
Range coder and decoder dictionary of `newlzma`.

A shallow embedding of `newlzma/rangecodec.go` (range encoder and decoder) together
with the collaborators it relies on (probability model, limited byte-counting
writer and reader, decoder dictionary), followed by theorems about them.

Machine integers are natural numbers reduced modulo `2^w` at every operation
that can wrap (`uint32`: `2^32`, `uint64`: `2^64`, `byte`: `256`).  The `int64`
counters `n`, `limit` and `cacheLen` are integers.  A method with a pointer
receiver returns the updated receiver next to its Go result, so the state left
behind by a failing call is visible as well.
-/

namespace Newlzma

/-! ## Errors -/

/-- The error values returned (or the panic raised) by the embedded code. -/
inductive Err where
  /-- `ErrLimit`: the byte limit of the limited writer or reader is reached. -/
  | ErrLimit
  /-- An error reported by the underlying `io.Writer`. -/
  | writerFailed
  /-- The underlying reader has no more bytes (`io.EOF`). -/
  | EOF
  /-- The error "limit must be larger or equal 5". -/
  | limitTooSmall
  /-- The error "first byte not zero". -/
  | firstByteNotZero
  /-- The error "newRangeDecoder: d.code >= d.nrange". -/
  | codeNotBelowRange
  /-- The panic "negative cacheLen". -/
  | negativeCacheLen
  /-- The iteration budget of the embedded emission loop was used up. -/
  | outOfFuel
  deriving DecidableEq, Repr

def maxInt64 : Int := 2 ^ 63 - 1

/-! ## Underlying streams and the bounded stream adapter -/

/-- The underlying `io.Writer`: the bytes it has accepted so far, the number of
write calls it has received, and which of its calls it rejects. -/
structure ByteSink where
  written : List Nat
  calls : Nat
  rejects : Nat → Bool

/-- A write call on the underlying writer. -/
def ByteSink.WriteByte (s : ByteSink) (c : Nat) : ByteSink × Option Err :=
  if s.rejects s.calls then
    ({ s with calls := s.calls + 1 }, some Err.writerFailed)
  else
    ({ s with written := s.written ++ [c], calls := s.calls + 1 }, none)

/-- An underlying writer that accepts every byte. -/
def ByteSink.accepting : ByteSink := ⟨[], 0, fun _ => false⟩

/-- Modelled from the spec: the output side of the Bounded Stream Adapter (type
`lbcWriter`, built by `limitByteWriter`), whose declaration is not among the
source files.  It counts the bytes written in `n` and enforces the byte budget
`limit`. -/
structure lbcWriter where
  bw : ByteSink
  n : Int
  limit : Int

/-- Modelled from the spec: `limitByteWriter` wraps a writer with a byte budget. -/
def limitByteWriter (w : ByteSink) (limit : Int) : lbcWriter :=
  { bw := w, n := 0, limit := limit }

/-- Modelled from the spec: `lbcWriter.WriteByte`.  Exceeding the budget gives the
distinct limit condition, a failure of the underlying stream is propagated
verbatim, and a byte is counted only when the underlying writer took it. -/
def lbcWriter.WriteByte (l : lbcWriter) (c : Nat) : lbcWriter × Option Err :=
  if l.n ≥ l.limit then (l, some Err.ErrLimit)
  else
    match l.bw.WriteByte c with
    | (bw, some err) => ({ l with bw := bw }, some err)
    | (bw, none) => ({ l with bw := bw, n := l.n + 1 }, none)

/-- Modelled from the spec: the input side of the Bounded Stream Adapter (type
`lbcReader`, built by `limitByteReader`), whose declaration is not among the
source files.  `src` is what the underlying reader still has to deliver. -/
structure lbcReader where
  src : List Nat
  n : Int
  limit : Int

/-- Modelled from the spec: `limitByteReader` wraps a reader with a byte budget. -/
def limitByteReader (r : List Nat) (limit : Int) : lbcReader :=
  { src := r, n := 0, limit := limit }

/-- Modelled from the spec: `lbcReader.ReadByte`.  Premature end of input is an
I/O error, exceeding the budget gives the limit condition. -/
def lbcReader.ReadByte (l : lbcReader) : lbcReader × Nat × Option Err :=
  if l.n ≥ l.limit then (l, 0, some Err.ErrLimit)
  else
    match l.src with
    | [] => (l, 0, some Err.EOF)
    | b :: rest => ({ l with src := rest, n := l.n + 1 }, b % 256, none)

/-! ## Probability model -/

/-- A probability value: `P(bit = 0)` scaled by `2^11`. -/
abbrev prob := Nat

/-- Modelled from the spec: the initial probability value (P = 0.5); the type
`prob` and its methods are not among the source files. -/
def probInit : Nat := 1024

/-- Modelled from the spec: `bound(nrange)` returns `(nrange >> 11) * value`,
as a `uint32`. -/
def prob.bound (p : prob) (nrange : Nat) : Nat :=
  ((nrange >>> 11) * (p : Nat)) % 2 ^ 32

/-- Modelled from the spec: the update on a zero bit,
`value += (2048 - value) >> 5`. -/
def prob.inc (p : prob) : Nat := (p : Nat) + ((2048 - (p : Nat)) >>> 5)

/-- Modelled from the spec: the update on a one bit, `value -= value >> 5`. -/
def prob.dec (p : prob) : Nat := (p : Nat) - ((p : Nat) >>> 5)

/-! ## Range encoder -/

/-- The type `rangeEncoder`: `nrange` is a `uint32`, `low` a `uint64`,
`cacheLen` an `int64` and `cache` a byte. -/
structure rangeEncoder where
  w : lbcWriter
  nrange : Nat
  low : Nat
  cacheLen : Int
  cache : Nat

/-- The function `newRangeEncoder`. -/
def newRangeEncoder (w : ByteSink) : Option rangeEncoder × Option Err :=
  (some { w := limitByteWriter w maxInt64, nrange := 0xffffffff, low := 0,
          cacheLen := 1, cache := 0 }, none)

/-- The function `newRangeEncoderLimit`. -/
def newRangeEncoderLimit (w : ByteSink) (limit : Int) :
    Option rangeEncoder × Option Err :=
  if limit < 5 then (none, some Err.limitTooSmall)
  else
    (some { w := limitByteWriter w limit, nrange := 0xffffffff, low := 0,
            cacheLen := 1, cache := 0 }, none)

/-- The method `Compressed` of the encoder. -/
def rangeEncoder.Compressed (e : rangeEncoder) : Int := e.w.n

/-- The method `Available`. -/
def rangeEncoder.Available (e : rangeEncoder) : Int :=
  e.w.limit - (e.w.n + e.cacheLen + 4)

/-- The method `writeByte`. -/
def rangeEncoder.writeByte (e : rangeEncoder) (c : Nat) : rangeEncoder × Option Err :=
  if e.Available < 1 then (e, some Err.ErrLimit)
  else
    match e.w.WriteByte c with
    | (w, err) => ({ e with w := w }, err)

/-- The emission loop inside `shiftLow`, entered with the byte `tmp` to write
next.  The first argument bounds the number of further iterations; `shiftLow`
passes `cacheLen - 1`, which is never used up. -/
def rangeEncoder.emitLoop : Nat → rangeEncoder → Nat → rangeEncoder × Option Err
  | fuel, e, tmp =>
    match e.writeByte ((tmp + (e.low >>> 32) % 256) % 256) with
    | (e1, some err) => (e1, some err)
    | (e1, none) =>
      let e2 := { e1 with cacheLen := e1.cacheLen - 1 }
      if e2.cacheLen ≤ 0 then
        if e2.cacheLen < 0 then (e2, some Err.negativeCacheLen) else (e2, none)
      else
        match fuel with
        | 0 => (e2, some Err.outOfFuel)
        | f + 1 => rangeEncoder.emitLoop f e2 0xff

/-- The method `shiftLow`. -/
def rangeEncoder.shiftLow (e : rangeEncoder) : rangeEncoder × Option Err :=
  if e.low % 2 ^ 32 < 0xff000000 ∨ e.low >>> 32 ≠ 0 then
    match e.emitLoop (e.cacheLen - 1).toNat e.cache with
    | (e1, some err) => (e1, some err)
    | (e1, none) =>
      ({ e1 with cache := ((e1.low % 2 ^ 32) >>> 24) % 256,
                 cacheLen := e1.cacheLen + 1,
                 low := ((e1.low % 2 ^ 32) <<< 8) % 2 ^ 32 }, none)
  else
    ({ e with cacheLen := e.cacheLen + 1,
              low := ((e.low % 2 ^ 32) <<< 8) % 2 ^ 32 }, none)

/-- The method `normalize` of the encoder. -/
def rangeEncoder.normalize (e : rangeEncoder) : rangeEncoder × Option Err :=
  if e.nrange ≥ 2 ^ 24 then (e, none)
  else rangeEncoder.shiftLow { e with nrange := (e.nrange <<< 8) % 2 ^ 32 }

/-- The method `DirectEncodeBit`. -/
def rangeEncoder.DirectEncodeBit (e : rangeEncoder) (b : Nat) :
    rangeEncoder × Option Err :=
  let nrange := e.nrange >>> 1
  let low := (e.low + (nrange &&& ((2 ^ 64 - (b &&& 1)) % 2 ^ 64))) % 2 ^ 64
  rangeEncoder.normalize { e with nrange := nrange, low := low }

/-- The method `EncodeBit`; the updated probability value is returned as well. -/
def rangeEncoder.EncodeBit (e : rangeEncoder) (b : Nat) (p : prob) :
    rangeEncoder × prob × Option Err :=
  let bound := p.bound e.nrange
  if b &&& 1 = 0 then
    match rangeEncoder.normalize { e with nrange := bound } with
    | (e1, err) => (e1, p.inc, err)
  else
    match rangeEncoder.normalize
        { e with low := (e.low + bound) % 2 ^ 64,
                 nrange := (e.nrange + 2 ^ 32 - bound) % 2 ^ 32 } with
    | (e1, err) => (e1, p.dec, err)

/-- The loop of `Close`: `k` further calls of `shiftLow`, stopping at the first
error. -/
def rangeEncoder.closeLoop : Nat → rangeEncoder → rangeEncoder × Option Err
  | 0, e => (e, none)
  | k + 1, e =>
    match e.shiftLow with
    | (e1, some err) => (e1, some err)
    | (e1, none) => rangeEncoder.closeLoop k e1

/-- The method `Close`. -/
def rangeEncoder.Close (e : rangeEncoder) : rangeEncoder × Option Err :=
  e.closeLoop 5

/-! ## Range decoder -/

/-- The type `rangeDecoder`: `nrange` and `code` are `uint32`. -/
structure rangeDecoder where
  r : lbcReader
  nrange : Nat
  code : Nat

/-- The method `Compressed` of the decoder. -/
def rangeDecoder.Compressed (d : rangeDecoder) : Int := d.r.n

/-- The method `possiblyAtEnd`. -/
def rangeDecoder.possiblyAtEnd (d : rangeDecoder) : Bool := d.code == 0

/-- The method `updateCode`. -/
def rangeDecoder.updateCode (d : rangeDecoder) : rangeDecoder × Option Err :=
  match d.r.ReadByte with
  | (r, _, some err) => ({ d with r := r }, some err)
  | (r, b, none) => ({ d with r := r, code := ((d.code <<< 8) % 2 ^ 32) ||| b }, none)

/-- The loop of `init`: `k` further calls of `updateCode`, stopping at the first
error. -/
def rangeDecoder.initLoop : Nat → rangeDecoder → rangeDecoder × Option Err
  | 0, d => (d, none)
  | k + 1, d =>
    match d.updateCode with
    | (d1, some err) => (d1, some err)
    | (d1, none) => rangeDecoder.initLoop k d1

/-- The method `init`. -/
def rangeDecoder.init (d : rangeDecoder) : rangeDecoder × Option Err :=
  let d0 := { d with nrange := 0xffffffff, code := 0 }
  match d0.r.ReadByte with
  | (r, _, some err) => ({ d0 with r := r }, some err)
  | (r, b, none) =>
    if b ≠ 0 then ({ d0 with r := r }, some Err.firstByteNotZero)
    else
      match rangeDecoder.initLoop 4 { d0 with r := r } with
      | (d1, some err) => (d1, some err)
      | (d1, none) =>
        if d1.code ≥ d1.nrange then (d1, some Err.codeNotBelowRange) else (d1, none)

/-- The function `newRangeDecoder`; `r` is the content of the underlying reader. -/
def newRangeDecoder (r : List Nat) : rangeDecoder × Option Err :=
  rangeDecoder.init { r := limitByteReader r maxInt64, nrange := 0, code := 0 }

/-- The result of `newRangeDecoderLimit`: the decoder (if not `nil`), the error,
and what the underlying reader still holds after the call. -/
structure DecoderResult where
  d : Option rangeDecoder
  err : Option Err
  rest : List Nat

/-- The function `newRangeDecoderLimit`. -/
def newRangeDecoderLimit (r : List Nat) (limit : Int) : DecoderResult :=
  if limit < 5 then { d := none, err := some Err.limitTooSmall, rest := r }
  else
    match rangeDecoder.init { r := limitByteReader r limit, nrange := 0, code := 0 } with
    | (d, err) => { d := some d, err := err, rest := d.r.src }

/-- The method `normalize` of the decoder. -/
def rangeDecoder.normalize (d : rangeDecoder) : rangeDecoder × Option Err :=
  if d.nrange < 2 ^ 24 then
    rangeDecoder.updateCode { d with nrange := (d.nrange <<< 8) % 2 ^ 32 }
  else (d, none)

/-- The method `DirectDecodeBit`; the result is the decoder, the bit and the
error. -/
def rangeDecoder.DirectDecodeBit (d : rangeDecoder) : rangeDecoder × Nat × Option Err :=
  let nrange := d.nrange >>> 1
  let code1 := (d.code + 2 ^ 32 - nrange) % 2 ^ 32
  let t := (2 ^ 32 - (code1 >>> 31)) % 2 ^ 32
  let code2 := (code1 + (nrange &&& t)) % 2 ^ 32
  match rangeDecoder.normalize { d with nrange := nrange, code := code2 } with
  | (d1, some err) => (d1, 0, some err)
  | (d1, none) => (d1, ((t + 1) % 2 ^ 32) &&& 1, none)

/-- The method `DecodeBit`; the result is the decoder, the updated probability
value, the bit and the error. -/
def rangeDecoder.DecodeBit (d : rangeDecoder) (p : prob) :
    rangeDecoder × prob × Nat × Option Err :=
  let bound := p.bound d.nrange
  if d.code < bound then
    match rangeDecoder.normalize { d with nrange := bound } with
    | (d1, some err) => (d1, p.inc, 0, some err)
    | (d1, none) => (d1, p.inc, 0, none)
  else
    match rangeDecoder.normalize
        { d with code := (d.code + 2 ^ 32 - bound) % 2 ^ 32,
                 nrange := (d.nrange + 2 ^ 32 - bound) % 2 ^ 32 } with
    | (d1, some err) => (d1, p.dec, 0, some err)
    | (d1, none) => (d1, p.dec, 1, none)

/-! ## Sequences of coding operations -/

/-- One encoder call: `EncodeBit(b, p_i)` on the model with index `i`, or
`DirectEncodeBit(b)`. -/
inductive Op where
  | bit (b : Nat) (i : Nat)
  | direct (b : Nat)
  deriving DecidableEq, Repr

/-- The bit an operation encodes, `b & 1`. -/
def Op.lsb : Op → Nat
  | Op.bit b _ => b &&& 1
  | Op.direct b => b &&& 1

/-- A family of probability models, all initialised to 1024. -/
def freshModels : Nat → prob := fun _ => probInit

/-- Runs a sequence of encoder calls, stopping at the first error. -/
def encodeOps : List Op → rangeEncoder → (Nat → prob) →
    rangeEncoder × (Nat → prob) × Option Err
  | [], e, m => (e, m, none)
  | Op.bit b i :: ops, e, m =>
    match e.EncodeBit b (m i) with
    | (e1, p, some err) => (e1, Function.update m i p, some err)
    | (e1, p, none) => encodeOps ops e1 (Function.update m i p)
  | Op.direct b :: ops, e, m =>
    match e.DirectEncodeBit b with
    | (e1, some err) => (e1, m, some err)
    | (e1, none) => encodeOps ops e1 m

/-- Runs the decoder calls matching a sequence of encoder calls (`DecodeBit` on
the model with the same index, or `DirectDecodeBit`), collecting the decoded
bits and stopping at the first error. -/
def decodeOps : List Op → rangeDecoder → (Nat → prob) →
    rangeDecoder × (Nat → prob) × List Nat × Option Err
  | [], d, m => (d, m, [], none)
  | Op.bit _ i :: ops, d, m =>
    match d.DecodeBit (m i) with
    | (d1, p, _, some err) => (d1, Function.update m i p, [], some err)
    | (d1, p, b, none) =>
      match decodeOps ops d1 (Function.update m i p) with
      | (d2, m2, bs, err) => (d2, m2, b :: bs, err)
  | Op.direct _ :: ops, d, m =>
    match d.DirectDecodeBit with
    | (d1, _, some err) => (d1, m, [], some err)
    | (d1, b, none) =>
      match decodeOps ops d1 m with
      | (d2, m2, bs, err) => (d2, m2, b :: bs, err)

/-- A byte string read as a big-endian base-256 number. -/
def beVal (bs : List Nat) : Nat := bs.foldl (fun a b => a * 256 + b) 0

/-! ## Reference encoder with an unbounded `low` -/

/-- The reference encoder of the carry-propagation property: `low` is an
unbounded natural number that is never truncated, `shifts` counts the normalize
shifts made so far. -/
structure RefEncoder where
  low : Nat
  nrange : Nat
  shifts : Nat

/-- The reference encoder in its initial state. -/
def RefEncoder.fresh : RefEncoder := { low := 0, nrange := 0xffffffff, shifts := 0 }

/-- Normalize of the reference encoder: a shift multiplies `low` by 256. -/
def RefEncoder.normalize (r : RefEncoder) : RefEncoder :=
  if r.nrange ≥ 2 ^ 24 then r
  else { low := r.low * 256, nrange := (r.nrange <<< 8) % 2 ^ 32, shifts := r.shifts + 1 }

/-- `DirectEncodeBit` of the reference encoder: the halved range is added to
`low` when the bit is one. -/
def RefEncoder.DirectEncodeBit (r : RefEncoder) (b : Nat) : RefEncoder :=
  let nrange := r.nrange >>> 1
  RefEncoder.normalize
    { r with nrange := nrange, low := if b &&& 1 = 0 then r.low else r.low + nrange }

/-- `EncodeBit` of the reference encoder: the same bound as in the range
encoder is added to `low` when the bit is one. -/
def RefEncoder.EncodeBit (r : RefEncoder) (b : Nat) (p : prob) : RefEncoder × prob :=
  let bound := p.bound r.nrange
  if b &&& 1 = 0 then
    (RefEncoder.normalize { r with nrange := bound }, p.inc)
  else
    (RefEncoder.normalize
      { r with low := r.low + bound, nrange := (r.nrange + 2 ^ 32 - bound) % 2 ^ 32 },
     p.dec)

/-- Runs a sequence of encoder calls on the reference encoder. -/
def refEncodeOps : List Op → RefEncoder → (Nat → prob) → RefEncoder × (Nat → prob)
  | [], r, m => (r, m)
  | Op.bit b i :: ops, r, m =>
    refEncodeOps ops (r.EncodeBit b (m i)).1 (Function.update m i (r.EncodeBit b (m i)).2)
  | Op.direct b :: ops, r, m => refEncodeOps ops (r.DirectEncodeBit b) m

/-! ## Invariants used in the proofs -/

/-- The range of probability values reachable from 1024. -/
def probOK (p : Nat) : Prop := 31 ≤ p ∧ p ≤ 2017

/-- The encoder `e` represents the exact value `L` after `s` shifts: the bytes
written, the cached byte and the pending `0xFF` bytes, followed by `low`, spell
`L`, and adding up to `r` to `low` cannot carry beyond the cached byte. -/
structure EncInv (e : rangeEncoder) (L s r : Nat) : Prop where
  norej : ∀ i, e.w.bw.rejects i = false
  bytes : ∀ b ∈ e.w.bw.written, b < 256
  cnt : e.w.n = e.w.bw.written.length
  clen : 1 ≤ e.cacheLen
  shifts : e.w.n + e.cacheLen = s + 1
  cacheLt : e.cache < 256
  val : L + 2 ^ 32 =
    (beVal e.w.bw.written * 256 + e.cache + 1) * 256 ^ (e.cacheLen - 1).toNat * 2 ^ 32 + e.low
  top : (e.cache + 1) * 256 ^ (e.cacheLen - 1).toNat * 2 ^ 32 + e.low + r ≤
    256 * 256 ^ (e.cacheLen - 1).toNat * 2 ^ 32 + 2 ^ 32
  lowr : e.low + r < 2 ^ 33

/-- The range encoder `e` simulates the reference encoder `r`. -/
def Sim (e : rangeEncoder) (r : RefEncoder) : Prop :=
  EncInv e r.low r.shifts r.nrange ∧ e.nrange = r.nrange

/-- The invariant of the reference encoder between calls: the range is
normalized and the interval `[low, low + nrange)` lies below
`(2^32 - 1) * 256^shifts`. -/
structure RefOK (r : RefEncoder) : Prop where
  lo : 2 ^ 24 ≤ r.nrange
  hi : r.nrange < 2 ^ 32
  top : r.low + r.nrange ≤ (2 ^ 32 - 1) * 256 ^ r.shifts

/-- `Compressed()` before and after `Close`, for a fresh encoder on the writer
`w` after the calls `ops`; `none` if a call fails. -/
def closeGrowth (w : ByteSink) (ops : List Op) : Option (Int × Int) :=
  match newRangeEncoder w with
  | (some e0, none) =>
    match encodeOps ops e0 freshModels with
    | (e1, _, none) =>
      match e1.Close with
      | (e2, none) => some (e1.Compressed, e2.Compressed)
      | (_, some _) => none
    | (_, _, some _) => none
  | _ => none

/-- The update of a probability value for one coded bit, as made by `EncodeBit`
and `DecodeBit`: `inc` on a zero bit, `dec` on a one bit. -/
def prob.update (p : prob) (b : Nat) : Nat :=
  if b &&& 1 = 0 then prob.inc p else prob.dec p

/-- A probability value after a sequence of coded bits. -/
def prob.updates (p : prob) (bs : List Nat) : Nat := bs.foldl prob.update p

/-- One call on an encoder by its user: `EncodeBit(b, p_i)`, `DirectEncodeBit(b)`
or `Close()`. -/
inductive Call where
  | bit (b : Nat) (i : Nat)
  | direct (b : Nat)
  | close
  deriving DecidableEq, Repr

/-- Performs one call; the error is returned next to the state left behind. -/
def applyCall (c : Call) (e : rangeEncoder) (m : Nat → prob) :
    rangeEncoder × (Nat → prob) × Option Err :=
  match c with
  | Call.bit b i =>
    match e.EncodeBit b (m i) with
    | (e1, p, err) => (e1, Function.update m i p, err)
  | Call.direct b =>
    match e.DirectEncodeBit b with
    | (e1, err) => (e1, m, err)
  | Call.close =>
    match e.Close with
    | (e1, err) => (e1, m, err)

/-- Performs a sequence of calls, going on after a failed call, and returns the
final state together with the errors of the calls in order. -/
def runCalls : List Call → rangeEncoder → (Nat → prob) →
    rangeEncoder × (Nat → prob) × List (Option Err)
  | [], e, m => (e, m, [])
  | c :: cs, e, m =>
    match applyCall c e m with
    | (e1, m1, err) =>
      match runCalls cs e1 m1 with
      | (e2, m2, errs) => (e2, m2, err :: errs)

/-- What `Available()`, the error of `Close()` and `Compressed()` after `Close()`
are for a new encoder with the given limit on an accepting writer. -/
def closeOfNew (limit : Int) : Option (Int × Option Err × Int) :=
  (newRangeEncoderLimit ByteSink.accepting limit).1.map
    fun e => (e.Available, e.Close.2, e.Close.1.Compressed)

/-- The byte accounting of a limited encoder: the limit is `L`, at least one
byte is cached, the bytes counted are those the writer holds beyond its first
`base` bytes, and they leave room for five more below the limit. -/
structure LimInv (e : rangeEncoder) (L : Int) (base : Nat) : Prop where
  lim : e.w.limit = L
  clen : 1 ≤ e.cacheLen
  nonneg : 0 ≤ e.w.n
  room : e.w.n + 5 ≤ L
  len : (e.w.bw.written.length : Int) = base + e.w.n

/-- The decoder's `code` and `nrange` after `newRangeDecoder` on the input
followed by one `DirectDecodeBit()`; `none` if one of the two fails. -/
def directAfterInit (inp : List Nat) : Option (Nat × Nat) :=
  match newRangeDecoder inp with
  | (d, none) =>
    match d.DirectDecodeBit with
    | (d1, _, none) => some (d1.code, d1.nrange)
    | (_, _, some _) => none
  | (_, some _) => none

/-- The encoder's normalize as the specification words it: while
`nrange < 2^24`, shift `nrange` left by 8 and shift the top byte of `low` out
with `shiftLow`.  The first argument bounds the number of iterations. -/
def rangeEncoder.normalizeLoop : Nat → rangeEncoder → rangeEncoder × Option Err
  | 0, e => (e, none)
  | f + 1, e =>
    if e.nrange < 2 ^ 24 then
      match rangeEncoder.shiftLow { e with nrange := (e.nrange <<< 8) % 2 ^ 32 } with
      | (e1, some err) => (e1, some err)
      | (e1, none) => rangeEncoder.normalizeLoop f e1
    else (e, none)

/-- The decoder's normalize as the specification words it: while
`nrange < 2^24`, shift `nrange` left by 8 and fold one input byte into `code`.
The first argument bounds the number of iterations. -/
def rangeDecoder.normalizeLoop : Nat → rangeDecoder → rangeDecoder × Option Err
  | 0, d => (d, none)
  | f + 1, d =>
    if d.nrange < 2 ^ 24 then
      match rangeDecoder.updateCode { d with nrange := (d.nrange <<< 8) % 2 ^ 32 } with
      | (d1, some err) => (d1, some err)
      | (d1, none) => rangeDecoder.normalizeLoop f d1
    else (d, none)

/-! ## Decoder dictionary -/

/-- The error conditions of the decoder dictionary. -/
inductive DictErr where
  /-- Invalid capacity at construction. -/
  | invalidCapacity
  /-- No room: the buffer is full, or the copy would exceed `bufCap`. -/
  | noRoom
  /-- Invalid distance of a match. -/
  | invalidDistance
  /-- A match whose length is not positive. -/
  | invalidLength
  /-- Fewer bytes are buffered than `peek` was asked for. -/
  | shortBuffer
  deriving DecidableEq, Repr

/-- Modelled from the spec: the type `decoderDict` (Decoder Dictionary), whose
declaration is not among the source files, only its test.  A ring buffer `data`
of physical capacity `bufCap` with modulo-indexed cursors, the history capacity
`capacity` (`dictCap`), and the counters `totalWritten` and `totalRead`. -/
structure decoderDict where
  data : Nat → Nat
  capacity : Nat
  bufCap : Nat
  totalWritten : Nat
  totalRead : Nat

/-- Modelled from the spec: `create(dictCap, bufCap)` (`initDecoderDict`) fails
with an invalid-capacity error if `dictCap == 0` or `bufCap < dictCap`. -/
def initDecoderDict (dictCap bufCap : Nat) : Except DictErr decoderDict :=
  if dictCap = 0 ∨ bufCap < dictCap then Except.error DictErr.invalidCapacity
  else
    Except.ok { data := fun _ => 0, capacity := dictCap, bufCap := bufCap,
                totalWritten := 0, totalRead := 0 }

/-- Modelled from the spec: `len()` is `min(totalWritten, dictCap)`. -/
def decoderDict.Len (d : decoderDict) : Nat := min d.totalWritten d.capacity

/-- Modelled from the spec: `buffered()` is `totalWritten - totalRead`. -/
def decoderDict.Buffered (d : decoderDict) : Nat := d.totalWritten - d.totalRead

/-- Modelled from the spec: `byteAt(distance)` returns the byte `distance`
positions behind the write cursor, and 0 for `distance <= 0` or
`distance > dictCap`. -/
def decoderDict.ByteAt (d : decoderDict) (distance : Int) : Nat :=
  if distance ≤ 0 ∨ distance > d.capacity then 0
  else d.data ((d.totalWritten + d.bufCap - distance.toNat) % d.bufCap)

/-- Modelled from the spec: `writeByte(b)` appends one byte at the write cursor
and fails with "no room" if `totalWritten - totalRead == bufCap`. -/
def decoderDict.WriteByte (d : decoderDict) (b : Nat) : decoderDict × Option DictErr :=
  if d.totalWritten - d.totalRead = d.bufCap then (d, some DictErr.noRoom)
  else
    ({ d with data := Function.update d.data (d.totalWritten % d.bufCap) b,
              totalWritten := d.totalWritten + 1 }, none)

/-- Modelled from the spec: the copy of `writeMatch`, one byte at a time, the
cursor advancing after each byte: `n` successive `WriteByte(ByteAt(distance))`
calls, stopping at the first error. -/
def decoderDict.copyLoop : Nat → decoderDict → Int → decoderDict × Option DictErr
  | 0, d, _ => (d, none)
  | n + 1, d, distance =>
    match d.WriteByte (d.ByteAt distance) with
    | (d1, some err) => (d1, some err)
    | (d1, none) => decoderDict.copyLoop n d1 distance

/-- Modelled from the spec: `writeMatch(distance, length)` requires
`0 < distance <= min(Len(), dictCap)` and `length > 0`, fails with "invalid
distance" or "no room", and checks distance and room before any byte is
written. -/
def decoderDict.WriteMatch (d : decoderDict) (distance length : Int) :
    decoderDict × Option DictErr :=
  if distance ≤ 0 ∨ distance > d.Len ∨ distance > d.capacity then
    (d, some DictErr.invalidDistance)
  else if length ≤ 0 then (d, some DictErr.invalidLength)
  else if (d.Buffered : Int) + length > d.bufCap then (d, some DictErr.noRoom)
  else decoderDict.copyLoop length.toNat d distance

/-- The `n` oldest buffered bytes, in write order. -/
def decoderDict.oldest (d : decoderDict) (n : Nat) : List Nat :=
  (List.range n).map fun j => d.data ((d.totalRead + j) % d.bufCap)

/-- Modelled from the spec: `peek(buf)` copies the oldest `len(buf)` buffered
bytes without advancing the read cursor and fails with a short-buffer error if
fewer bytes are buffered.  The result is the bytes copied and the error. -/
def decoderDict.Peek (d : decoderDict) (k : Nat) : List Nat × Option DictErr :=
  if d.Buffered < k then ([], some DictErr.shortBuffer)
  else (d.oldest k, none)

/-- Modelled from the spec: `read(buf)` delivers up to `len(buf)` oldest buffered
bytes in write order and advances the read cursor; a partial or empty result is
no error.  The result is the dictionary, the bytes delivered and the error. -/
def decoderDict.Read (d : decoderDict) (k : Nat) :
    decoderDict × List Nat × Option DictErr :=
  ({ d with totalRead := d.totalRead + min k d.Buffered }, d.oldest (min k d.Buffered), none)

/-- One call on the dictionary by its user. -/
inductive DictOp where
  | writeByte (b : Nat)
  | writeMatch (distance length : Int)
  | read (k : Nat)
  deriving DecidableEq, Repr

/-- Runs a sequence of calls in which every write succeeds, and returns the
final dictionary with the results of the `Read` calls in order; `none` if a
write fails. -/
def runDict : List DictOp → decoderDict → Option (decoderDict × List (List Nat))
  | [], d => some (d, [])
  | DictOp.writeByte b :: ops, d =>
    match d.WriteByte b with
    | (d1, none) => runDict ops d1
    | (_, some _) => none
  | DictOp.writeMatch distance length :: ops, d =>
    match d.WriteMatch distance length with
    | (d1, none) => runDict ops d1
    | (_, some _) => none
  | DictOp.read k :: ops, d =>
    match d.Read k with
    | (d1, out, _) =>
      match runDict ops d1 with
      | some (d2, outs) => some (d2, out :: outs)
      | none => none

/-- The bytes a match of `n` bytes at `distance` appends to the history `hist`:
each byte is the one `distance` positions before the end of the history
extended so far (the LZ77 overlapping copy). -/
def matchBytes : Nat → List Nat → Nat → List Nat
  | 0, _, _ => []
  | n + 1, hist, distance =>
    hist.getD (hist.length - distance) 0 ::
      matchBytes n (hist ++ [hist.getD (hist.length - distance) 0]) distance

/-- The sequence of all bytes written by a sequence of calls, literals and match
expansions in order, starting from the bytes `hist` written before. -/
def writtenBy : List DictOp → List Nat → List Nat
  | [], hist => hist
  | DictOp.writeByte b :: ops, hist => writtenBy ops (hist ++ [b])
  | DictOp.writeMatch distance length :: ops, hist =>
    writtenBy ops (hist ++ matchBytes length.toNat hist distance.toNat)
  | DictOp.read _ :: ops, hist => writtenBy ops hist

/-- The dictionary `d` holds the history `ws`: the counters fit, and each of the
last `bufCap` bytes written is in its slot of the ring. -/
structure DictInv (d : decoderDict) (ws : List Nat) : Prop where
  tw : d.totalWritten = ws.length
  rd : d.totalRead ≤ d.totalWritten
  buf : d.totalWritten - d.totalRead ≤ d.bufCap
  capPos : 0 < d.capacity
  capLe : d.capacity ≤ d.bufCap
  slots : ∀ i, i < ws.length → ws.length ≤ i + d.bufCap → d.data (i % d.bufCap) = ws.getD i 0

/-- The scenario of the dictionary test up to the first `Read`. -/
def testOps1 : List DictOp :=
  [DictOp.writeByte 97, DictOp.writeByte 98, DictOp.writeByte 99, DictOp.writeByte 100,
   DictOp.writeMatch 4 5]

/-- The whole scenario of the dictionary test. -/
def testOps2 : List DictOp :=
  testOps1 ++ [DictOp.read 7, DictOp.writeMatch 3 3, DictOp.read 8]

/-- The dictionary after a scenario on a new dictionary with the capacities of
the test, with the results of the `Read` calls. -/
def testRun (ops : List DictOp) : Option (decoderDict × List (List Nat)) :=
  match initDecoderDict 8 12 with
  | Except.ok d => runDict ops d
  | Except.error _ => none

/-! ## Arithmetic of the machine operations -/

theorem mask_of_lsb (x b : Nat) (hx : x < 2 ^ 64) :
    x &&& ((2 ^ 64 - (b &&& 1)) % 2 ^ 64) = if b &&& 1 = 0 then 0 else x := by
  rw [Nat.and_one_is_mod]
  rcases Nat.mod_two_eq_zero_or_one b with h | h
  · simp [h]
  · rw [h]
    have h1 : (2 ^ 64 - 1) % 2 ^ 64 = 2 ^ 64 - 1 := by norm_num
    rw [h1, Nat.and_pow_two_sub_one_eq_mod, Nat.mod_eq_of_lt hx]
    simp

theorem shl8_or (c b : Nat) (hb : b < 256) :
    ((c <<< 8) % 2 ^ 32) ||| b = (c % 2 ^ 24) * 256 + b := by
  have h1 : (c <<< 8) % 2 ^ 32 = 2 ^ 8 * (c % 2 ^ 24) := by
    simp only [Nat.shiftLeft_eq]; omega
  rw [h1, ← Nat.mul_add_lt_is_or (by simpa using hb)]
  omega

theorem lsb_le_one (b : Nat) : b &&& 1 ≤ 1 := by
  rw [Nat.and_one_is_mod]; omega

theorem writeByte_ok (e : rangeEncoder) (c : Nat)
    (hrej : ∀ i, e.w.bw.rejects i = false) (hlen : 1 ≤ e.cacheLen)
    (hav : 1 ≤ e.Available) :
    e.writeByte c =
      ({ e with
          w := { e.w with
                 bw := { e.w.bw with written := e.w.bw.written ++ [c],
                                     calls := e.w.bw.calls + 1 },
                 n := e.w.n + 1 } }, none) := by
  unfold rangeEncoder.Available at hav
  have h1 : ¬ (e.Available < 1) := by unfold rangeEncoder.Available; omega
  have h2 : ¬ (e.w.n ≥ e.w.limit) := by omega
  simp [rangeEncoder.writeByte, lbcWriter.WriteByte, ByteSink.WriteByte, h1, h2, hrej]

theorem emitLoop_ok (k : Nat) : ∀ (fuel : Nat) (e : rangeEncoder) (tmp : Nat),
    k ≤ fuel → (∀ i, e.w.bw.rejects i = false) → e.cacheLen = k + 1 →
    1 ≤ e.Available →
    e.emitLoop fuel tmp =
      ({ e with
          w := { e.w with
                 bw := { e.w.bw with
                         written := e.w.bw.written ++
                           ((tmp + (e.low >>> 32) % 256) % 256 ::
                             List.replicate k ((0xff + (e.low >>> 32) % 256) % 256)),
                         calls := e.w.bw.calls + (k + 1) },
                 n := e.w.n + (k + 1) },
          cacheLen := 0 }, none) := by
  induction k with
  | zero =>
    intro fuel e tmp _ hrej hlen hav
    have hw := writeByte_ok e ((tmp + (e.low >>> 32) % 256) % 256) hrej (by omega) hav
    unfold rangeEncoder.emitLoop
    rw [hw]
    simp [hlen]
  | succ k ih =>
    intro fuel e tmp hf hrej hlen hav
    have hw := writeByte_ok e ((tmp + (e.low >>> 32) % 256) % 256) hrej (by omega) hav
    obtain ⟨f, rfl⟩ : ∃ f, fuel = f + 1 := ⟨fuel - 1, by omega⟩
    unfold rangeEncoder.emitLoop
    rw [hw]
    have h3 : ¬ ((k : Int) + 1 + 1 - 1 ≤ 0) := by omega
    simp only [hlen, h3, if_false]
    rw [ih f _ 0xff (by omega) (by simpa using hrej) (by simp)
      (by unfold rangeEncoder.Available at hav ⊢; simp at hlen ⊢; omega)]
    have e1 : 1 + (k + 1) = k + 1 + 1 := by omega
    have e2 : (1 : Int) + ((k : Int) + 1) = ((k + 1 : Nat) : Int) + 1 := by push_cast; omega
    simp [List.replicate_succ, add_assoc, e1, e2]
    intro h; omega

theorem beVal_append (xs ys : List Nat) :
    beVal (xs ++ ys) = beVal xs * 256 ^ ys.length + beVal ys := by
  induction ys using List.reverseRecOn generalizing xs with
  | nil => simp [beVal]
  | append_singleton ys y ih =>
    have h1 : beVal (xs ++ (ys ++ [y])) = beVal (xs ++ ys) * 256 + y := by
      simp [beVal, ← List.append_assoc, List.foldl_append]
    have h2 : beVal (ys ++ [y]) = beVal ys * 256 + y := by
      simp [beVal, List.foldl_append]
    rw [h1, h2, ih]
    simp [pow_succ]
    ring

theorem beVal_nil : beVal [] = 0 := rfl

theorem beVal_cons (x : Nat) (xs : List Nat) :
    beVal (x :: xs) = x * 256 ^ xs.length + beVal xs := by
  have := beVal_append [x] xs
  simpa [beVal] using this

theorem beVal_replicate_zero (k : Nat) : beVal (List.replicate k 0) = 0 := by
  induction k with
  | zero => rfl
  | succ k ih => rw [List.replicate_succ, beVal_cons, ih]; simp

theorem beVal_replicate_ff (k : Nat) : beVal (List.replicate k 255) + 1 = 256 ^ k := by
  induction k with
  | zero => rfl
  | succ k ih =>
    rw [List.replicate_succ, beVal_cons, List.length_replicate, pow_succ]
    omega

theorem beVal_pending_ff (W : List Nat) (c k : Nat) :
    beVal (W ++ c :: List.replicate k 255) + 1 = (beVal W * 256 + c + 1) * 256 ^ k := by
  rw [beVal_append, beVal_cons]
  simp only [List.length_cons, List.length_replicate, pow_succ]
  have := beVal_replicate_ff k
  nlinarith [this]

theorem beVal_pending_zero (W : List Nat) (c k : Nat) :
    beVal (W ++ c :: List.replicate k 0) = (beVal W * 256 + c) * 256 ^ k := by
  rw [beVal_append, beVal_cons, beVal_replicate_zero]
  simp only [List.length_cons, List.length_replicate, pow_succ]
  ring

theorem beVal_lt (W : List Nat) (h : ∀ b ∈ W, b < 256) : beVal W < 256 ^ W.length := by
  induction W using List.reverseRecOn with
  | nil => simp [beVal]
  | append_singleton ys y ih =>
    rw [beVal_append]
    have h1 := ih (fun b hb => h b (by simp [hb]))
    have h2 : y < 256 := h y (by simp)
    have h3 : beVal [y] = y := by simp [beVal]
    rw [h3, List.length_append, List.length_singleton, pow_succ]
    simp only [pow_one] at *
    omega

theorem shiftLow_inv (e : rangeEncoder) (L s r : Nat) (h : EncInv e L s r)
    (hr1 : 1 ≤ r) (hr : r < 2 ^ 24) (hroom : (s : Int) + 6 ≤ e.w.limit) :
    ∃ e', e.shiftLow = (e', none) ∧ EncInv e' (L * 256) (s + 1) (r * 256) ∧
      e'.nrange = e.nrange ∧ e'.w.limit = e.w.limit ∧
      e'.low = e.low % 2 ^ 32 * 256 % 2 ^ 32 ∧
      (e.low = 0 → e'.cacheLen = 1 ∧ e'.cache = 0) ∧
      ∃ ys, e'.w.bw.written = e.w.bw.written ++ ys := by
  obtain ⟨k, hk⟩ : ∃ k : Nat, e.cacheLen = k + 1 :=
    ⟨(e.cacheLen - 1).toNat, by have := h.clen; omega⟩
  have hk' : (e.cacheLen - 1).toNat = k := by omega
  have hav : 1 ≤ e.Available := by
    unfold rangeEncoder.Available; have := h.shifts; omega
  have hval := h.val
  have htop := h.top
  have hlowr := h.lowr
  have hcl := h.cacheLt
  have hcnt := h.cnt
  have hsh := h.shifts
  rw [hk'] at hval htop
  have hM : 1 ≤ 256 ^ k := Nat.one_le_pow _ _ (by norm_num)
  unfold rangeEncoder.shiftLow
  by_cases hc : e.low % 2 ^ 32 < 0xff000000 ∨ e.low >>> 32 ≠ 0
  · rw [if_pos hc, hk', emitLoop_ok k k e e.cache le_rfl h.norej hk hav]
    simp only
    refine ⟨_, rfl, ?_, rfl, rfl, ?_, ?_, ⟨_, rfl⟩⟩
    · by_cases hcarry : e.low < 2 ^ 32
      · have hc0 : (e.low >>> 32) % 256 = 0 := by
          rw [Nat.shiftRight_eq_div_pow]; omega
        have hlt : e.low < 0xff000000 := by
          rcases hc with hc | hc
          · omega
          · exfalso; apply hc; rw [Nat.shiftRight_eq_div_pow]; omega
        have hB := beVal_pending_ff e.w.bw.written e.cache k
        rw [hc0]
        simp only [add_zero, Nat.mod_eq_of_lt hcl, Nat.reduceMod]
        generalize (beVal e.w.bw.written * 256 + e.cache + 1) * 256 ^ k = X at hB hval
        constructor
        · exact h.norej
        · intro b hb
          simp only [List.mem_append, List.mem_cons, List.mem_replicate] at hb
          rcases hb with hb | hb | hb
          · exact h.bytes b hb
          · omega
          · omega
        · simp; omega
        · simp
        · simp; omega
        · simp only; omega
        · simp [Nat.shiftRight_eq_div_pow, Nat.shiftLeft_eq]; omega
        · simp [Nat.shiftRight_eq_div_pow, Nat.shiftLeft_eq]; omega
        · simp [Nat.shiftRight_eq_div_pow, Nat.shiftLeft_eq]; omega
      · have hc1 : (e.low >>> 32) % 256 = 1 := by
          rw [Nat.shiftRight_eq_div_pow]; omega
        have hcache : e.cache + 1 < 256 := by
          by_contra hge
          have : 256 * 256 ^ k ≤ (e.cache + 1) * 256 ^ k :=
            Nat.mul_le_mul_right _ (by omega)
          nlinarith
        have hB := beVal_pending_zero e.w.bw.written (e.cache + 1) k
        rw [hc1]
        simp only [Nat.mod_eq_of_lt hcache, Nat.reduceAdd, Nat.reduceMod]
        rw [← add_assoc] at hB
        generalize (beVal e.w.bw.written * 256 + e.cache + 1) * 256 ^ k = X at hB hval
        constructor
        · exact h.norej
        · intro b hb
          simp only [List.mem_append, List.mem_cons, List.mem_replicate] at hb
          rcases hb with hb | hb | hb
          · exact h.bytes b hb
          · omega
          · omega
        · simp; omega
        · simp
        · simp; omega
        · simp only; omega
        · simp [Nat.shiftRight_eq_div_pow, Nat.shiftLeft_eq]; omega
        · simp [Nat.shiftRight_eq_div_pow, Nat.shiftLeft_eq]; omega
        · simp [Nat.shiftRight_eq_div_pow, Nat.shiftLeft_eq]; omega
    · simp only [Nat.shiftLeft_eq]
    · intro h0
      simp [h0]
  · rw [if_neg hc]
    refine ⟨_, rfl, ?_, rfl, rfl, ?_, ?_, ⟨[], by simp⟩⟩
    · have hlow : 0xff000000 ≤ e.low ∧ e.low < 2 ^ 32 := by
        have h1 : ¬ (e.low % 2 ^ 32 < 0xff000000) := fun h => hc (Or.inl h)
        have h2 : e.low >>> 32 = 0 := by
          by_contra h; exact hc (Or.inr h)
        rw [Nat.shiftRight_eq_div_pow] at h2
        omega
      have hk2 : (e.cacheLen + 1 - 1).toNat = k + 1 := by omega
      generalize hX : (beVal e.w.bw.written * 256 + e.cache + 1) * 256 ^ k = X at hval
      generalize hY : (e.cache + 1) * 256 ^ k = Y at htop
      constructor
      · exact h.norej
      · exact h.bytes
      · exact h.cnt
      · simp only; omega
      · simp only; omega
      · exact h.cacheLt
      · simp only [hk2, pow_succ, Nat.shiftLeft_eq]
        have : (beVal e.w.bw.written * 256 + e.cache + 1) * (256 ^ k * 256) = X * 256 := by
          rw [← hX]; ring
        rw [this]; omega
      · simp only [hk2, pow_succ, Nat.shiftLeft_eq]
        have : (e.cache + 1) * (256 ^ k * 256) = Y * 256 := by rw [← hY]; ring
        rw [this]; omega
      · simp only [Nat.shiftLeft_eq]; omega
    · simp only [Nat.shiftLeft_eq]
    · intro h0
      exfalso; apply hc; left; rw [h0]; norm_num

/-! ## Probability values -/

theorem probOK_init : probOK probInit := by
  unfold probOK probInit; omega

theorem probOK_inc (p : Nat) (h : probOK p) : probOK (prob.inc p) := by
  unfold probOK prob.inc at *
  rw [Nat.shiftRight_eq_div_pow]
  omega

theorem probOK_dec (p : Nat) (h : probOK p) : probOK (prob.dec p) := by
  unfold probOK prob.dec at *
  rw [Nat.shiftRight_eq_div_pow]
  omega

theorem probOK_update (m : Nat → prob) (i : Nat) (p : Nat)
    (hm : ∀ j, probOK (m j)) (hp : probOK p) : ∀ j, probOK (Function.update m i p j) := by
  intro j
  by_cases hj : j = i
  · subst hj; simpa using hp
  · simpa [Function.update_noteq hj] using hm j

theorem bound_eq (p : Nat) (R : Nat) (hp : p ≤ 2048) (hR : R < 2 ^ 32) :
    prob.bound p R = R / 2048 * p ∧ R / 2048 * p ≤ R := by
  unfold prob.bound
  rw [Nat.shiftRight_eq_div_pow]
  have h1 : R / 2 ^ 11 * p ≤ R / 2 ^ 11 * 2048 := Nat.mul_le_mul_left _ hp
  have h2 : R / 2 ^ 11 * 2048 ≤ R := by omega
  constructor
  · rw [Nat.mod_eq_of_lt (by omega)]
  · norm_num at *; omega

theorem bound_range (p : Nat) (R : Nat) (hp : probOK p) (h24 : 2 ^ 24 ≤ R)
    (hR : R < 2 ^ 32) :
    2 ^ 16 ≤ prob.bound p R ∧ prob.bound p R + 2 ^ 16 ≤ R := by
  obtain ⟨hp1, hp2⟩ := hp
  rw [(bound_eq p R (by omega) hR).1]
  have h1 : R / 2048 * 31 ≤ R / 2048 * p := Nat.mul_le_mul_left _ hp1
  have h2 : R / 2048 * p ≤ R / 2048 * 2017 := Nat.mul_le_mul_left _ hp2
  constructor <;> omega

/-! ## The reference encoder -/

theorem ref_normalize_ok (L R s : Nat) (h16 : 2 ^ 16 ≤ R) (hR : R < 2 ^ 32)
    (htop : L + R ≤ (2 ^ 32 - 1) * 256 ^ s) :
    RefOK (RefEncoder.normalize { low := L, nrange := R, shifts := s }) := by
  unfold RefEncoder.normalize
  by_cases h : R ≥ 2 ^ 24
  · simp only [h, if_true]
    exact ⟨h, hR, htop⟩
  · simp only [h, if_false]
    refine ⟨?_, ?_, ?_⟩
    · simp only [Nat.shiftLeft_eq]; omega
    · simp only [Nat.shiftLeft_eq]; omega
    · simp only [Nat.shiftLeft_eq, pow_succ]
      generalize 256 ^ s = P at *
      omega

/-- What `normalize` of the reference encoder does to a state with a range
below `2^32`: it scales by `256^k` with `k` at most one. -/
theorem ref_normalize_scale (L R s : Nat) (hR : R < 2 ^ 32) :
    ∃ k, k ≤ 1 ∧ (k = 1 ↔ R < 2 ^ 24) ∧
      RefEncoder.normalize { low := L, nrange := R, shifts := s } =
        { low := L * 256 ^ k, nrange := R * 256 ^ k, shifts := s + k } := by
  unfold RefEncoder.normalize
  by_cases h : R ≥ 2 ^ 24
  · exact ⟨0, by omega, by omega, by rw [if_pos h]; simp⟩
  · refine ⟨1, le_rfl, by omega, ?_⟩
    simp only [h, if_false, Nat.shiftLeft_eq, pow_one]
    congr 1
    omega

/-! ## The range encoder simulates the reference encoder -/

theorem normalize_sim (e : rangeEncoder) (L s : Nat) (h : EncInv e L s e.nrange)
    (hr1 : 1 ≤ e.nrange) (hr : e.nrange < 2 ^ 32) (hroom : (s : Int) + 6 ≤ e.w.limit) :
    ∃ e', e.normalize = (e', none) ∧
      Sim e' (RefEncoder.normalize { low := L, nrange := e.nrange, shifts := s }) ∧
      e'.w.limit = e.w.limit := by
  unfold rangeEncoder.normalize RefEncoder.normalize
  by_cases hge : e.nrange ≥ 2 ^ 24
  · simp only [hge, if_true]
    exact ⟨e, rfl, ⟨h, rfl⟩, rfl⟩
  · simp only [hge, if_false]
    have h0 : EncInv { e with nrange := (e.nrange <<< 8) % 2 ^ 32 } L s e.nrange :=
      ⟨h.norej, h.bytes, h.cnt, h.clen, h.shifts, h.cacheLt, h.val, h.top, h.lowr⟩
    obtain ⟨e', he, hinv, hn, hl, _, _, _⟩ :=
      shiftLow_inv _ L s e.nrange h0 hr1 (by omega) hroom
    refine ⟨e', he, ⟨?_, ?_⟩, hl⟩
    · have h2 : (e.nrange <<< 8) % 2 ^ 32 = e.nrange * 256 := by
        simp only [Nat.shiftLeft_eq]; omega
      show EncInv e' (L * 256) (s + 1) ((e.nrange <<< 8) % 2 ^ 32)
      rw [h2]; exact hinv
    · simpa using hn

theorem EncodeBit_sim (e : rangeEncoder) (r : RefEncoder) (b p : Nat)
    (h : Sim e r) (hr : RefOK r) (hp : probOK p)
    (hroom : (r.shifts : Int) + 6 ≤ e.w.limit) :
    ∃ e', e.EncodeBit b p = (e', (r.EncodeBit b p).2, none) ∧
      Sim e' (r.EncodeBit b p).1 ∧ e'.w.limit = e.w.limit := by
  obtain ⟨hinv, hn⟩ := h
  obtain ⟨hb1, hb2⟩ := bound_range p r.nrange hp hr.lo hr.hi
  have hhi := hr.hi
  unfold rangeEncoder.EncodeBit RefEncoder.EncodeBit
  rw [hn]
  by_cases hb : b &&& 1 = 0
  · simp only [hb, if_true]
    have h0 : EncInv { e with nrange := prob.bound p r.nrange } r.low r.shifts
        (prob.bound p r.nrange) :=
      ⟨hinv.norej, hinv.bytes, hinv.cnt, hinv.clen, hinv.shifts, hinv.cacheLt, hinv.val,
        by have := hinv.top; simp only; omega, by have := hinv.lowr; simp only; omega⟩
    obtain ⟨e', he, hs, hl⟩ := normalize_sim _ r.low r.shifts h0
      (by simp only; omega) (by simp only; omega) hroom
    exact ⟨e', by rw [he], hs, hl⟩
  · simp only [hb, if_false]
    have hlow : (e.low + prob.bound p r.nrange) % 2 ^ 64 = e.low + prob.bound p r.nrange := by
      have := hinv.lowr; omega
    have hrg : (r.nrange + 2 ^ 32 - prob.bound p r.nrange) % 2 ^ 32 =
        r.nrange - prob.bound p r.nrange := by omega
    rw [hlow, hrg]
    have h0 : EncInv { e with low := e.low + prob.bound p r.nrange,
                              nrange := r.nrange - prob.bound p r.nrange }
        (r.low + prob.bound p r.nrange) r.shifts (r.nrange - prob.bound p r.nrange) :=
      ⟨hinv.norej, hinv.bytes, hinv.cnt, hinv.clen, hinv.shifts, hinv.cacheLt,
        by have := hinv.val; simp only; omega,
        by have := hinv.top; simp only; omega, by have := hinv.lowr; simp only; omega⟩
    obtain ⟨e', he, hs, hl⟩ := normalize_sim _ _ r.shifts h0
      (by simp only; omega) (by simp only; omega) hroom
    exact ⟨e', by rw [he], hs, hl⟩

theorem DirectEncodeBit_sim (e : rangeEncoder) (r : RefEncoder) (b : Nat)
    (h : Sim e r) (hr : RefOK r) (hroom : (r.shifts : Int) + 6 ≤ e.w.limit) :
    ∃ e', e.DirectEncodeBit b = (e', none) ∧
      Sim e' (r.DirectEncodeBit b) ∧ e'.w.limit = e.w.limit := by
  obtain ⟨hinv, hn⟩ := h
  have hhi := hr.hi
  have hlo := hr.lo
  have hhalf : r.nrange >>> 1 = r.nrange / 2 := by
    rw [Nat.shiftRight_eq_div_pow]
  unfold rangeEncoder.DirectEncodeBit RefEncoder.DirectEncodeBit
  simp only [hn, hhalf]
  rw [mask_of_lsb _ b (by omega)]
  by_cases hb : b &&& 1 = 0
  · simp only [hb, if_true, add_zero]
    have hlow : e.low % 2 ^ 64 = e.low := by have := hinv.lowr; omega
    rw [hlow]
    have h0 : EncInv { e with nrange := r.nrange / 2, low := e.low } r.low r.shifts
        (r.nrange / 2) :=
      ⟨hinv.norej, hinv.bytes, hinv.cnt, hinv.clen, hinv.shifts, hinv.cacheLt, hinv.val,
        by have := hinv.top; simp only; omega, by have := hinv.lowr; simp only; omega⟩
    obtain ⟨e', he, hs, hl⟩ := normalize_sim _ r.low r.shifts h0
      (by simp only; omega) (by simp only; omega) hroom
    exact ⟨e', he, hs, hl⟩
  · simp only [hb, if_false]
    have hlow : (e.low + r.nrange / 2) % 2 ^ 64 = e.low + r.nrange / 2 := by
      have := hinv.lowr; omega
    rw [hlow]
    have h0 : EncInv { e with nrange := r.nrange / 2, low := e.low + r.nrange / 2 }
        (r.low + r.nrange / 2) r.shifts (r.nrange / 2) :=
      ⟨hinv.norej, hinv.bytes, hinv.cnt, hinv.clen, hinv.shifts, hinv.cacheLt,
        by have := hinv.val; simp only; omega,
        by have := hinv.top; simp only; omega, by have := hinv.lowr; simp only; omega⟩
    obtain ⟨e', he, hs, hl⟩ := normalize_sim _ _ r.shifts h0
      (by simp only; omega) (by simp only; omega) hroom
    exact ⟨e', he, hs, hl⟩

/-- One call of `EncodeBit` on the reference encoder: the new interval is the
chosen part of the old one, scaled by `256^k` for `k` shifts. -/
theorem ref_EncodeBit_step (r : RefEncoder) (b p : Nat) (hr : RefOK r) (hp : probOK p) :
    ∃ La Ra k, k ≤ 1 ∧ (k = 1 ↔ Ra < 2 ^ 24) ∧
      (r.EncodeBit b p).1 = { low := La * 256 ^ k, nrange := Ra * 256 ^ k,
                              shifts := r.shifts + k } ∧
      (r.EncodeBit b p).2 = (if b &&& 1 = 0 then prob.inc p else prob.dec p) ∧
      La = (if b &&& 1 = 0 then r.low else r.low + prob.bound p r.nrange) ∧
      Ra = (if b &&& 1 = 0 then prob.bound p r.nrange
            else r.nrange - prob.bound p r.nrange) ∧
      2 ^ 16 ≤ Ra ∧ Ra < 2 ^ 32 ∧ r.low ≤ La ∧ La + Ra ≤ r.low + r.nrange ∧
      RefOK (r.EncodeBit b p).1 ∧ probOK (r.EncodeBit b p).2 := by
  obtain ⟨hb1, hb2⟩ := bound_range p r.nrange hp hr.lo hr.hi
  have hhi := hr.hi
  have htop := hr.top
  unfold RefEncoder.EncodeBit
  by_cases hb : b &&& 1 = 0
  · simp only [hb, if_true]
    obtain ⟨k, hk1, hk2, hk3⟩ :=
      ref_normalize_scale r.low (prob.bound p r.nrange) r.shifts (by omega)
    refine ⟨_, _, k, hk1, hk2, hk3, trivial, rfl, rfl, hb1, by omega, le_rfl, by omega, ?_,
      probOK_inc p hp⟩
    exact ref_normalize_ok _ _ _ hb1 (by omega) (by omega)
  · simp only [hb, if_false]
    have hrg : (r.nrange + 2 ^ 32 - prob.bound p r.nrange) % 2 ^ 32 =
        r.nrange - prob.bound p r.nrange := by omega
    rw [hrg]
    obtain ⟨k, hk1, hk2, hk3⟩ :=
      ref_normalize_scale (r.low + prob.bound p r.nrange)
        (r.nrange - prob.bound p r.nrange) r.shifts (by omega)
    refine ⟨_, _, k, hk1, hk2, hk3, trivial, rfl, rfl, by omega, by omega, by omega, by omega,
      ?_, probOK_dec p hp⟩
    exact ref_normalize_ok _ _ _ (by omega) (by omega) (by omega)

/-- One call of `DirectEncodeBit` on the reference encoder. -/
theorem ref_DirectEncodeBit_step (r : RefEncoder) (b : Nat) (hr : RefOK r) :
    ∃ La k, k ≤ 1 ∧ (k = 1 ↔ r.nrange / 2 < 2 ^ 24) ∧
      r.DirectEncodeBit b = { low := La * 256 ^ k, nrange := r.nrange / 2 * 256 ^ k,
                              shifts := r.shifts + k } ∧
      La = (if b &&& 1 = 0 then r.low else r.low + r.nrange / 2) ∧
      r.low ≤ La ∧ La + r.nrange / 2 ≤ r.low + r.nrange ∧
      RefOK (r.DirectEncodeBit b) := by
  have hhi := hr.hi
  have hlo := hr.lo
  have htop := hr.top
  have hhalf : r.nrange >>> 1 = r.nrange / 2 := by
    rw [Nat.shiftRight_eq_div_pow]
  unfold RefEncoder.DirectEncodeBit
  simp only [hhalf]
  obtain ⟨k, hk1, hk2, hk3⟩ :=
    ref_normalize_scale (if b &&& 1 = 0 then r.low else r.low + r.nrange / 2)
      (r.nrange / 2) r.shifts (by omega)
  refine ⟨_, k, hk1, hk2, hk3, rfl, ?_, ?_, ?_⟩
  · split <;> omega
  · split <;> omega
  · apply ref_normalize_ok _ _ _ (by omega) (by omega)
    split <;> omega

/-- The interval of the reference encoder after a sequence of calls lies inside
the scaled interval it started from. -/
theorem refEncodeOps_nest (ops : List Op) : ∀ (r : RefEncoder) (m : Nat → prob),
    RefOK r → (∀ i, probOK (m i)) →
    ∃ d, (refEncodeOps ops r m).1.shifts = r.shifts + d ∧ d ≤ ops.length ∧
      r.low * 256 ^ d ≤ (refEncodeOps ops r m).1.low ∧
      (refEncodeOps ops r m).1.low + (refEncodeOps ops r m).1.nrange ≤
        (r.low + r.nrange) * 256 ^ d ∧
      RefOK (refEncodeOps ops r m).1 ∧ ∀ i, probOK ((refEncodeOps ops r m).2 i) := by
  induction ops with
  | nil =>
    intro r m hr hm
    exact ⟨0, by simp [refEncodeOps], by simp, by simp [refEncodeOps],
      by simp [refEncodeOps], hr, hm⟩
  | cons op ops ih =>
    intro r m hr hm
    cases op with
    | bit b i =>
      obtain ⟨La, Ra, k, hk1, _, hst, _, _, _, _, _, h1, h2, hok, hpok⟩ :=
        ref_EncodeBit_step r b (m i) hr (hm i)
      obtain ⟨d, hd1, hd2, hd3, hd4, hd5, hd6⟩ :=
        ih (r.EncodeBit b (m i)).1 (Function.update m i (r.EncodeBit b (m i)).2) hok
          (probOK_update m i _ hm hpok)
      simp only [refEncodeOps]
      have hs1 : (r.EncodeBit b (m i)).1.shifts = r.shifts + k := by rw [hst]
      have hs2 : (r.EncodeBit b (m i)).1.low = La * 256 ^ k := by rw [hst]
      have hs3 : (r.EncodeBit b (m i)).1.nrange = Ra * 256 ^ k := by rw [hst]
      rw [hs1] at hd1
      rw [hs2] at hd3 hd4
      rw [hs3] at hd4
      refine ⟨k + d, by rw [hd1]; omega, by simp only [List.length_cons]; omega,
        ?_, ?_, hd5, hd6⟩
      · refine le_trans ?_ hd3
        simp only [pow_add, ← mul_assoc]
        exact Nat.mul_le_mul_right _ (Nat.mul_le_mul_right _ h1)
      · refine le_trans hd4 ?_
        simp only [pow_add, ← mul_assoc, ← add_mul]
        exact Nat.mul_le_mul_right _ (Nat.mul_le_mul_right _ h2)
    | direct b =>
      obtain ⟨La, k, hk1, _, hst, _, h1, h2, hok⟩ := ref_DirectEncodeBit_step r b hr
      obtain ⟨d, hd1, hd2, hd3, hd4, hd5, hd6⟩ := ih (r.DirectEncodeBit b) m hok hm
      simp only [refEncodeOps]
      have hs1 : (r.DirectEncodeBit b).shifts = r.shifts + k := by rw [hst]
      have hs2 : (r.DirectEncodeBit b).low = La * 256 ^ k := by rw [hst]
      have hs3 : (r.DirectEncodeBit b).nrange = r.nrange / 2 * 256 ^ k := by rw [hst]
      rw [hs1] at hd1
      rw [hs2] at hd3 hd4
      rw [hs3] at hd4
      refine ⟨k + d, by rw [hd1]; omega, by simp only [List.length_cons]; omega,
        ?_, ?_, hd5, hd6⟩
      · refine le_trans ?_ hd3
        simp only [pow_add, ← mul_assoc]
        exact Nat.mul_le_mul_right _ (Nat.mul_le_mul_right _ h1)
      · refine le_trans hd4 ?_
        simp only [pow_add, ← mul_assoc, ← add_mul]
        exact Nat.mul_le_mul_right _ (Nat.mul_le_mul_right _ h2)

theorem RefOK_fresh : RefOK RefEncoder.fresh := by
  refine ⟨?_, ?_, ?_⟩ <;> simp [RefEncoder.fresh]

/-- A sequence of calls on a range encoder that simulates a reference encoder
succeeds, and the resulting states and models correspond. -/
theorem encodeOps_sim (ops : List Op) : ∀ (e : rangeEncoder) (r : RefEncoder)
    (m : Nat → prob), Sim e r → RefOK r → (∀ i, probOK (m i)) →
    (r.shifts : Int) + ops.length + 6 ≤ e.w.limit →
    ∃ e', encodeOps ops e m = (e', (refEncodeOps ops r m).2, none) ∧
      Sim e' (refEncodeOps ops r m).1 ∧ e'.w.limit = e.w.limit := by
  induction ops with
  | nil =>
    intro e r m h _ _ _
    exact ⟨e, rfl, h, rfl⟩
  | cons op ops ih =>
    intro e r m h hr hm hroom
    simp only [List.length_cons, Nat.cast_add, Nat.cast_one] at hroom
    cases op with
    | bit b i =>
      obtain ⟨e1, he1, hs1, hl1⟩ := EncodeBit_sim e r b (m i) h hr (hm i) (by omega)
      obtain ⟨La, Ra, k, hk1, _, hst, _, _, _, _, _, _, _, hok, hpok⟩ :=
        ref_EncodeBit_step r b (m i) hr (hm i)
      have hsh : (r.EncodeBit b (m i)).1.shifts = r.shifts + k := by rw [hst]
      obtain ⟨e2, he2, hs2, hl2⟩ := ih e1 _ _ hs1 hok (probOK_update m i _ hm hpok)
        (by rw [hsh, hl1]; push_cast; omega)
      refine ⟨e2, ?_, hs2, by rw [hl2, hl1]⟩
      simp only [encodeOps, refEncodeOps, he1]
      exact he2
    | direct b =>
      obtain ⟨e1, he1, hs1, hl1⟩ := DirectEncodeBit_sim e r b h hr (by omega)
      obtain ⟨La, k, hk1, _, hst, _, _, _, hok⟩ := ref_DirectEncodeBit_step r b hr
      have hsh : (r.DirectEncodeBit b).shifts = r.shifts + k := by rw [hst]
      obtain ⟨e2, he2, hs2, hl2⟩ := ih e1 _ m hs1 hok hm
        (by rw [hsh, hl1]; push_cast; omega)
      refine ⟨e2, ?_, hs2, by rw [hl2, hl1]⟩
      simp only [encodeOps, refEncodeOps, he1]
      exact he2

/-- A fresh encoder on an empty, never failing writer simulates the fresh
reference encoder. -/
theorem Sim_fresh (w : ByteSink) (hw : w.written = []) (hrej : ∀ i, w.rejects i = false)
    (limit : Int) :
    Sim { w := limitByteWriter w limit, nrange := 0xffffffff, low := 0,
          cacheLen := 1, cache := 0 } RefEncoder.fresh := by
  refine ⟨⟨hrej, ?_, ?_, ?_, ?_, ?_, ?_, ?_, ?_⟩, rfl⟩ <;>
    simp [limitByteWriter, hw, RefEncoder.fresh, beVal]

theorem EncInv_mono (e : rangeEncoder) (L s r r' : Nat) (h : EncInv e L s r)
    (hr : r' ≤ r) : EncInv e L s r' :=
  ⟨h.norej, h.bytes, h.cnt, h.clen, h.shifts, h.cacheLt, h.val,
    by have := h.top; omega, by have := h.lowr; omega⟩

/-- `Close` on an encoder that represents the exact value `L` after `s` shifts
succeeds and leaves exactly the `s + 5` bytes that spell `L`. -/
theorem Close_inv (e : rangeEncoder) (L s r : Nat) (h : EncInv e L s r) (hr : 1 ≤ r)
    (hroom : (s : Int) + 11 ≤ e.w.limit) :
    ∃ e', e.Close = (e', none) ∧ e'.w.bw.written.length = s + 5 ∧
      beVal e'.w.bw.written = L ∧ e'.w.n = s + 5 ∧
      (∀ b ∈ e'.w.bw.written, b < 256) ∧
      (∃ ys, e'.w.bw.written = e.w.bw.written ++ ys) ∧
      e'.low = 0 ∧ e'.cacheLen = 1 ∧ e'.cache = 0 ∧ e'.nrange = e.nrange := by
  have h0 := EncInv_mono e L s r 1 h hr
  obtain ⟨e1, he1, hi1, hn1, hl1, hw1, _, y1, hy1⟩ :=
    shiftLow_inv e L s 1 h0 le_rfl (by norm_num) (by omega)
  have h1 := EncInv_mono e1 _ _ _ 1 hi1 (by norm_num)
  obtain ⟨e2, he2, hi2, hn2, hl2, hw2, _, y2, hy2⟩ :=
    shiftLow_inv e1 _ _ 1 h1 le_rfl (by norm_num) (by rw [hl1]; push_cast; omega)
  have h2 := EncInv_mono e2 _ _ _ 1 hi2 (by norm_num)
  obtain ⟨e3, he3, hi3, hn3, hl3, hw3, _, y3, hy3⟩ :=
    shiftLow_inv e2 _ _ 1 h2 le_rfl (by norm_num) (by rw [hl2, hl1]; push_cast; omega)
  have h3 := EncInv_mono e3 _ _ _ 1 hi3 (by norm_num)
  obtain ⟨e4, he4, hi4, hn4, hl4, hw4, _, y4, hy4⟩ :=
    shiftLow_inv e3 _ _ 1 h3 le_rfl (by norm_num) (by rw [hl3, hl2, hl1]; push_cast; omega)
  have h4 := EncInv_mono e4 _ _ _ 1 hi4 (by norm_num)
  obtain ⟨e5, he5, hi5, hn5, hl5, hw5, hz5, y5, hy5⟩ :=
    shiftLow_inv e4 _ _ 1 h4 le_rfl (by norm_num)
      (by rw [hl4, hl3, hl2, hl1]; push_cast; omega)
  have hlow4 : e4.low = 0 := by omega
  obtain ⟨hc5, hk5⟩ := hz5 hlow4
  have hlow5 : e5.low = 0 := by omega
  have hval := hi5.val
  have hsh := hi5.shifts
  have hcnt := hi5.cnt
  rw [hc5, hk5, hlow5] at hval
  rw [hc5] at hsh
  have hz : ((1 : Int) - 1).toNat = 0 := rfl
  rw [hz, pow_zero] at hval
  have hlen : e5.w.bw.written.length = s + 5 := by omega
  have hL : beVal e5.w.bw.written = L := by omega
  have hn : e5.w.n = s + 5 := by omega
  have hpre : ∃ ys, e5.w.bw.written = e.w.bw.written ++ ys :=
    ⟨y1 ++ (y2 ++ (y3 ++ (y4 ++ y5))), by
      rw [hy5, hy4, hy3, hy2, hy1]; simp only [List.append_assoc]⟩
  have hnr : e5.nrange = e.nrange := by rw [hn5, hn4, hn3, hn2, hn1]
  have hcl : e.Close = (e5, none) := by
    unfold rangeEncoder.Close
    rw [rangeEncoder.closeLoop, he1]
    simp only
    rw [rangeEncoder.closeLoop, he2]
    simp only
    rw [rangeEncoder.closeLoop, he3]
    simp only
    rw [rangeEncoder.closeLoop, he4]
    simp only
    rw [rangeEncoder.closeLoop, he5]
    simp only
    rw [rangeEncoder.closeLoop]
  exact ⟨e5, hcl, hlen, hL, hn, hi5.bytes, hpre, hlow5, hc5, hk5, hnr⟩

/-! ## The range decoder -/

theorem ReadByte_cons (l : lbcReader) (b : Nat) (rest : List Nat)
    (hsrc : l.src = b :: rest) (hn : l.n < l.limit) (hb : b < 256) :
    l.ReadByte = ({ l with src := rest, n := l.n + 1 }, b, none) := by
  unfold lbcReader.ReadByte
  rw [if_neg (by omega), hsrc]
  simp [Nat.mod_eq_of_lt hb]

theorem updateCode_cons (d : rangeDecoder) (b : Nat) (rest : List Nat)
    (hsrc : d.r.src = b :: rest) (hn : d.r.n < d.r.limit) (hb : b < 256)
    (hc : d.code < 2 ^ 24) :
    d.updateCode =
      ({ d with r := { d.r with src := rest, n := d.r.n + 1 },
                code := d.code * 256 + b }, none) := by
  unfold rangeDecoder.updateCode
  rw [ReadByte_cons d.r b rest hsrc hn hb]
  simp only
  rw [shl8_or d.code b hb, Nat.mod_eq_of_lt hc]

/-- The decoder's `normalize` on a state with `code < nrange`: with `k` the
number of shifts (at most one) it multiplies the range by `256^k` and folds the
next `k` input bytes into `code`. -/
theorem dec_normalize_scale (d : rangeDecoder) (k : Nat) (hk : k ≤ 1)
    (hk1 : k = 1 ↔ d.nrange < 2 ^ 24) (hc : d.code < d.nrange)
    (hlen : k ≤ d.r.src.length) (hb : ∀ b ∈ d.r.src, b < 256)
    (hn : d.r.n + k ≤ d.r.limit) (hn' : k = 1 → d.r.n < d.r.limit) :
    ∃ d', d.normalize = (d', none) ∧ d'.nrange = d.nrange * 256 ^ k ∧
      d'.code = d.code * 256 ^ k + beVal (d.r.src.take k) ∧
      d'.r.src = d.r.src.drop k ∧ d'.r.n = d.r.n + k ∧ d'.r.limit = d.r.limit := by
  unfold rangeDecoder.normalize
  by_cases h : d.nrange < 2 ^ 24
  · have hk' : k = 1 := hk1.2 h
    subst hk'
    rw [if_pos h]
    obtain ⟨b, rest, hsrc⟩ : ∃ b rest, d.r.src = b :: rest := by
      cases hs : d.r.src with
      | nil => rw [hs] at hlen; simp at hlen
      | cons b rest => exact ⟨b, rest, rfl⟩
    have hb' : b < 256 := hb b (by rw [hsrc]; simp)
    rw [updateCode_cons { d with nrange := (d.nrange <<< 8) % 2 ^ 32 } b rest hsrc (hn' rfl)
      hb' (by simp only; omega)]
    refine ⟨_, rfl, ?_, ?_, ?_, ?_, rfl⟩
    · simp only [Nat.shiftLeft_eq]; omega
    · simp [hsrc, beVal]
    · simp [hsrc]
    · simp
  · have hk' : k = 0 := by
      rcases Nat.le_one_iff_eq_zero_or_eq_one.mp hk with h0 | h1
      · exact h0
      · exact absurd (hk1.1 h1) h
    subst hk'
    rw [if_neg h]
    exact ⟨d, rfl, by simp, by simp [beVal], by simp, by simp, rfl⟩

/-- The branch-free arithmetic of `DirectDecodeBit`. -/
theorem direct_arith (c R : Nat) (hc : c < R) (hR : R < 2 ^ 32) :
    let h := R >>> 1
    let code1 := (c + 2 ^ 32 - h) % 2 ^ 32
    let t := (2 ^ 32 - (code1 >>> 31)) % 2 ^ 32
    (code1 + (h &&& t)) % 2 ^ 32 = (if R / 2 ≤ c then c - R / 2 else c) ∧
    ((t + 1) % 2 ^ 32) &&& 1 = (if R / 2 ≤ c then 1 else 0) := by
  intro h code1 t
  have hh : h = R / 2 := by
    show R >>> 1 = R / 2
    rw [Nat.shiftRight_eq_div_pow]
  by_cases hge : R / 2 ≤ c
  · have h1 : code1 = c - R / 2 := by
      show (c + 2 ^ 32 - h) % 2 ^ 32 = _
      rw [hh]; omega
    have h2 : t = 0 := by
      show (2 ^ 32 - (code1 >>> 31)) % 2 ^ 32 = 0
      rw [h1, Nat.shiftRight_eq_div_pow]
      have : (c - R / 2) / 2 ^ 31 = 0 := by omega
      rw [this]; norm_num
    rw [h2, h1, if_pos hge, if_pos hge]
    constructor
    · simp only [Nat.and_zero]; omega
    · rfl
  · have h1 : code1 = c + 2 ^ 32 - R / 2 := by
      show (c + 2 ^ 32 - h) % 2 ^ 32 = _
      rw [hh]; omega
    have h2 : t = 2 ^ 32 - 1 := by
      show (2 ^ 32 - (code1 >>> 31)) % 2 ^ 32 = _
      rw [h1, Nat.shiftRight_eq_div_pow]
      have : (c + 2 ^ 32 - R / 2) / 2 ^ 31 = 1 := by omega
      rw [this]; norm_num
    rw [h2, h1, if_neg hge, if_neg hge, Nat.and_pow_two_sub_one_eq_mod, hh]
    constructor
    · omega
    · rfl

/-- One `DecodeBit` call mirrors the `EncodeBit` call that chose the interval
`[La, La + Ra)` inside the current interval of the reference encoder. -/
theorem DecodeBit_step (d : rangeDecoder) (r : RefEncoder) (b p La Ra k : Nat)
    (hn : d.nrange = r.nrange) (hr : RefOK r) (hp : probOK p)
    (hk : k ≤ 1) (hk1 : k = 1 ↔ Ra < 2 ^ 24)
    (hLa : La = if b &&& 1 = 0 then r.low else r.low + prob.bound p r.nrange)
    (hRa : Ra = if b &&& 1 = 0 then prob.bound p r.nrange
                else r.nrange - prob.bound p r.nrange)
    (h1 : La ≤ r.low + d.code) (h2 : r.low + d.code < La + Ra)
    (hlen : k ≤ d.r.src.length) (hb : ∀ x ∈ d.r.src, x < 256)
    (hlim : d.r.n < d.r.limit) :
    ∃ d', d.DecodeBit p =
        (d', (if b &&& 1 = 0 then prob.inc p else prob.dec p), b &&& 1, none) ∧
      d'.nrange = Ra * 256 ^ k ∧
      La * 256 ^ k + d'.code = (r.low + d.code) * 256 ^ k + beVal (d.r.src.take k) ∧
      d'.r.src = d.r.src.drop k ∧ d'.r.n = d.r.n + k ∧ d'.r.limit = d.r.limit := by
  obtain ⟨hb1, hb2⟩ := bound_range p r.nrange hp hr.lo hr.hi
  have hhi := hr.hi
  unfold rangeDecoder.DecodeBit
  rw [hn]
  by_cases hbit : b &&& 1 = 0
  · rw [if_pos hbit] at hLa hRa
    subst hLa hRa
    simp only [hbit, if_true]
    rw [if_pos (by omega)]
    obtain ⟨d', hd, hnr, hcode, hsrc, hcnt, hl⟩ :=
      dec_normalize_scale { d with nrange := prob.bound p r.nrange } k hk hk1
        (by simp only; omega) hlen hb (by simp only; omega) (fun _ => hlim)
    refine ⟨d', by rw [hd], hnr, ?_, hsrc, hcnt, hl⟩
    rw [hcode, add_mul]
    simp only
    omega
  · rw [if_neg hbit] at hLa hRa
    subst hLa hRa
    have hbit1 : b &&& 1 = 1 := by have := lsb_le_one b; omega
    simp only [hbit1, if_false, one_ne_zero]
    rw [if_neg (by omega)]
    have hcd : (d.code + 2 ^ 32 - prob.bound p r.nrange) % 2 ^ 32 =
        d.code - prob.bound p r.nrange := by omega
    have hrg : (r.nrange + 2 ^ 32 - prob.bound p r.nrange) % 2 ^ 32 =
        r.nrange - prob.bound p r.nrange := by omega
    rw [hcd, hrg]
    obtain ⟨d', hd, hnr, hcode, hsrc, hcnt, hl⟩ :=
      dec_normalize_scale { d with code := d.code - prob.bound p r.nrange,
                                   nrange := r.nrange - prob.bound p r.nrange } k hk hk1
        (by simp only; omega) hlen hb (by simp only; omega) (fun _ => hlim)
    refine ⟨d', by rw [hd], hnr, ?_, hsrc, hcnt, hl⟩
    rw [hcode]
    simp only
    rw [← add_assoc, ← add_mul]
    have : r.low + prob.bound p r.nrange + (d.code - prob.bound p r.nrange) =
        r.low + d.code := by omega
    rw [this]

/-- One `DirectDecodeBit` call mirrors the `DirectEncodeBit` call that chose
the interval `[La, La + nrange / 2)`. -/
theorem DirectDecodeBit_step (d : rangeDecoder) (r : RefEncoder) (b La k : Nat)
    (hn : d.nrange = r.nrange) (hr : RefOK r)
    (hk : k ≤ 1) (hk1 : k = 1 ↔ r.nrange / 2 < 2 ^ 24)
    (hLa : La = if b &&& 1 = 0 then r.low else r.low + r.nrange / 2)
    (h1 : La ≤ r.low + d.code) (h2 : r.low + d.code < La + r.nrange / 2)
    (hlen : k ≤ d.r.src.length) (hb : ∀ x ∈ d.r.src, x < 256)
    (hlim : d.r.n < d.r.limit) :
    ∃ d', d.DirectDecodeBit = (d', b &&& 1, none) ∧
      d'.nrange = r.nrange / 2 * 256 ^ k ∧
      La * 256 ^ k + d'.code = (r.low + d.code) * 256 ^ k + beVal (d.r.src.take k) ∧
      d'.r.src = d.r.src.drop k ∧ d'.r.n = d.r.n + k ∧ d'.r.limit = d.r.limit := by
  have hhi := hr.hi
  have hlo := hr.lo
  have hc : d.code < r.nrange := by
    split at hLa <;> omega
  obtain ⟨ha1, ha2⟩ := direct_arith d.code r.nrange hc hhi
  have hhalf : r.nrange >>> 1 = r.nrange / 2 := by
    rw [Nat.shiftRight_eq_div_pow]
  unfold rangeDecoder.DirectDecodeBit
  simp only [hn]
  rw [ha1, ha2, hhalf]
  by_cases hbit : b &&& 1 = 0
  · rw [if_pos hbit] at hLa
    subst hLa
    have hlt : ¬ (r.nrange / 2 ≤ d.code) := by omega
    rw [if_neg hlt, if_neg hlt, hbit]
    obtain ⟨d', hd, hnr, hcode, hsrc, hcnt, hl⟩ :=
      dec_normalize_scale { d with nrange := r.nrange / 2, code := d.code } k hk hk1
        (by simp only; omega) hlen hb (by simp only; omega) (fun _ => hlim)
    refine ⟨d', by rw [hd], hnr, ?_, hsrc, hcnt, hl⟩
    rw [hcode, add_mul]
    simp only
    omega
  · rw [if_neg hbit] at hLa
    subst hLa
    have hbit1 : b &&& 1 = 1 := by have := lsb_le_one b; omega
    have hge : r.nrange / 2 ≤ d.code := by omega
    rw [if_pos hge, if_pos hge, hbit1]
    obtain ⟨d', hd, hnr, hcode, hsrc, hcnt, hl⟩ :=
      dec_normalize_scale { d with nrange := r.nrange / 2,
                                   code := d.code - r.nrange / 2 } k hk hk1
        (by simp only; omega) hlen hb (by simp only; omega) (fun _ => hlim)
    refine ⟨d', by rw [hd], hnr, ?_, hsrc, hcnt, hl⟩
    rw [hcode]
    simp only
    rw [← add_assoc, ← add_mul]
    have : r.low + r.nrange / 2 + (d.code - r.nrange / 2) = r.low + d.code := by omega
    rw [this]

theorem beVal_take_lt (src : List Nat) (k : Nat) (hk : k ≤ src.length)
    (hb : ∀ x ∈ src, x < 256) : beVal (src.take k) < 256 ^ k := by
  have h := beVal_lt (src.take k) (fun x hx => hb x (List.mem_of_mem_take hx))
  rwa [List.length_take, Nat.min_eq_left hk] at h

theorem beVal_take_add (src : List Nat) (k1 d2 A : Nat) (h : k1 + d2 ≤ src.length) :
    A * 256 ^ (k1 + d2) + beVal (src.take (k1 + d2)) =
      (A * 256 ^ k1 + beVal (src.take k1)) * 256 ^ d2 + beVal ((src.drop k1).take d2) := by
  rw [List.take_add, beVal_append, List.length_take, List.length_drop,
    Nat.min_eq_left (by omega), pow_add]
  ring

/-- From the nesting of the final interval in the chosen one, the decoder's
`code` falls in the part of the interval the encoder chose. -/
theorem code_in_chosen (L c La Ra k1 d2 T lo' rg' : Nat)
    (hT : T < 256 ^ (k1 + d2))
    (hn1 : La * 256 ^ k1 * 256 ^ d2 ≤ lo')
    (hn2 : lo' + rg' ≤ (La * 256 ^ k1 + Ra * 256 ^ k1) * 256 ^ d2)
    (hX1 : lo' ≤ (L + c) * 256 ^ (k1 + d2) + T)
    (hX2 : (L + c) * 256 ^ (k1 + d2) + T < lo' + rg') :
    La ≤ L + c ∧ L + c < La + Ra := by
  constructor
  · have h : La * 256 ^ (k1 + d2) < (L + c + 1) * 256 ^ (k1 + d2) := by
      calc La * 256 ^ (k1 + d2) = La * 256 ^ k1 * 256 ^ d2 := by rw [pow_add]; ring
        _ ≤ lo' := hn1
        _ ≤ (L + c) * 256 ^ (k1 + d2) + T := hX1
        _ < (L + c) * 256 ^ (k1 + d2) + 256 ^ (k1 + d2) := by omega
        _ = (L + c + 1) * 256 ^ (k1 + d2) := by ring
    have := Nat.lt_of_mul_lt_mul_right h
    omega
  · have h : (L + c) * 256 ^ (k1 + d2) < (La + Ra) * 256 ^ (k1 + d2) := by
      calc (L + c) * 256 ^ (k1 + d2) ≤ (L + c) * 256 ^ (k1 + d2) + T := Nat.le_add_right _ _
        _ < lo' + rg' := hX2
        _ ≤ (La * 256 ^ k1 + Ra * 256 ^ k1) * 256 ^ d2 := hn2
        _ = (La + Ra) * 256 ^ (k1 + d2) := by rw [pow_add]; ring
    exact Nat.lt_of_mul_lt_mul_right h

/-- Decoding mirrors encoding: if the number spelled by the decoder's `code`
and its next `k` input bytes lies in the final interval of the reference
encoder, the matching decoder calls return the encoded bits, update the models
alike and consume exactly `k` bytes. -/
theorem decodeOps_correct (ops : List Op) : ∀ (r : RefEncoder) (m : Nat → prob)
    (d : rangeDecoder) (k : Nat),
    RefOK r → (∀ i, probOK (m i)) → d.nrange = r.nrange →
    (refEncodeOps ops r m).1.shifts = r.shifts + k →
    k ≤ d.r.src.length → (∀ x ∈ d.r.src, x < 256) →
    d.r.n + ops.length < d.r.limit →
    (refEncodeOps ops r m).1.low ≤ (r.low + d.code) * 256 ^ k + beVal (d.r.src.take k) →
    (r.low + d.code) * 256 ^ k + beVal (d.r.src.take k) <
      (refEncodeOps ops r m).1.low + (refEncodeOps ops r m).1.nrange →
    ∃ d', decodeOps ops d m = (d', (refEncodeOps ops r m).2, ops.map Op.lsb, none) ∧
      d'.nrange = (refEncodeOps ops r m).1.nrange ∧
      d'.r.src = d.r.src.drop k ∧ d'.r.n = d.r.n + k ∧ d'.r.limit = d.r.limit ∧
      (refEncodeOps ops r m).1.low + d'.code =
        (r.low + d.code) * 256 ^ k + beVal (d.r.src.take k) := by
  induction ops with
  | nil =>
    intro r m d k hr hm hn hsh hlen hb hlim hX1 hX2
    simp only [refEncodeOps] at hsh hX1 hX2 ⊢
    have hk : k = 0 := by omega
    subst hk
    exact ⟨d, rfl, hn, by simp, by simp, rfl, by simp [beVal]⟩
  | cons op ops ih =>
    intro r m d k hr hm hn hsh hlen hb hlim hX1 hX2
    simp only [List.length_cons, Nat.cast_add, Nat.cast_one] at hlim
    cases op with
    | bit b i =>
      obtain ⟨La, Ra, k1, hk1, hk1', hst, hp2, hLa, hRa, h16, h32, _, _, hok, hpok⟩ :=
        ref_EncodeBit_step r b (m i) hr (hm i)
      obtain ⟨d2, hd2, hd2', hn1, hn2, _, _⟩ :=
        refEncodeOps_nest ops (r.EncodeBit b (m i)).1
          (Function.update m i (r.EncodeBit b (m i)).2) hok (probOK_update m i _ hm hpok)
      simp only [refEncodeOps] at hsh hX1 hX2 ⊢
      have hs1 : (r.EncodeBit b (m i)).1.shifts = r.shifts + k1 := by rw [hst]
      have hs2 : (r.EncodeBit b (m i)).1.low = La * 256 ^ k1 := by rw [hst]
      have hs3 : (r.EncodeBit b (m i)).1.nrange = Ra * 256 ^ k1 := by rw [hst]
      have hk : k = k1 + d2 := by omega
      subst hk
      rw [hs2] at hn1 hn2
      rw [hs3] at hn2
      have hT := beVal_take_lt d.r.src (k1 + d2) hlen hb
      obtain ⟨hc1, hc2⟩ := code_in_chosen r.low d.code La Ra k1 d2 _ _ _ hT hn1 hn2 hX1 hX2
      obtain ⟨d1, hdec, hnr1, hcode1, hsrc1, hcnt1, hl1⟩ :=
        DecodeBit_step d r b (m i) La Ra k1 hn hr (hm i) hk1 hk1' hLa hRa hc1 hc2
          (by omega) hb (by omega)
      have hsplit := beVal_take_add d.r.src k1 d2 (r.low + d.code) hlen
      rw [← hcode1, ← hsrc1, ← hs2] at hsplit
      obtain ⟨d', hdec', hnr', hsrc', hcnt', hl', hcode'⟩ :=
        ih (r.EncodeBit b (m i)).1 (Function.update m i (r.EncodeBit b (m i)).2) d1 d2
          hok (probOK_update m i _ hm hpok) (by rw [hnr1, hs3]) (by rw [hd2])
          (by rw [hsrc1, List.length_drop]; omega)
          (fun x hx => hb x (List.mem_of_mem_drop (by rw [← hsrc1]; exact hx)))
          (by rw [hcnt1, hl1]; omega)
          (by rw [← hsplit]; exact hX1) (by rw [← hsplit]; exact hX2)
      refine ⟨d', ?_, hnr', ?_, ?_, by rw [hl', hl1], ?_⟩
      · simp only [decodeOps, hdec, ← hp2, hdec', List.map_cons, Op.lsb]
      · rw [hsrc', hsrc1, List.drop_drop]
      · rw [hcnt', hcnt1]; push_cast; omega
      · rw [hcode', hsplit]
    | direct b =>
      obtain ⟨La, k1, hk1, hk1', hst, hLa, _, _, hok⟩ := ref_DirectEncodeBit_step r b hr
      obtain ⟨d2, hd2, hd2', hn1, hn2, _, _⟩ :=
        refEncodeOps_nest ops (r.DirectEncodeBit b) m hok hm
      simp only [refEncodeOps] at hsh hX1 hX2 ⊢
      have hs1 : (r.DirectEncodeBit b).shifts = r.shifts + k1 := by rw [hst]
      have hs2 : (r.DirectEncodeBit b).low = La * 256 ^ k1 := by rw [hst]
      have hs3 : (r.DirectEncodeBit b).nrange = r.nrange / 2 * 256 ^ k1 := by rw [hst]
      have hk : k = k1 + d2 := by omega
      subst hk
      rw [hs2] at hn1 hn2
      rw [hs3] at hn2
      have hT := beVal_take_lt d.r.src (k1 + d2) hlen hb
      obtain ⟨hc1, hc2⟩ :=
        code_in_chosen r.low d.code La (r.nrange / 2) k1 d2 _ _ _ hT hn1 hn2 hX1 hX2
      obtain ⟨d1, hdec, hnr1, hcode1, hsrc1, hcnt1, hl1⟩ :=
        DirectDecodeBit_step d r b La k1 hn hr hk1 hk1' hLa hc1 hc2 (by omega) hb (by omega)
      have hsplit := beVal_take_add d.r.src k1 d2 (r.low + d.code) hlen
      rw [← hcode1, ← hsrc1, ← hs2] at hsplit
      obtain ⟨d', hdec', hnr', hsrc', hcnt', hl', hcode'⟩ :=
        ih (r.DirectEncodeBit b) m d1 d2
          hok hm (by rw [hnr1, hs3]) (by rw [hd2])
          (by rw [hsrc1, List.length_drop]; omega)
          (fun x hx => hb x (List.mem_of_mem_drop (by rw [← hsrc1]; exact hx)))
          (by rw [hcnt1, hl1]; omega)
          (by rw [← hsplit]; exact hX1) (by rw [← hsplit]; exact hX2)
      refine ⟨d', ?_, hnr', ?_, ?_, by rw [hl', hl1], ?_⟩
      · simp only [decodeOps, hdec, hdec', List.map_cons, Op.lsb]
      · rw [hsrc', hsrc1, List.drop_drop]
      · rw [hcnt', hcnt1]; push_cast; omega
      · rw [hcode', hsplit]

theorem initLoop_four (l : lbcReader) (R b1 b2 b3 b4 : Nat) (rest : List Nat)
    (hsrc : l.src = b1 :: b2 :: b3 :: b4 :: rest) (hn : l.n + 4 ≤ l.limit)
    (h1 : b1 < 256) (h2 : b2 < 256) (h3 : b3 < 256) (h4 : b4 < 256) :
    rangeDecoder.initLoop 4 { r := l, nrange := R, code := 0 } =
      ({ r := { src := rest, n := l.n + 4, limit := l.limit }, nrange := R,
         code := b1 * 2 ^ 24 + b2 * 2 ^ 16 + b3 * 2 ^ 8 + b4 }, none) := by
  rw [rangeDecoder.initLoop,
    updateCode_cons { r := l, nrange := R, code := 0 } b1 _ hsrc (by simp only; omega) h1
      (by norm_num)]
  simp only
  rw [rangeDecoder.initLoop, updateCode_cons _ b2 _ rfl (by simp only; omega) h2
      (by simp only; omega)]
  simp only
  rw [rangeDecoder.initLoop, updateCode_cons _ b3 _ rfl (by simp only; omega) h3
      (by simp only; omega)]
  simp only
  rw [rangeDecoder.initLoop, updateCode_cons _ b4 _ rfl (by simp only; omega) h4
      (by simp only; omega)]
  simp only
  rw [rangeDecoder.initLoop]
  have hc : (((0 * 256 + b1) * 256 + b2) * 256 + b3) * 256 + b4 =
      b1 * 2 ^ 24 + b2 * 2 ^ 16 + b3 * 2 ^ 8 + b4 := by omega
  have hn' : l.n + 1 + 1 + 1 + 1 = l.n + 4 := by omega
  rw [hc, hn']

/-- What `newRangeDecoder` does on an input of at least five bytes. -/
theorem newRangeDecoder_cons5 (b0 b1 b2 b3 b4 : Nat) (rest : List Nat)
    (h0 : b0 < 256) (h1 : b1 < 256) (h2 : b2 < 256) (h3 : b3 < 256) (h4 : b4 < 256) :
    newRangeDecoder (b0 :: b1 :: b2 :: b3 :: b4 :: rest) =
      if b0 ≠ 0 then
        ({ r := { src := b1 :: b2 :: b3 :: b4 :: rest, n := 1, limit := maxInt64 },
           nrange := 0xffffffff, code := 0 }, some Err.firstByteNotZero)
      else
        ({ r := { src := rest, n := 5, limit := maxInt64 }, nrange := 0xffffffff,
           code := b1 * 2 ^ 24 + b2 * 2 ^ 16 + b3 * 2 ^ 8 + b4 },
         if b1 * 2 ^ 24 + b2 * 2 ^ 16 + b3 * 2 ^ 8 + b4 ≥ 0xffffffff
         then some Err.codeNotBelowRange else none) := by
  have hlim : ∀ n : Int, n ≤ 5 → ¬ (n ≥ maxInt64) := by
    intro n hn; unfold maxInt64; omega
  unfold newRangeDecoder rangeDecoder.init
  simp only [limitByteReader, lbcReader.ReadByte, hlim 0 (by norm_num), if_false,
    Nat.mod_eq_of_lt h0]
  by_cases hz : b0 = 0
  · simp only [hz, ne_eq, not_true_eq_false, if_false]
    rw [initLoop_four _ _ b1 b2 b3 b4 rest rfl (by simp only [maxInt64]; omega) h1 h2 h3 h4]
    simp only
    split_ifs <;> norm_num
  · simp only [hz, ne_eq, not_false_eq_true, if_true]
    norm_num

theorem probOK_fresh : ∀ i, probOK (freshModels i) := fun _ => probOK_init

/-- The encoder run on a fresh, unlimited encoder: the calls succeed and the
state simulates the reference encoder. -/
theorem encode_run (w : ByteSink) (ops : List Op) (hw : w.written = [])
    (hrej : w.rejects = fun _ => false) (hlen : (ops.length : Int) + 11 ≤ maxInt64) :
    ∃ e0 e1, newRangeEncoder w = (some e0, none) ∧
      encodeOps ops e0 freshModels =
        (e1, (refEncodeOps ops RefEncoder.fresh freshModels).2, none) ∧
      Sim e1 (refEncodeOps ops RefEncoder.fresh freshModels).1 ∧
      RefOK (refEncodeOps ops RefEncoder.fresh freshModels).1 ∧
      (refEncodeOps ops RefEncoder.fresh freshModels).1.shifts ≤ ops.length ∧
      e1.w.limit = maxInt64 := by
  have hs := Sim_fresh w hw (fun i => by rw [hrej]) maxInt64
  obtain ⟨e1, he1, hs1, hl1⟩ := encodeOps_sim ops _ _ freshModels hs RefOK_fresh probOK_fresh
    (by simp only [RefEncoder.fresh, limitByteWriter]; push_cast; omega)
  obtain ⟨d, hd1, hd2, _, _, hok, _⟩ :=
    refEncodeOps_nest ops RefEncoder.fresh freshModels RefOK_fresh probOK_fresh
  refine ⟨_, e1, rfl, he1, hs1, hok, ?_, hl1⟩
  rw [hd1]; simp only [RefEncoder.fresh]; omega

/-- Closing after the run leaves the bytes that spell the exact `low`. -/
theorem encode_close_run (w : ByteSink) (ops : List Op) (hw : w.written = [])
    (hrej : w.rejects = fun _ => false) (hlen : (ops.length : Int) + 11 ≤ maxInt64) :
    ∃ e0 e1 e2, newRangeEncoder w = (some e0, none) ∧
      encodeOps ops e0 freshModels =
        (e1, (refEncodeOps ops RefEncoder.fresh freshModels).2, none) ∧
      Sim e1 (refEncodeOps ops RefEncoder.fresh freshModels).1 ∧
      RefOK (refEncodeOps ops RefEncoder.fresh freshModels).1 ∧
      e1.Close = (e2, none) ∧
      e2.w.bw.written.length = (refEncodeOps ops RefEncoder.fresh freshModels).1.shifts + 5 ∧
      beVal e2.w.bw.written = (refEncodeOps ops RefEncoder.fresh freshModels).1.low ∧
      e2.w.n = (refEncodeOps ops RefEncoder.fresh freshModels).1.shifts + 5 ∧
      (∀ b ∈ e2.w.bw.written, b < 256) ∧
      (∃ ys, e2.w.bw.written = e1.w.bw.written ++ ys) ∧
      (refEncodeOps ops RefEncoder.fresh freshModels).1.shifts ≤ ops.length := by
  obtain ⟨e0, e1, he0, he1, hs1, hok, hsh, hl1⟩ := encode_run w ops hw hrej hlen
  obtain ⟨e2, he2, h1, h2, h3, h4, h5, _⟩ :=
    Close_inv e1 _ _ _ hs1.1 (by have := hok.lo; omega) (by rw [hl1]; omega)
  exact ⟨e0, e1, e2, he0, he1, hs1, hok, he2, h1, h2, h3, h4, h5, hsh⟩

/-- The stream of a closed encoder starts with a zero byte and its next four
bytes spell a number below `0xFFFFFFFF`. -/
theorem stream_head (W : List Nat) (s L R : Nat) (hlen : W.length = s + 5)
    (hb : ∀ b ∈ W, b < 256) (hval : beVal W = L) (hR : 0 < R)
    (htop : L + R ≤ (2 ^ 32 - 1) * 256 ^ s) :
    ∃ b1 b2 b3 b4 rest, W = 0 :: b1 :: b2 :: b3 :: b4 :: rest ∧ rest.length = s ∧
      b1 < 256 ∧ b2 < 256 ∧ b3 < 256 ∧ b4 < 256 ∧ (∀ b ∈ rest, b < 256) ∧
      b1 * 2 ^ 24 + b2 * 2 ^ 16 + b3 * 2 ^ 8 + b4 < 0xffffffff ∧
      L = (b1 * 2 ^ 24 + b2 * 2 ^ 16 + b3 * 2 ^ 8 + b4) * 256 ^ s + beVal rest := by
  obtain ⟨b0, b1, b2, b3, b4, rest, rfl⟩ :
      ∃ b0 b1 b2 b3 b4 rest, W = b0 :: b1 :: b2 :: b3 :: b4 :: rest := by
    rcases W with _ | ⟨b0, _ | ⟨b1, _ | ⟨b2, _ | ⟨b3, _ | ⟨b4, rest⟩⟩⟩⟩⟩ <;>
      first
      | exact ⟨_, _, _, _, _, _, rfl⟩
      | (exfalso; simp only [List.length_cons, List.length_nil] at hlen; omega)
  have hr : rest.length = s := by simpa using hlen
  have h0 : b0 < 256 := hb b0 (by simp)
  have h1 : b1 < 256 := hb b1 (by simp)
  have h2 : b2 < 256 := hb b2 (by simp)
  have h3 : b3 < 256 := hb b3 (by simp)
  have h4 : b4 < 256 := hb b4 (by simp)
  have hrest : ∀ b ∈ rest, b < 256 := fun b hb' => hb b (by simp [hb'])
  have hsplit := beVal_append [b0, b1, b2, b3, b4] rest
  simp only [List.cons_append, List.nil_append, hr] at hsplit
  have h5 : beVal [b0, b1, b2, b3, b4] =
      b0 * 2 ^ 32 + (b1 * 2 ^ 24 + b2 * 2 ^ 16 + b3 * 2 ^ 8 + b4) := by
    simp only [beVal, List.foldl]; omega
  rw [hsplit, h5] at hval
  have hP : 0 < 256 ^ s := by positivity
  have hlt : (b0 * 2 ^ 32 + (b1 * 2 ^ 24 + b2 * 2 ^ 16 + b3 * 2 ^ 8 + b4)) * 256 ^ s <
      (2 ^ 32 - 1) * 256 ^ s := by omega
  have hlt' := Nat.lt_of_mul_lt_mul_right hlt
  have hb0 : b0 = 0 := by omega
  subst hb0
  refine ⟨b1, b2, b3, b4, rest, rfl, hr, h1, h2, h3, h4, hrest, by omega, ?_⟩
  rw [← hval]; simp

/-- Decoding the stream of a closed encoder: initialisation succeeds and the
matching decoder calls return the encoded bits, end with the encoder's models,
consume the whole stream and leave `code = 0`. -/
theorem decode_run (w : ByteSink) (ops : List Op) (hw : w.written = [])
    (hrej : w.rejects = fun _ => false) (hlen : (ops.length : Int) + 11 ≤ maxInt64) :
    ∃ e0 e1 m1 e2 d0 d1,
      newRangeEncoder w = (some e0, none) ∧
      encodeOps ops e0 freshModels = (e1, m1, none) ∧
      e1.Close = (e2, none) ∧
      newRangeDecoder e2.w.bw.written = (d0, none) ∧
      decodeOps ops d0 freshModels = (d1, m1, ops.map Op.lsb, none) ∧
      d1.r.n = e2.w.n ∧ d1.code = 0 ∧ d1.r.src = [] ∧ d0.r.n = 5 := by
  obtain ⟨e0, e1, e2, he0, he1, hs1, hok, he2, hl2, hv2, hn2, hb2, _, hsh⟩ :=
    encode_close_run w ops hw hrej hlen
  obtain ⟨b1, b2, b3, b4, rest, hW, hr, h1, h2, h3, h4, hrest, hV, hL⟩ :=
    stream_head e2.w.bw.written _ _ _ hl2 hb2 hv2 (by have := hok.lo; omega) hok.top
  have hd0 := newRangeDecoder_cons5 0 b1 b2 b3 b4 rest (by norm_num) h1 h2 h3 h4
  rw [← hW] at hd0
  simp only [ne_eq, not_true_eq_false, if_false] at hd0
  rw [if_neg (by omega)] at hd0
  have htake : rest.take (refEncodeOps ops RefEncoder.fresh freshModels).1.shifts = rest := by
    rw [← hr]; exact List.take_length rest
  have hX : (RefEncoder.fresh.low +
      (b1 * 2 ^ 24 + b2 * 2 ^ 16 + b3 * 2 ^ 8 + b4)) *
        256 ^ (refEncodeOps ops RefEncoder.fresh freshModels).1.shifts +
      beVal (rest.take (refEncodeOps ops RefEncoder.fresh freshModels).1.shifts) =
      (refEncodeOps ops RefEncoder.fresh freshModels).1.low := by
    rw [htake, hL]; simp [RefEncoder.fresh]
  obtain ⟨d1, hd1, _, hsrc, hcnt, _, hcode⟩ :=
    decodeOps_correct ops RefEncoder.fresh freshModels
      { r := { src := rest, n := 5, limit := maxInt64 }, nrange := 0xffffffff,
        code := b1 * 2 ^ 24 + b2 * 2 ^ 16 + b3 * 2 ^ 8 + b4 }
      (refEncodeOps ops RefEncoder.fresh freshModels).1.shifts
      RefOK_fresh probOK_fresh rfl (by simp [RefEncoder.fresh]) (by simp only; omega) hrest
      (by simp only; omega) (by simp only; rw [hX]) (by
        simp only; rw [hX]; have := hok.lo; omega)
  simp only at hsrc hcnt hcode
  rw [hX] at hcode
  refine ⟨e0, e1, _, e2, _, d1, he0, he1, he2, hd0, hd1, by rw [hcnt, hn2]; omega,
    by omega, ?_, rfl⟩
  rw [hsrc, ← hr]; simp

/-- C1 (round trip): on a fresh `rangeEncoder` without byte limit (empty, never
failing writer; fewer than `2^63 - 11` calls, so that the `int64` byte counters
stay in range), any sequence of `EncodeBit(b, p_i)` / `DirectEncodeBit(b)` calls
on models initialised to 1024 followed by `Close` succeeds; on the bytes written
`newRangeDecoder` succeeds, and the matching `DecodeBit` / `DirectDecodeBit`
calls on fresh models return exactly the bits `b & 1` in order, without error,
leaving the decoder-side models equal to the encoder-side models `m1`. -/
theorem roundtrip (w : ByteSink) (ops : List Op) (hw : w.written = [])
    (hrej : w.rejects = fun _ => false) (hlen : (ops.length : Int) + 11 ≤ maxInt64) :
    ∃ e0 e1 m1 e2 d0 d1,
      newRangeEncoder w = (some e0, none) ∧
      encodeOps ops e0 freshModels = (e1, m1, none) ∧
      e1.Close = (e2, none) ∧
      newRangeDecoder e2.w.bw.written = (d0, none) ∧
      decodeOps ops d0 freshModels = (d1, m1, ops.map Op.lsb, none) := by
  obtain ⟨e0, e1, m1, e2, d0, d1, h1, h2, h3, h4, h5, _⟩ := decode_run w ops hw hrej hlen
  exact ⟨e0, e1, m1, e2, d0, d1, h1, h2, h3, h4, h5⟩

/-- Witness for C1: three calls on two models and a direct bit. -/
theorem roundtrip_witness :
    ByteSink.accepting.written = [] ∧
    (ByteSink.accepting.rejects = fun _ => false) ∧
    (([Op.bit 1 0, Op.direct 3, Op.bit 0 1].length : Int) + 11 ≤ maxInt64) ∧
    ∃ e0 e1 m1 e2 d0 d1,
      newRangeEncoder ByteSink.accepting = (some e0, none) ∧
      encodeOps [Op.bit 1 0, Op.direct 3, Op.bit 0 1] e0 freshModels = (e1, m1, none) ∧
      e1.Close = (e2, none) ∧
      newRangeDecoder e2.w.bw.written = (d0, none) ∧
      decodeOps [Op.bit 1 0, Op.direct 3, Op.bit 0 1] d0 freshModels =
        (d1, m1, [Op.bit 1 0, Op.direct 3, Op.bit 0 1].map Op.lsb, none) :=
  ⟨rfl, rfl, by decide,
    roundtrip ByteSink.accepting [Op.bit 1 0, Op.direct 3, Op.bit 0 1] rfl rfl (by decide)⟩

/-- While nothing has been written the cached byte is still the initial zero
and `low + nrange` stays below `2^32`. -/
theorem no_carry_before_first_byte (e : rangeEncoder) (r : RefEncoder) (h : Sim e r)
    (hok : RefOK r) (hw : e.w.bw.written = []) :
    e.cache = 0 ∧ e.low + e.nrange < 2 ^ 32 := by
  obtain ⟨hinv, hn⟩ := h
  have hcnt := hinv.cnt
  have hsh := hinv.shifts
  have hval := hinv.val
  have htop := hok.top
  rw [hw] at hcnt hval
  simp only [List.length_nil, Nat.cast_zero] at hcnt
  have hk : (e.cacheLen - 1).toNat = r.shifts := by omega
  rw [hk] at hval
  simp only [beVal, List.foldl_nil, zero_mul, zero_add] at hval
  have hP : 1 ≤ 256 ^ r.shifts := Nat.one_le_pow _ _ (by norm_num)
  have hc : e.cache = 0 := by
    by_contra hne
    have h2 : 2 * 256 ^ r.shifts ≤ (e.cache + 1) * 256 ^ r.shifts :=
      Nat.mul_le_mul_right _ (by omega)
    generalize (e.cache + 1) * 256 ^ r.shifts = Q at hval h2
    generalize 256 ^ r.shifts = P at *
    omega
  refine ⟨hc, ?_⟩
  rw [hc] at hval
  simp only [zero_add, one_mul] at hval
  rw [hn]
  generalize 256 ^ r.shifts = P at *
  omega

/-- The bytes `shiftLow` writes when its emission branch is taken. -/
theorem shiftLow_emits (e : rangeEncoder)
    (hc : e.low % 2 ^ 32 < 0xff000000 ∨ e.low >>> 32 ≠ 0) (hlen : 1 ≤ e.cacheLen)
    (hrej : e.w.bw.rejects = fun _ => false) (hav : 1 ≤ e.Available) :
    e.shiftLow.2 = none ∧
    e.shiftLow.1.w.bw.written = e.w.bw.written ++
      ((e.cache + (e.low >>> 32) % 256) % 256 ::
        List.replicate (e.cacheLen - 1).toNat ((0xff + (e.low >>> 32) % 256) % 256)) := by
  have hk : e.cacheLen = ((e.cacheLen - 1).toNat : Int) + 1 := by omega
  unfold rangeEncoder.shiftLow
  rw [if_pos hc, emitLoop_ok _ _ e e.cache le_rfl (fun i => by rw [hrej]) hk hav]
  exact ⟨rfl, rfl⟩

/-- A successful `shiftLow` leaves `low` below `2^32`. -/
theorem shiftLow_low_lt (e : rangeEncoder) (h : e.shiftLow.2 = none) :
    e.shiftLow.1.low < 2 ^ 32 := by
  unfold rangeEncoder.shiftLow at h ⊢
  split_ifs at h ⊢ with hc
  · split at h
    · simp at h
    · simp only
      exact Nat.mod_lt _ (by norm_num)
  · simp only
    exact Nat.mod_lt _ (by norm_num)

/-- C2 (leading byte): on a fresh `rangeEncoder` (empty, never failing writer,
`int64` counters in range), after any sequence of `EncodeBit` /
`DirectEncodeBit` calls on models initialised to 1024 followed by `Close`, the
bytes passed to the writer start with `0x00`; the writer's content only grows,
so this is the first byte ever written.  As long as nothing has been written the
cached byte is the initial 0 and no carry can reach it: `low + x` has
`low >> 32 = 0` for every `x` up to `nrange` that the next call may add. -/
theorem leading_byte_zero (w : ByteSink) (ops : List Op) (hw : w.written = [])
    (hrej : w.rejects = fun _ => false) (hlen : (ops.length : Int) + 11 ≤ maxInt64) :
    ∃ e0 e1 m1 e2 rest,
      newRangeEncoder w = (some e0, none) ∧
      encodeOps ops e0 freshModels = (e1, m1, none) ∧
      e1.Close = (e2, none) ∧
      e2.w.bw.written = 0 :: rest ∧
      (∃ ys, e2.w.bw.written = e1.w.bw.written ++ ys) ∧
      (e1.w.bw.written = [] →
        e1.cache = 0 ∧ ∀ x, x ≤ e1.nrange → (e1.low + x) >>> 32 = 0) := by
  obtain ⟨e0, e1, e2, he0, he1, hs1, hok, he2, hl2, hv2, hn2, hb2, hpre, hsh⟩ :=
    encode_close_run w ops hw hrej hlen
  obtain ⟨b1, b2, b3, b4, rest, hW, _⟩ :=
    stream_head e2.w.bw.written _ _ _ hl2 hb2 hv2 (by have := hok.lo; omega) hok.top
  refine ⟨e0, e1, _, e2, _, he0, he1, he2, hW, hpre, ?_⟩
  intro hnil
  obtain ⟨hc, hlt⟩ := no_carry_before_first_byte e1 _ hs1 hok hnil
  refine ⟨hc, fun x hx => ?_⟩
  rw [Nat.shiftRight_eq_div_pow]
  exact Nat.div_eq_of_lt (by omega)

/-- Witness for C2: one modelled bit and one direct bit. -/
theorem leading_byte_zero_witness :
    ByteSink.accepting.written = [] ∧
    (ByteSink.accepting.rejects = fun _ => false) ∧
    (([Op.bit 1 0, Op.direct 1].length : Int) + 11 ≤ maxInt64) ∧
    ∃ e0 e1 m1 e2 rest,
      newRangeEncoder ByteSink.accepting = (some e0, none) ∧
      encodeOps [Op.bit 1 0, Op.direct 1] e0 freshModels = (e1, m1, none) ∧
      e1.Close = (e2, none) ∧
      e2.w.bw.written = 0 :: rest ∧
      (∃ ys, e2.w.bw.written = e1.w.bw.written ++ ys) ∧
      (e1.w.bw.written = [] →
        e1.cache = 0 ∧ ∀ x, x ≤ e1.nrange → (e1.low + x) >>> 32 = 0) :=
  ⟨rfl, rfl, by decide,
    leading_byte_zero ByteSink.accepting [Op.bit 1 0, Op.direct 1] rfl rfl (by decide)⟩

/-- C3 (carry propagation is exact): on a fresh `rangeEncoder` (empty, never
failing writer, `int64` counters in range), after any sequence of calls with `s`
normalize shifts followed by `Close`, exactly `s + 5` bytes are written and, read
as a big-endian base-256 number, they equal the final `low` of the reference
encoder with unbounded `low`; the models agree with the reference as well.  The
carry `low >> 32` is 0 or 1 in every state between calls and after any addition
of at most `nrange`, a successful `shiftLow` leaves `low` below `2^32`, and when
the emission branch of `shiftLow` is taken (on a writer that accepts the bytes)
the bytes written are `cache + carry` followed by `cacheLen - 1` bytes
`0xFF + carry`, all modulo 256. -/
theorem carry_exact (w : ByteSink) (ops : List Op) (hw : w.written = [])
    (hrej : w.rejects = fun _ => false) (hlen : (ops.length : Int) + 11 ≤ maxInt64) :
    ∃ e0 e1 e2,
      newRangeEncoder w = (some e0, none) ∧
      encodeOps ops e0 freshModels =
        (e1, (refEncodeOps ops RefEncoder.fresh freshModels).2, none) ∧
      e1.Close = (e2, none) ∧
      e2.w.bw.written.length = (refEncodeOps ops RefEncoder.fresh freshModels).1.shifts + 5 ∧
      e2.Compressed = (refEncodeOps ops RefEncoder.fresh freshModels).1.shifts + 5 ∧
      beVal e2.w.bw.written = (refEncodeOps ops RefEncoder.fresh freshModels).1.low ∧
      (∀ x, x ≤ e1.nrange → (e1.low + x) >>> 32 ≤ 1) ∧
      (∀ e : rangeEncoder, e.shiftLow.2 = none → e.shiftLow.1.low >>> 32 = 0) ∧
      (∀ e : rangeEncoder, (e.low % 2 ^ 32 < 0xff000000 ∨ e.low >>> 32 ≠ 0) →
        1 ≤ e.cacheLen → (e.w.bw.rejects = fun _ => false) → 1 ≤ e.Available →
        e.shiftLow.2 = none ∧
        e.shiftLow.1.w.bw.written = e.w.bw.written ++
          ((e.cache + (e.low >>> 32) % 256) % 256 ::
            List.replicate (e.cacheLen - 1).toNat
              ((0xff + (e.low >>> 32) % 256) % 256))) := by
  obtain ⟨e0, e1, e2, he0, he1, hs1, hok, he2, hl2, hv2, hn2, hb2, hpre, hsh⟩ :=
    encode_close_run w ops hw hrej hlen
  refine ⟨e0, e1, e2, he0, he1, he2, hl2, hn2, hv2, ?_, ?_, ?_⟩
  · intro x hx
    have := hs1.1.lowr
    rw [← hs1.2] at this
    rw [Nat.shiftRight_eq_div_pow]
    omega
  · intro e h
    have := shiftLow_low_lt e h
    rw [Nat.shiftRight_eq_div_pow]
    exact Nat.div_eq_of_lt this
  · intro e hc hlen hrej hav
    exact shiftLow_emits e hc hlen hrej hav

/-- Witness for C3: ten one bits on one model leave a pending `0xFF` byte. -/
theorem carry_exact_witness :
    ByteSink.accepting.written = [] ∧
    (ByteSink.accepting.rejects = fun _ => false) ∧
    (((List.replicate 10 (Op.bit 1 0)).length : Int) + 11 ≤ maxInt64) ∧
    ∃ e0 e1 e2,
      newRangeEncoder ByteSink.accepting = (some e0, none) ∧
      encodeOps (List.replicate 10 (Op.bit 1 0)) e0 freshModels =
        (e1, (refEncodeOps (List.replicate 10 (Op.bit 1 0)) RefEncoder.fresh
          freshModels).2, none) ∧
      e1.Close = (e2, none) ∧
      e2.w.bw.written.length =
        (refEncodeOps (List.replicate 10 (Op.bit 1 0)) RefEncoder.fresh
          freshModels).1.shifts + 5 ∧
      e2.Compressed =
        (refEncodeOps (List.replicate 10 (Op.bit 1 0)) RefEncoder.fresh
          freshModels).1.shifts + 5 ∧
      beVal e2.w.bw.written =
        (refEncodeOps (List.replicate 10 (Op.bit 1 0)) RefEncoder.fresh
          freshModels).1.low ∧
      (∀ x, x ≤ e1.nrange → (e1.low + x) >>> 32 ≤ 1) ∧
      (∀ e : rangeEncoder, e.shiftLow.2 = none → e.shiftLow.1.low >>> 32 = 0) ∧
      (∀ e : rangeEncoder, (e.low % 2 ^ 32 < 0xff000000 ∨ e.low >>> 32 ≠ 0) →
        1 ≤ e.cacheLen → (e.w.bw.rejects = fun _ => false) → 1 ≤ e.Available →
        e.shiftLow.2 = none ∧
        e.shiftLow.1.w.bw.written = e.w.bw.written ++
          ((e.cache + (e.low >>> 32) % 256) % 256 ::
            List.replicate (e.cacheLen - 1).toNat
              ((0xff + (e.low >>> 32) % 256) % 256))) :=
  ⟨rfl, rfl, by decide,
    carry_exact ByteSink.accepting (List.replicate 10 (Op.bit 1 0)) rfl rfl (by decide)⟩

/-- C6, amended (`Close` flushes the pending bytes and the trailer): on a fresh
`rangeEncoder` (empty, never failing writer, `int64` counters in range), after
any sequence of `EncodeBit` / `DirectEncodeBit` calls `Close` succeeds with its
five `shiftLow` steps and `Compressed()` grows by `cacheLen + 4`, where
`cacheLen >= 1` counts the cached byte and the pending `0xFF` bytes: by exactly
5 if and only if `cacheLen = 1`.  The closed stream has 5 bytes more than the
number of normalize shifts. -/
theorem close_flushes_pending (w : ByteSink) (ops : List Op) (hw : w.written = [])
    (hrej : w.rejects = fun _ => false) (hlen : (ops.length : Int) + 11 ≤ maxInt64) :
    ∃ e0 e1 m1 e2,
      newRangeEncoder w = (some e0, none) ∧
      encodeOps ops e0 freshModels = (e1, m1, none) ∧
      e1.Close = (e2, none) ∧ e1.Close = e1.closeLoop 5 ∧
      1 ≤ e1.cacheLen ∧
      e2.Compressed = e1.Compressed + e1.cacheLen + 4 ∧
      (e2.Compressed = e1.Compressed + 5 ↔ e1.cacheLen = 1) ∧
      e2.Compressed = (refEncodeOps ops RefEncoder.fresh freshModels).1.shifts + 5 := by
  obtain ⟨e0, e1, e2, he0, he1, hs1, hok, he2, hl2, hv2, hn2, hb2, hpre, hsh⟩ :=
    encode_close_run w ops hw hrej hlen
  have h1 := hs1.1.shifts
  have h2 := hs1.1.clen
  refine ⟨e0, e1, _, e2, he0, he1, he2, rfl, h2, ?_, ?_, hn2⟩
  · show e2.w.n = e1.w.n + e1.cacheLen + 4
    omega
  · show e2.w.n = e1.w.n + 5 ↔ e1.cacheLen = 1
    omega

/-- Witness for C6 as amended: ten one bits on one model. -/
theorem close_flushes_pending_witness :
    ByteSink.accepting.written = [] ∧
    (ByteSink.accepting.rejects = fun _ => false) ∧
    (((List.replicate 10 (Op.bit 1 0)).length : Int) + 11 ≤ maxInt64) ∧
    ∃ e0 e1 m1 e2,
      newRangeEncoder ByteSink.accepting = (some e0, none) ∧
      encodeOps (List.replicate 10 (Op.bit 1 0)) e0 freshModels = (e1, m1, none) ∧
      e1.Close = (e2, none) ∧ e1.Close = e1.closeLoop 5 ∧
      1 ≤ e1.cacheLen ∧
      e2.Compressed = e1.Compressed + e1.cacheLen + 4 ∧
      (e2.Compressed = e1.Compressed + 5 ↔ e1.cacheLen = 1) ∧
      e2.Compressed =
        (refEncodeOps (List.replicate 10 (Op.bit 1 0)) RefEncoder.fresh
          freshModels).1.shifts + 5 :=
  ⟨rfl, rfl, by decide,
    close_flushes_pending ByteSink.accepting (List.replicate 10 (Op.bit 1 0)) rfl rfl
      (by decide)⟩

/-- C6, counterexample: after ten `EncodeBit(1, p)` calls on one model of a fresh
encoder nothing has been written and a `0xFF` byte is pending (`cacheLen = 2`);
`Close` then takes `Compressed()` from 0 to 6, not to 5. -/
theorem close_five_counterexample :
    closeGrowth ByteSink.accepting (List.replicate 10 (Op.bit 1 0)) = some (0, 6) := by
  decide!

theorem maxInt64_pos (n : Int) (hn : n ≤ 5) : ¬ (n ≥ maxInt64) := by
  unfold maxInt64; omega

/-- A non-zero first byte is rejected right after it has been read. -/
theorem newRangeDecoder_first (b0 : Nat) (rest : List Nat) (h0 : b0 < 256) (hz : b0 ≠ 0) :
    (newRangeDecoder (b0 :: rest)).2 = some Err.firstByteNotZero := by
  unfold newRangeDecoder rangeDecoder.init
  simp only [limitByteReader, lbcReader.ReadByte, maxInt64_pos 0 (by norm_num), if_false,
    Nat.mod_eq_of_lt h0, hz, ne_eq, not_false_eq_true, if_true]

/-- An input of fewer than five bytes is rejected. -/
theorem newRangeDecoder_short (inp : List Nat) (hlen : inp.length < 5) :
    (newRangeDecoder inp).2 ≠ none := by
  have hl := maxInt64_pos
  rcases inp with _ | ⟨b0, _ | ⟨b1, _ | ⟨b2, _ | ⟨b3, _ | ⟨b4, rest⟩⟩⟩⟩⟩
  · simp [newRangeDecoder, rangeDecoder.init, limitByteReader, lbcReader.ReadByte, hl]
  · simp only [newRangeDecoder, rangeDecoder.init, limitByteReader, lbcReader.ReadByte,
      hl 0 (by norm_num), if_false]
    split_ifs
    · simp
    · simp [rangeDecoder.initLoop, rangeDecoder.updateCode, lbcReader.ReadByte, hl]
  · simp only [newRangeDecoder, rangeDecoder.init, limitByteReader, lbcReader.ReadByte,
      hl 0 (by norm_num), if_false]
    split_ifs
    · simp
    · simp [rangeDecoder.initLoop, rangeDecoder.updateCode, lbcReader.ReadByte, hl]
  · simp only [newRangeDecoder, rangeDecoder.init, limitByteReader, lbcReader.ReadByte,
      hl 0 (by norm_num), if_false]
    split_ifs
    · simp
    · simp [rangeDecoder.initLoop, rangeDecoder.updateCode, lbcReader.ReadByte, hl]
  · simp only [newRangeDecoder, rangeDecoder.init, limitByteReader, lbcReader.ReadByte,
      hl 0 (by norm_num), if_false]
    split_ifs
    · simp
    · simp [rangeDecoder.initLoop, rangeDecoder.updateCode, lbcReader.ReadByte, hl]
  · simp at hlen
    omega

/-- C4 (decoder initialisation): for an input of bytes, `newRangeDecoder`
succeeds exactly when the input has at least five bytes `b0 .. b4`, `b0 = 0` and
the big-endian value of `b1 .. b4` is below `0xFFFFFFFF`; on success `code` is
that value, `nrange = 0xFFFFFFFF`, five bytes are consumed (`Compressed() = 5`)
and the rest of the input is still unread; a non-zero first byte gives the error
"first byte not zero", and `code >= nrange` after the five bytes gives the error
of `init`. -/
theorem newRangeDecoder_spec (inp : List Nat) (hb : ∀ x ∈ inp, x < 256) :
    ((newRangeDecoder inp).2 = none ↔
      ∃ b1 b2 b3 b4 rest, inp = 0 :: b1 :: b2 :: b3 :: b4 :: rest ∧
        b1 * 2 ^ 24 + b2 * 2 ^ 16 + b3 * 2 ^ 8 + b4 < 0xffffffff) ∧
    (∀ b0 b1 b2 b3 b4 rest, inp = b0 :: b1 :: b2 :: b3 :: b4 :: rest →
      (newRangeDecoder inp).2 = none →
        (newRangeDecoder inp).1.code = b1 * 2 ^ 24 + b2 * 2 ^ 16 + b3 * 2 ^ 8 + b4 ∧
        (newRangeDecoder inp).1.nrange = 0xffffffff ∧
        (newRangeDecoder inp).1.Compressed = 5 ∧
        (newRangeDecoder inp).1.r.src = rest) ∧
    (∀ b0 rest, inp = b0 :: rest → b0 ≠ 0 →
      (newRangeDecoder inp).2 = some Err.firstByteNotZero) ∧
    (∀ b1 b2 b3 b4 rest, inp = 0 :: b1 :: b2 :: b3 :: b4 :: rest →
      0xffffffff ≤ b1 * 2 ^ 24 + b2 * 2 ^ 16 + b3 * 2 ^ 8 + b4 →
      (newRangeDecoder inp).2 = some Err.codeNotBelowRange) := by
  have key : ∀ b0 b1 b2 b3 b4 rest, inp = b0 :: b1 :: b2 :: b3 :: b4 :: rest →
      newRangeDecoder inp =
        if b0 ≠ 0 then
          ({ r := { src := b1 :: b2 :: b3 :: b4 :: rest, n := 1, limit := maxInt64 },
             nrange := 0xffffffff, code := 0 }, some Err.firstByteNotZero)
        else
          ({ r := { src := rest, n := 5, limit := maxInt64 }, nrange := 0xffffffff,
             code := b1 * 2 ^ 24 + b2 * 2 ^ 16 + b3 * 2 ^ 8 + b4 },
           if b1 * 2 ^ 24 + b2 * 2 ^ 16 + b3 * 2 ^ 8 + b4 ≥ 0xffffffff
           then some Err.codeNotBelowRange else none) := by
    intro b0 b1 b2 b3 b4 rest h
    subst h
    exact newRangeDecoder_cons5 b0 b1 b2 b3 b4 rest (hb _ (by simp)) (hb _ (by simp))
      (hb _ (by simp)) (hb _ (by simp)) (hb _ (by simp))
  refine ⟨⟨?_, ?_⟩, ?_, ?_, ?_⟩
  · intro hok
    by_cases hlen : inp.length < 5
    · exact absurd hok (newRangeDecoder_short inp hlen)
    · obtain ⟨b0, b1, b2, b3, b4, rest, rfl⟩ :
          ∃ b0 b1 b2 b3 b4 rest, inp = b0 :: b1 :: b2 :: b3 :: b4 :: rest := by
        rcases inp with _ | ⟨b0, _ | ⟨b1, _ | ⟨b2, _ | ⟨b3, _ | ⟨b4, rest⟩⟩⟩⟩⟩ <;>
          first
          | exact ⟨_, _, _, _, _, _, rfl⟩
          | (exfalso; simp only [List.length_cons, List.length_nil] at hlen; omega)
      rw [key _ _ _ _ _ _ rfl] at hok
      by_cases hz : b0 = 0
      · subst hz
        simp only [ne_eq, not_true_eq_false, if_false] at hok
        refine ⟨b1, b2, b3, b4, rest, rfl, ?_⟩
        by_contra hge
        rw [if_pos (by omega)] at hok
        simp at hok
      · rw [if_pos hz] at hok
        simp at hok
  · rintro ⟨b1, b2, b3, b4, rest, h, hlt⟩
    rw [key _ _ _ _ _ _ h]
    simp only [ne_eq, not_true_eq_false, if_false]
    rw [if_neg (by omega)]
  · intro b0 b1 b2 b3 b4 rest h hok
    rw [key _ _ _ _ _ _ h] at hok ⊢
    by_cases hz : b0 = 0
    · subst hz
      simp [rangeDecoder.Compressed]
    · rw [if_pos hz] at hok
      simp at hok
  · intro b0 rest h hz
    subst h
    exact newRangeDecoder_first b0 rest (hb _ (by simp)) hz
  · intro b1 b2 b3 b4 rest h hge
    rw [key _ _ _ _ _ _ h]
    simp only [ne_eq, not_true_eq_false, if_false]
    rw [if_pos (by omega)]

/-- Witness for C4: a five-byte header followed by one more byte. -/
theorem newRangeDecoder_spec_witness :
    (∀ x ∈ [0, 1, 2, 3, 4, 9], x < 256) ∧
    (newRangeDecoder [0, 1, 2, 3, 4, 9]).2 = none ∧
    (newRangeDecoder [0, 1, 2, 3, 4, 9]).1.code = 0x01020304 ∧
    (newRangeDecoder [0, 1, 2, 3, 4, 9]).1.Compressed = 5 :=
  ⟨by decide,
    (newRangeDecoder_spec [0, 1, 2, 3, 4, 9] (by decide)).1.2
      ⟨1, 2, 3, 4, [9], rfl, by decide⟩,
    ((newRangeDecoder_spec [0, 1, 2, 3, 4, 9] (by decide)).2.1 0 1 2 3 4 [9] rfl
      ((newRangeDecoder_spec [0, 1, 2, 3, 4, 9] (by decide)).1.2
        ⟨1, 2, 3, 4, [9], rfl, by decide⟩)).1,
    ((newRangeDecoder_spec [0, 1, 2, 3, 4, 9] (by decide)).2.1 0 1 2 3 4 [9] rfl
      ((newRangeDecoder_spec [0, 1, 2, 3, 4, 9] (by decide)).1.2
        ⟨1, 2, 3, 4, [9], rfl, by decide⟩)).2.2.1⟩

/-- C8 (limit validation at construction): `newRangeEncoderLimit` returns an
error, and no encoder, exactly when `limit < 5`; for `limit >= 5` it returns an
encoder with `nrange = 0xFFFFFFFF`, `low = 0`, `cache = 0`, `cacheLen = 1` and
nothing written; `newRangeDecoderLimit` with `limit < 5` returns an error and no
decoder and leaves the input unread. -/
theorem limit_validation (w : ByteSink) (r : List Nat) (limit : Int) :
    ((newRangeEncoderLimit w limit).2 ≠ none ↔ limit < 5) ∧
    (limit < 5 → newRangeEncoderLimit w limit = (none, some Err.limitTooSmall)) ∧
    (5 ≤ limit → ∃ e, newRangeEncoderLimit w limit = (some e, none) ∧
      e.nrange = 0xffffffff ∧ e.low = 0 ∧ e.cache = 0 ∧ e.cacheLen = 1 ∧
      e.Compressed = 0 ∧ e.w.bw = w ∧ e.w.limit = limit) ∧
    (limit < 5 →
      newRangeDecoderLimit r limit =
        { d := none, err := some Err.limitTooSmall, rest := r }) := by
  unfold newRangeEncoderLimit newRangeDecoderLimit
  by_cases h : limit < 5
  · simp [h]
  · simp [h, limitByteWriter, rangeEncoder.Compressed]

/-- The probability values reachable from 1024 lie between 31 and 2017. -/
theorem probOK_updates (bs : List Nat) : ∀ p : Nat, probOK p → probOK (prob.updates p bs) := by
  induction bs with
  | nil => intro p hp; exact hp
  | cons b bs ih =>
    intro p hp
    simp only [prob.updates, List.foldl_cons]
    apply ih
    unfold prob.update
    split
    · exact probOK_inc p hp
    · exact probOK_dec p hp

/-- C9 (probability bound invariant): a probability value initialised to 1024
and updated by any finite sequence of `inc` (on a zero bit) and `dec` (on a one
bit) stays strictly between 0 and 2048, so neither update underflows or
overflows, and for `2^11 <= nrange < 2^32` the bound `(nrange >> 11) * value`
does not overflow a `uint32` and satisfies `0 < bound < nrange`. -/
theorem prob_bound_invariant (bs : List Nat) (nrange : Nat) (h11 : 2 ^ 11 ≤ nrange)
    (h32 : nrange < 2 ^ 32) :
    0 < prob.updates probInit bs ∧ prob.updates probInit bs < 2048 ∧
    prob.inc (prob.updates probInit bs) < 2048 ∧
    0 < prob.dec (prob.updates probInit bs) ∧
    prob.bound (prob.updates probInit bs) nrange =
      (nrange >>> 11) * prob.updates probInit bs ∧
    0 < prob.bound (prob.updates probInit bs) nrange ∧
    prob.bound (prob.updates probInit bs) nrange < nrange := by
  have hp := probOK_updates bs probInit probOK_init
  have hi := probOK_inc _ hp
  have hd := probOK_dec _ hp
  generalize prob.updates probInit bs = v at *
  obtain ⟨h1, h2⟩ := hp
  obtain ⟨hb, _⟩ := bound_eq v nrange (by omega) h32
  have hq : 1 ≤ nrange / 2048 := by omega
  have l1 : nrange / 2048 * 1 ≤ nrange / 2048 * v := Nat.mul_le_mul_left _ (by omega)
  have l2 : nrange / 2048 * v ≤ nrange / 2048 * 2047 := Nat.mul_le_mul_left _ (by omega)
  refine ⟨by omega, by omega, by have := hi.2; omega, by have := hd.1; omega, ?_, ?_, ?_⟩
  · rw [hb, Nat.shiftRight_eq_div_pow]
  · rw [hb]; omega
  · rw [hb]; omega

/-- Witness for C9: three updates and the initial range. -/
theorem prob_bound_invariant_witness :
    2 ^ 11 ≤ 0xffffffff ∧ 0xffffffff < 2 ^ 32 ∧
    0 < prob.updates probInit [1, 0, 1] ∧ prob.updates probInit [1, 0, 1] < 2048 ∧
    prob.inc (prob.updates probInit [1, 0, 1]) < 2048 ∧
    0 < prob.dec (prob.updates probInit [1, 0, 1]) ∧
    prob.bound (prob.updates probInit [1, 0, 1]) 0xffffffff =
      (0xffffffff >>> 11) * prob.updates probInit [1, 0, 1] ∧
    0 < prob.bound (prob.updates probInit [1, 0, 1]) 0xffffffff ∧
    prob.bound (prob.updates probInit [1, 0, 1]) 0xffffffff < 0xffffffff :=
  ⟨by decide, by decide, prob_bound_invariant [1, 0, 1] 0xffffffff (by decide) (by decide)⟩

/-- C7, the failing input: a new encoder with limit 5 on an accepting writer has
`Available() = 0`, yet `Close()` returns `ErrLimit` and writes nothing. -/
theorem close_refused_at_limit_five :
    closeOfNew 5 = some (0, some Err.ErrLimit, 0) := by
  decide

/-! ## Byte accounting on arbitrary writers -/

/-- A write refused by `writeByte` returns `ErrLimit` and changes nothing. -/
theorem writeByte_refused (e : rangeEncoder) (c : Nat) (h : e.Available < 1) :
    e.writeByte c = (e, some Err.ErrLimit) := by
  unfold rangeEncoder.writeByte
  rw [if_pos h]

/-- What one `writeByte` does, on any encoder and any writer. -/
theorem writeByte_cases (e : rangeEncoder) (c : Nat) :
    e.writeByte c = (e, some Err.ErrLimit) ∨
    (1 ≤ e.Available ∧
      e.writeByte c =
        ({ e with w := { e.w with bw := { e.w.bw with calls := e.w.bw.calls + 1 } } },
          some Err.writerFailed)) ∨
    (1 ≤ e.Available ∧ e.w.n < e.w.limit ∧
      e.writeByte c =
        ({ e with w := { e.w with
                         bw := { e.w.bw with written := e.w.bw.written ++ [c],
                                             calls := e.w.bw.calls + 1 },
                         n := e.w.n + 1 } }, none)) := by
  unfold rangeEncoder.writeByte
  by_cases h : e.Available < 1
  · left; rw [if_pos h]
  · rw [if_neg h]
    unfold lbcWriter.WriteByte
    by_cases h2 : e.w.n ≥ e.w.limit
    · left; rw [if_pos h2]
    · right
      rw [if_neg h2]
      unfold ByteSink.WriteByte
      by_cases h3 : e.w.bw.rejects e.w.bw.calls = true
      · left; rw [if_pos h3]; exact ⟨by omega, rfl⟩
      · right; rw [if_neg h3]; exact ⟨by omega, by omega, rfl⟩

/-- The emission loop on any writer: it never panics and never uses up its
iteration budget, makes at most `cacheLen` write calls, keeps the byte
accounting, and leaves `cacheLen = 0` on success and `cacheLen >= 1` on
failure. -/
theorem emitLoop_lim (k : Nat) : ∀ (fuel : Nat) (e : rangeEncoder) (tmp : Nat) (L : Int)
    (base : Nat), k ≤ fuel → e.cacheLen = k + 1 → LimInv e L base →
    ((e.emitLoop fuel tmp).2 = none ∨ (e.emitLoop fuel tmp).2 = some Err.ErrLimit ∨
      (e.emitLoop fuel tmp).2 = some Err.writerFailed) ∧
    ((e.emitLoop fuel tmp).2 = none → (e.emitLoop fuel tmp).1.cacheLen = 0) ∧
    ((e.emitLoop fuel tmp).2 ≠ none → 1 ≤ (e.emitLoop fuel tmp).1.cacheLen) ∧
    0 ≤ (e.emitLoop fuel tmp).1.cacheLen ∧
    (e.emitLoop fuel tmp).1.w.limit = L ∧
    0 ≤ (e.emitLoop fuel tmp).1.w.n ∧
    (e.emitLoop fuel tmp).1.w.n + 5 ≤ L ∧
    ((e.emitLoop fuel tmp).1.w.bw.written.length : Int) = base + (e.emitLoop fuel tmp).1.w.n ∧
    (e.emitLoop fuel tmp).1.w.bw.calls ≤ e.w.bw.calls + (k + 1) ∧
    (e.emitLoop fuel tmp).1.nrange = e.nrange := by
  induction k with
  | zero =>
    intro fuel e tmp L base _ hlen hinv
    obtain ⟨hl, hc, hn, hr, hw⟩ := hinv
    unfold rangeEncoder.emitLoop
    rcases writeByte_cases e ((tmp + (e.low >>> 32) % 256) % 256) with
      h | ⟨_, h⟩ | ⟨hav, hlt, h⟩
    · rw [h]; simp only; simp [hl, hn, hr, hw, hc]; omega
    · rw [h]; simp only; simp [hl, hn, hr, hw, hc]; omega
    · rw [h]
      unfold rangeEncoder.Available at hav
      simp only [hlen]
      simp [hl]
      refine ⟨by omega, by omega, by omega⟩
  | succ k ih =>
    intro fuel e tmp L base hf hlen hinv
    obtain ⟨hl, hc, hn, hr, hw⟩ := hinv
    obtain ⟨f, rfl⟩ : ∃ f, fuel = f + 1 := ⟨fuel - 1, by omega⟩
    unfold rangeEncoder.emitLoop
    rcases writeByte_cases e ((tmp + (e.low >>> 32) % 256) % 256) with
      h | ⟨_, h⟩ | ⟨hav, hlt, h⟩
    · rw [h]; simp only; simp [hl, hn, hr, hw, hc]; omega
    · rw [h]; simp only; simp [hl, hn, hr, hw, hc]; omega
    · rw [h]
      unfold rangeEncoder.Available at hav
      have hpos : ¬ (e.cacheLen - 1 ≤ 0) := by omega
      simp only [hpos, if_false]
      have hinv' : LimInv { e with
          w := { e.w with
                 bw := { e.w.bw with
                         written :=
                           e.w.bw.written ++ [(tmp + (e.low >>> 32) % 256) % 256]
                         calls := e.w.bw.calls + 1 },
                 n := e.w.n + 1 },
          cacheLen := e.cacheLen - 1 } L base :=
        ⟨hl, by simp only; omega, by simp only; omega, by simp only; omega,
          by simp only [List.length_append, List.length_singleton]; push_cast; omega⟩
      obtain ⟨g1, g2, g3, g4, g5, g6, g7, g8, g9, g10⟩ :=
        ih f _ 0xff L base (by omega) (by simp only; omega) hinv'
      refine ⟨g1, g2, g3, g4, g5, g6, g7, g8, ?_, g10⟩
      simp only at g9 ⊢
      omega

/-- `shiftLow` on any writer keeps the byte accounting, and fails only with
`ErrLimit` or the writer's error. -/
theorem shiftLow_lim (e : rangeEncoder) (L : Int) (base : Nat) (h : LimInv e L base) :
    (e.shiftLow.2 = none ∨ e.shiftLow.2 = some Err.ErrLimit ∨
      e.shiftLow.2 = some Err.writerFailed) ∧
    LimInv e.shiftLow.1 L base ∧ e.shiftLow.1.nrange = e.nrange := by
  have hc := h.clen
  obtain ⟨g1, g2, g3, g4, g5, g6, g7, g8, _, g10⟩ :=
    emitLoop_lim (e.cacheLen - 1).toNat (e.cacheLen - 1).toNat e e.cache L base le_rfl
      (by omega) h
  unfold rangeEncoder.shiftLow
  by_cases hcond : e.low % 2 ^ 32 < 0xff000000 ∨ e.low >>> 32 ≠ 0
  · rw [if_pos hcond]
    rcases hres : e.emitLoop (e.cacheLen - 1).toNat e.cache with ⟨e1, _ | err⟩
    · rw [hres] at g1 g2 g3 g4 g5 g6 g7 g8 g10
      simp only at g1 g2 g3 g4 g5 g6 g7 g8 g10 ⊢
      refine ⟨Or.inl trivial, ⟨g5, ?_, g6, g7, g8⟩, g10⟩
      rw [g2 trivial]; norm_num
    · rw [hres] at g1 g2 g3 g4 g5 g6 g7 g8 g10
      simp only at g1 g2 g3 g4 g5 g6 g7 g8 g10 ⊢
      exact ⟨g1, ⟨g5, g3 (by simp), g6, g7, g8⟩, g10⟩
  · rw [if_neg hcond]
    exact ⟨Or.inl rfl, ⟨h.lim, by simp only; omega, h.nonneg, h.room, h.len⟩, rfl⟩

/-- The encoder's `normalize` on any writer keeps the byte accounting. -/
theorem normalize_lim (e : rangeEncoder) (L : Int) (base : Nat) (h : LimInv e L base) :
    (e.normalize.2 = none ∨ e.normalize.2 = some Err.ErrLimit ∨
      e.normalize.2 = some Err.writerFailed) ∧
    LimInv e.normalize.1 L base := by
  unfold rangeEncoder.normalize
  by_cases hge : e.nrange ≥ 2 ^ 24
  · rw [if_pos hge]; exact ⟨Or.inl rfl, h⟩
  · rw [if_neg hge]
    obtain ⟨a, b, _⟩ := shiftLow_lim { e with nrange := (e.nrange <<< 8) % 2 ^ 32 } L base
      ⟨h.lim, h.clen, h.nonneg, h.room, h.len⟩
    exact ⟨a, b⟩

/-- Any single call keeps the byte accounting, and fails only with `ErrLimit` or
the writer's error. -/
theorem applyCall_lim (c : Call) (e : rangeEncoder) (m : Nat → prob) (L : Int) (base : Nat)
    (h : LimInv e L base) :
    ((applyCall c e m).2.2 = none ∨ (applyCall c e m).2.2 = some Err.ErrLimit ∨
      (applyCall c e m).2.2 = some Err.writerFailed) ∧
    LimInv (applyCall c e m).1 L base := by
  cases c with
  | bit b i =>
    unfold applyCall rangeEncoder.EncodeBit
    simp only
    split_ifs
    · exact normalize_lim _ L base ⟨h.lim, h.clen, h.nonneg, h.room, h.len⟩
    · exact normalize_lim _ L base ⟨h.lim, h.clen, h.nonneg, h.room, h.len⟩
  | direct b =>
    unfold applyCall rangeEncoder.DirectEncodeBit
    simp only
    exact normalize_lim _ L base ⟨h.lim, h.clen, h.nonneg, h.room, h.len⟩
  | close =>
    have hloop : ∀ (k : Nat) (e : rangeEncoder), LimInv e L base →
        ((e.closeLoop k).2 = none ∨ (e.closeLoop k).2 = some Err.ErrLimit ∨
          (e.closeLoop k).2 = some Err.writerFailed) ∧ LimInv (e.closeLoop k).1 L base := by
      intro k
      induction k with
      | zero => intro e he; exact ⟨Or.inl rfl, he⟩
      | succ k ih =>
        intro e he
        obtain ⟨a, b, _⟩ := shiftLow_lim e L base he
        unfold rangeEncoder.closeLoop
        rcases hres : e.shiftLow with ⟨e1, _ | err⟩
        · rw [hres] at b
          exact ih e1 b
        · rw [hres] at a b
          exact ⟨a, b⟩
    unfold applyCall rangeEncoder.Close
    exact hloop 5 e h

/-- Any sequence of calls, failed ones included, keeps the byte accounting, and
every error is `ErrLimit` or the writer's error. -/
theorem runCalls_lim (cs : List Call) : ∀ (e : rangeEncoder) (m : Nat → prob) (L : Int)
    (base : Nat), LimInv e L base →
    LimInv (runCalls cs e m).1 L base ∧
    ∀ err ∈ (runCalls cs e m).2.2,
      err = none ∨ err = some Err.ErrLimit ∨ err = some Err.writerFailed := by
  induction cs with
  | nil => intro e m L base h; exact ⟨h, by simp [runCalls]⟩
  | cons c cs ih =>
    intro e m L base h
    obtain ⟨a, b⟩ := applyCall_lim c e m L base h
    obtain ⟨c1, c2⟩ := ih (applyCall c e m).1 (applyCall c e m).2.1 L base b
    simp only [runCalls]
    refine ⟨c1, ?_⟩
    intro err herr
    simp only [List.mem_cons] at herr
    rcases herr with rfl | herr
    · exact a
    · exact c2 err herr

theorem LimInv_new (w : ByteSink) (L : Int) (hL : 5 ≤ L) :
    LimInv { w := limitByteWriter w L, nrange := 0xffffffff, low := 0, cacheLen := 1,
             cache := 0 } L w.written.length :=
  ⟨rfl, le_rfl, le_rfl, by simpa [limitByteWriter] using hL, by simp [limitByteWriter]⟩

/-- C5 (limit property): for an encoder made by `newRangeEncoderLimit` with limit
`L >= 5`, after any sequence of `EncodeBit` / `DirectEncodeBit` / `Close` calls,
failed ones included, `Compressed() + 5 <= L`, and `Compressed()` is the number
of bytes the writer received; a write with `Available() < 1` is refused with
`ErrLimit` and changes nothing, so a byte reaches the writer only when
`Available() >= 1` held just before. -/
theorem limit_property (w : ByteSink) (L : Int) (cs : List Call) (m : Nat → prob)
    (hL : 5 ≤ L) :
    ∃ e0, newRangeEncoderLimit w L = (some e0, none) ∧
      (runCalls cs e0 m).1.Compressed + 5 ≤ L ∧
      ((runCalls cs e0 m).1.w.bw.written.length : Int) =
        w.written.length + (runCalls cs e0 m).1.Compressed ∧
      (∀ (e : rangeEncoder) (c : Nat), e.Available < 1 →
        e.writeByte c = (e, some Err.ErrLimit)) ∧
      (∀ (e : rangeEncoder) (c : Nat),
        (e.writeByte c).1.w.bw.written ≠ e.w.bw.written → 1 ≤ e.Available) := by
  have hnew : newRangeEncoderLimit w L =
      (some { w := limitByteWriter w L, nrange := 0xffffffff, low := 0, cacheLen := 1,
              cache := 0 }, none) := by
    unfold newRangeEncoderLimit
    rw [if_neg (by omega)]
  obtain ⟨hinv, _⟩ := runCalls_lim cs _ m L w.written.length (LimInv_new w L hL)
  refine ⟨_, hnew, hinv.room, hinv.len, fun e c h => writeByte_refused e c h, ?_⟩
  intro e c hne
  rcases writeByte_cases e c with h | ⟨_, h⟩ | ⟨hav, _, _⟩
  · rw [h] at hne; exact absurd rfl hne
  · rw [h] at hne; exact absurd rfl hne
  · exact hav

/-- Witness for C5: limit 7, two bits and a `Close` that is refused. -/
theorem limit_property_witness :
    (5 : Int) ≤ 7 ∧
    ∃ e0, newRangeEncoderLimit ByteSink.accepting 7 = (some e0, none) ∧
      (runCalls [Call.bit 1 0, Call.direct 1, Call.close] e0 freshModels).1.Compressed + 5
        ≤ 7 ∧
      ((runCalls [Call.bit 1 0, Call.direct 1, Call.close] e0
          freshModels).1.w.bw.written.length : Int) =
        ByteSink.accepting.written.length +
          (runCalls [Call.bit 1 0, Call.direct 1, Call.close] e0 freshModels).1.Compressed ∧
      (∀ (e : rangeEncoder) (c : Nat), e.Available < 1 →
        e.writeByte c = (e, some Err.ErrLimit)) ∧
      (∀ (e : rangeEncoder) (c : Nat),
        (e.writeByte c).1.w.bw.written ≠ e.w.bw.written → 1 ≤ e.Available) :=
  ⟨by decide,
    limit_property ByteSink.accepting 7 [Call.bit 1 0, Call.direct 1, Call.close]
      freshModels (by decide)⟩

/-- The emission loop entered with `cacheLen >= 1`, on any writer: it fails only
with `ErrLimit` or the writer's error (no panic, no exhausted budget), makes at
most `cacheLen` write calls, and `cacheLen` never becomes negative. -/
theorem emitLoop_safe (k : Nat) : ∀ (fuel : Nat) (e : rangeEncoder) (tmp : Nat),
    k ≤ fuel → e.cacheLen = k + 1 →
    ((e.emitLoop fuel tmp).2 = none ∨ (e.emitLoop fuel tmp).2 = some Err.ErrLimit ∨
      (e.emitLoop fuel tmp).2 = some Err.writerFailed) ∧
    ((e.emitLoop fuel tmp).2 = none → (e.emitLoop fuel tmp).1.cacheLen = 0) ∧
    ((e.emitLoop fuel tmp).2 ≠ none → 1 ≤ (e.emitLoop fuel tmp).1.cacheLen) ∧
    (e.emitLoop fuel tmp).1.w.bw.calls ≤ e.w.bw.calls + (k + 1) := by
  induction k with
  | zero =>
    intro fuel e tmp _ hlen
    unfold rangeEncoder.emitLoop
    rcases writeByte_cases e ((tmp + (e.low >>> 32) % 256) % 256) with
      h | ⟨_, h⟩ | ⟨hav, hlt, h⟩
    · rw [h]; simp only; simp [hlen]
    · rw [h]; simp only; simp [hlen]
    · rw [h]; simp only [hlen]; simp
  | succ k ih =>
    intro fuel e tmp hf hlen
    obtain ⟨f, rfl⟩ : ∃ f, fuel = f + 1 := ⟨fuel - 1, by omega⟩
    unfold rangeEncoder.emitLoop
    rcases writeByte_cases e ((tmp + (e.low >>> 32) % 256) % 256) with
      h | ⟨_, h⟩ | ⟨hav, hlt, h⟩
    · rw [h]; simp only; simp [hlen]; omega
    · rw [h]; simp only; simp [hlen]; omega
    · rw [h]
      have hpos : ¬ (e.cacheLen - 1 ≤ 0) := by omega
      simp only [hpos, if_false]
      obtain ⟨g1, g2, g3, g4⟩ := ih f
        { e with
          w := { e.w with
                 bw := { e.w.bw with
                         written :=
                           e.w.bw.written ++ [(tmp + (e.low >>> 32) % 256) % 256]
                         calls := e.w.bw.calls + 1 },
                 n := e.w.n + 1 },
          cacheLen := e.cacheLen - 1 } 0xff (by omega) (by simp only; omega)
      refine ⟨g1, g2, g3, ?_⟩
      simp only at g4 ⊢
      omega

/-- C19 (no negative `cacheLen`): for an encoder made by `newRangeEncoder` or by
`newRangeEncoderLimit`, on any writer and after any sequence of `EncodeBit` /
`DirectEncodeBit` / `Close` calls, failed ones included, `cacheLen >= 1` holds
and no call has raised the panic "negative cacheLen" (nor used up the iteration
budget of the embedded loop: every error is `ErrLimit` or the writer's error).
The emission loop, entered with `cacheLen >= 1`, ends after at most `cacheLen`
write calls with `cacheLen = 0` on success and `cacheLen >= 1` on failure. -/
theorem no_negative_cacheLen (w : ByteSink) (L : Int) (cs : List Call) (m : Nat → prob) :
    (∀ e0, (newRangeEncoder w = (some e0, none) ∨
        newRangeEncoderLimit w L = (some e0, none)) →
      1 ≤ (runCalls cs e0 m).1.cacheLen ∧
      ∀ err ∈ (runCalls cs e0 m).2.2,
        err ≠ some Err.negativeCacheLen ∧ err ≠ some Err.outOfFuel ∧
        (err = none ∨ err = some Err.ErrLimit ∨ err = some Err.writerFailed)) ∧
    (∀ (e : rangeEncoder) (tmp : Nat), 1 ≤ e.cacheLen →
      ((e.emitLoop (e.cacheLen - 1).toNat tmp).2 = none ∨
        (e.emitLoop (e.cacheLen - 1).toNat tmp).2 = some Err.ErrLimit ∨
        (e.emitLoop (e.cacheLen - 1).toNat tmp).2 = some Err.writerFailed) ∧
      ((e.emitLoop (e.cacheLen - 1).toNat tmp).2 = none →
        (e.emitLoop (e.cacheLen - 1).toNat tmp).1.cacheLen = 0) ∧
      ((e.emitLoop (e.cacheLen - 1).toNat tmp).2 ≠ none →
        1 ≤ (e.emitLoop (e.cacheLen - 1).toNat tmp).1.cacheLen) ∧
      ((e.emitLoop (e.cacheLen - 1).toNat tmp).1.w.bw.calls : Int) ≤
        e.w.bw.calls + e.cacheLen) := by
  constructor
  · intro e0 h0
    have hinv : ∃ L', LimInv e0 L' w.written.length := by
      rcases h0 with h | h
      · unfold newRangeEncoder at h
        simp only [Prod.mk.injEq, Option.some.injEq, and_true] at h
        subst h
        exact ⟨maxInt64, LimInv_new w maxInt64 (by unfold maxInt64; omega)⟩
      · unfold newRangeEncoderLimit at h
        by_cases hL : L < 5
        · rw [if_pos hL] at h; simp at h
        · rw [if_neg hL] at h
          simp only [Prod.mk.injEq, Option.some.injEq, and_true] at h
          subst h
          exact ⟨L, LimInv_new w L (by omega)⟩
    obtain ⟨L', hinv⟩ := hinv
    obtain ⟨a, b⟩ := runCalls_lim cs e0 m L' w.written.length hinv
    refine ⟨a.clen, fun err herr => ?_⟩
    have := b err herr
    refine ⟨?_, ?_, this⟩
    · rcases this with h | h | h <;> rw [h] <;> simp
    · rcases this with h | h | h <;> rw [h] <;> simp
  · intro e tmp hlen
    obtain ⟨g1, g2, g3, g4⟩ :=
      emitLoop_safe (e.cacheLen - 1).toNat (e.cacheLen - 1).toNat e tmp le_rfl (by omega)
    refine ⟨g1, g2, g3, ?_⟩
    have : (((e.cacheLen - 1).toNat : Nat) : Int) = e.cacheLen - 1 := by omega
    omega

/-- C18 (the decoder ends at the end of the stream): for any sequence of calls
encoded on a fresh unlimited `rangeEncoder` (empty, never failing writer, `int64`
counters in range) and closed, a `rangeDecoder` initialised on the bytes written
that has decoded the matching sequence has consumed exactly the bytes the
encoder wrote, nothing is left unread, its `code` is 0 and `possiblyAtEnd()`
returns true. -/
theorem decoder_ends_with_stream (w : ByteSink) (ops : List Op) (hw : w.written = [])
    (hrej : w.rejects = fun _ => false) (hlen : (ops.length : Int) + 11 ≤ maxInt64) :
    ∃ e0 e1 m1 e2 d0 d1,
      newRangeEncoder w = (some e0, none) ∧
      encodeOps ops e0 freshModels = (e1, m1, none) ∧
      e1.Close = (e2, none) ∧
      newRangeDecoder e2.w.bw.written = (d0, none) ∧
      decodeOps ops d0 freshModels = (d1, m1, ops.map Op.lsb, none) ∧
      d1.Compressed = e2.Compressed ∧ d1.r.src = [] ∧ d1.code = 0 ∧
      d1.possiblyAtEnd = true := by
  obtain ⟨e0, e1, m1, e2, d0, d1, h1, h2, h3, h4, h5, h6, h7, h8, _⟩ :=
    decode_run w ops hw hrej hlen
  refine ⟨e0, e1, m1, e2, d0, d1, h1, h2, h3, h4, h5, h6, h8, h7, ?_⟩
  simp [rangeDecoder.possiblyAtEnd, h7]

/-- Witness for C18: three calls on two models and a direct bit. -/
theorem decoder_ends_with_stream_witness :
    ByteSink.accepting.written = [] ∧
    (ByteSink.accepting.rejects = fun _ => false) ∧
    (([Op.bit 1 0, Op.direct 3, Op.bit 0 1].length : Int) + 11 ≤ maxInt64) ∧
    ∃ e0 e1 m1 e2 d0 d1,
      newRangeEncoder ByteSink.accepting = (some e0, none) ∧
      encodeOps [Op.bit 1 0, Op.direct 3, Op.bit 0 1] e0 freshModels = (e1, m1, none) ∧
      e1.Close = (e2, none) ∧
      newRangeDecoder e2.w.bw.written = (d0, none) ∧
      decodeOps [Op.bit 1 0, Op.direct 3, Op.bit 0 1] d0 freshModels =
        (d1, m1, [Op.bit 1 0, Op.direct 3, Op.bit 0 1].map Op.lsb, none) ∧
      d1.Compressed = e2.Compressed ∧ d1.r.src = [] ∧ d1.code = 0 ∧
      d1.possiblyAtEnd = true :=
  ⟨rfl, rfl, by decide,
    decoder_ends_with_stream ByteSink.accepting [Op.bit 1 0, Op.direct 3, Op.bit 0 1]
      rfl rfl (by decide)⟩

theorem lsb_idem (b : Nat) : (b &&& 1) &&& 1 = b &&& 1 := by
  rw [Nat.and_assoc]; rfl

/-- C20 (only the least-significant bit is encoded): for an encoder state with
`low` in `uint64` range and `nrange` in `uint32` range, `DirectEncodeBit(b)` is
`DirectEncodeBit(b & 1)` and `EncodeBit(b, p)` is `EncodeBit(b & 1, p)` (same
state, output, error and model value); `DirectEncodeBit` halves `nrange`, adds
the halved `nrange` to `low` if and only if `b & 1 = 1`, normalizes, and takes
no model. -/
theorem only_lsb_encoded (e : rangeEncoder) (b : Nat) (p : Nat) (hlow : e.low < 2 ^ 64)
    (hr : e.nrange < 2 ^ 32) :
    e.DirectEncodeBit b = e.DirectEncodeBit (b &&& 1) ∧
    e.EncodeBit b p = e.EncodeBit (b &&& 1) p ∧
    e.DirectEncodeBit b =
      rangeEncoder.normalize
        { e with nrange := e.nrange >>> 1,
                 low := if b &&& 1 = 1 then (e.low + (e.nrange >>> 1)) % 2 ^ 64
                        else e.low } := by
  refine ⟨?_, ?_, ?_⟩
  · unfold rangeEncoder.DirectEncodeBit
    rw [lsb_idem]
  · unfold rangeEncoder.EncodeBit
    rw [lsb_idem]
  · unfold rangeEncoder.DirectEncodeBit
    have hh : e.nrange >>> 1 < 2 ^ 64 := by
      rw [Nat.shiftRight_eq_div_pow]; omega
    simp only
    rw [mask_of_lsb _ b hh]
    have hb := lsb_le_one b
    by_cases h0 : b &&& 1 = 0
    · have h1 : ¬ (b &&& 1 = 1) := by omega
      simp only [h0, if_true, add_zero, Nat.mod_eq_of_lt hlow]
      simp
    · have h1 : b &&& 1 = 1 := by omega
      simp only [h1, if_true, one_ne_zero, if_false]

/-- Witness for C20: the bit argument 6 on a fresh encoder state. -/
theorem only_lsb_encoded_witness :
    (0 : Nat) < 2 ^ 64 ∧ (0xffffffff : Nat) < 2 ^ 32 ∧
    rangeEncoder.DirectEncodeBit
        { w := limitByteWriter ByteSink.accepting 9, nrange := 0xffffffff, low := 0,
          cacheLen := 1, cache := 0 } 6 =
      rangeEncoder.DirectEncodeBit
        { w := limitByteWriter ByteSink.accepting 9, nrange := 0xffffffff, low := 0,
          cacheLen := 1, cache := 0 } (6 &&& 1) :=
  ⟨by decide, by decide,
    (only_lsb_encoded
      { w := limitByteWriter ByteSink.accepting 9, nrange := 0xffffffff, low := 0,
        cacheLen := 1, cache := 0 } 6 1024 (by decide) (by decide)).1⟩

/-- C17 (`DirectDecodeBit` mirrors the 50/50 split): for a decoder state with
`code < nrange` (and `nrange` in `uint32` range), with `h = nrange >> 1`, the
branch-free arithmetic sets `nrange` to `h`, subtracts `h` from `code` and
returns 1 if `code >= h`, leaves `code` unchanged and returns 0 if `code < h`,
and then normalizes; the returned value is 0 or 1 in every state, and the call
takes no model. -/
theorem DirectDecodeBit_mirror (d : rangeDecoder) (hc : d.code < d.nrange)
    (hr : d.nrange < 2 ^ 32) :
    d.DirectDecodeBit =
      (match rangeDecoder.normalize
          { d with nrange := d.nrange >>> 1,
                   code := if d.nrange >>> 1 ≤ d.code then d.code - (d.nrange >>> 1)
                           else d.code } with
       | (d1, some err) => (d1, 0, some err)
       | (d1, none) => (d1, if d.nrange >>> 1 ≤ d.code then 1 else 0, none)) ∧
    ∀ d' : rangeDecoder, d'.DirectDecodeBit.2.1 ≤ 1 := by
  constructor
  · obtain ⟨ha1, ha2⟩ := direct_arith d.code d.nrange hc hr
    have hhalf : d.nrange >>> 1 = d.nrange / 2 := by
      rw [Nat.shiftRight_eq_div_pow]
    unfold rangeDecoder.DirectDecodeBit
    simp only
    rw [ha1, ha2, hhalf]
  · intro d'
    unfold rangeDecoder.DirectDecodeBit
    simp only
    split
    · exact Nat.zero_le _
    · exact lsb_le_one _

/-- Witness for C17: a decoder state just after initialisation. -/
theorem DirectDecodeBit_mirror_witness :
    (0x80000000 : Nat) < 0xffffffff ∧ (0xffffffff : Nat) < 2 ^ 32 ∧
    (rangeDecoder.DirectDecodeBit
        { r := limitByteReader [] 9, nrange := 0xffffffff, code := 0x80000000 }).2.1 = 1 :=
  ⟨by decide, by decide, by
    rw [(DirectDecodeBit_mirror
      { r := limitByteReader [] 9, nrange := 0xffffffff, code := 0x80000000 }
      (by decide) (by decide)).1]
    decide⟩

/-- C15, the failing input: on the stream `00 FF FF FF FE` `newRangeDecoder`
succeeds (`code = 0xFFFFFFFE < nrange = 0xFFFFFFFF`), and after one
`DirectDecodeBit()` the decoder has `code = nrange = 0x7FFFFFFF`. -/
theorem code_reaches_nrange :
    directAfterInit [0, 255, 255, 255, 254] = some (0x7fffffff, 0x7fffffff) := by
  decide

/-! ## The range stays normalized -/

theorem emitLoop_nrange (fuel : Nat) : ∀ (e : rangeEncoder) (tmp : Nat),
    (e.emitLoop fuel tmp).1.nrange = e.nrange := by
  induction fuel with
  | zero =>
    intro e tmp
    unfold rangeEncoder.emitLoop
    rcases writeByte_cases e ((tmp + (e.low >>> 32) % 256) % 256) with
      h | ⟨_, h⟩ | ⟨_, _, h⟩
    · rw [h]
    · rw [h]
    · rw [h]; simp only; split_ifs <;> rfl
  | succ f ih =>
    intro e tmp
    unfold rangeEncoder.emitLoop
    rcases writeByte_cases e ((tmp + (e.low >>> 32) % 256) % 256) with
      h | ⟨_, h⟩ | ⟨_, _, h⟩
    · rw [h]
    · rw [h]
    · rw [h]; simp only
      split_ifs
      · rfl
      · rfl
      · rw [ih]

theorem shiftLow_nrange (e : rangeEncoder) : e.shiftLow.1.nrange = e.nrange := by
  have h := emitLoop_nrange (e.cacheLen - 1).toNat e e.cache
  unfold rangeEncoder.shiftLow
  split_ifs
  · rcases hres : e.emitLoop (e.cacheLen - 1).toNat e.cache with ⟨e1, _ | err⟩
    · rw [hres] at h; exact h
    · rw [hres] at h; exact h
  · rfl

/-- The encoder's `normalize` on a range in `[2^16, 2^32)`: one shift at most,
without overflow, gives a range in `[2^24, 2^32)`. -/
theorem enc_normalize_range (e : rangeEncoder) (h16 : 2 ^ 16 ≤ e.nrange)
    (h32 : e.nrange < 2 ^ 32) :
    2 ^ 24 ≤ e.normalize.1.nrange ∧ e.normalize.1.nrange < 2 ^ 32 := by
  unfold rangeEncoder.normalize
  by_cases hge : e.nrange ≥ 2 ^ 24
  · rw [if_pos hge]; exact ⟨hge, h32⟩
  · rw [if_neg hge, shiftLow_nrange]
    simp only [Nat.shiftLeft_eq]
    omega

theorem EncodeBit_range (e : rangeEncoder) (b p : Nat) (hp : probOK p)
    (h24 : 2 ^ 24 ≤ e.nrange) (h32 : e.nrange < 2 ^ 32) :
    2 ^ 24 ≤ (e.EncodeBit b p).1.nrange ∧ (e.EncodeBit b p).1.nrange < 2 ^ 32 ∧
    probOK (e.EncodeBit b p).2.1 := by
  obtain ⟨hb1, hb2⟩ := bound_range p e.nrange hp h24 h32
  unfold rangeEncoder.EncodeBit
  simp only
  split_ifs
  · obtain ⟨a, c⟩ := enc_normalize_range { e with nrange := prob.bound p e.nrange }
      (by simp only; omega) (by simp only; omega)
    exact ⟨a, c, probOK_inc p hp⟩
  · obtain ⟨a, c⟩ := enc_normalize_range
      { e with low := (e.low + prob.bound p e.nrange) % 2 ^ 64,
               nrange := (e.nrange + 2 ^ 32 - prob.bound p e.nrange) % 2 ^ 32 }
      (by simp only; omega) (by simp only; omega)
    exact ⟨a, c, probOK_dec p hp⟩

theorem DirectEncodeBit_range (e : rangeEncoder) (b : Nat)
    (h24 : 2 ^ 24 ≤ e.nrange) (h32 : e.nrange < 2 ^ 32) :
    2 ^ 24 ≤ (e.DirectEncodeBit b).1.nrange ∧ (e.DirectEncodeBit b).1.nrange < 2 ^ 32 := by
  unfold rangeEncoder.DirectEncodeBit
  simp only
  exact enc_normalize_range _ (by simp only [Nat.shiftRight_eq_div_pow]; omega)
    (by simp only [Nat.shiftRight_eq_div_pow]; omega)

theorem encodeOps_range (ops : List Op) : ∀ (e : rangeEncoder) (m : Nat → prob),
    2 ^ 24 ≤ e.nrange → e.nrange < 2 ^ 32 → (∀ i, probOK (m i)) →
    2 ^ 24 ≤ (encodeOps ops e m).1.nrange ∧ (encodeOps ops e m).1.nrange < 2 ^ 32 ∧
    ∀ i, probOK ((encodeOps ops e m).2.1 i) := by
  induction ops with
  | nil => intro e m h1 h2 hm; exact ⟨h1, h2, hm⟩
  | cons op ops ih =>
    intro e m h1 h2 hm
    cases op with
    | bit b i =>
      obtain ⟨a, c, hp⟩ := EncodeBit_range e b (m i) (hm i) h1 h2
      unfold encodeOps
      rcases hres : e.EncodeBit b (m i) with ⟨e1, p, _ | err⟩
      · rw [hres] at a c hp
        exact ih e1 _ a c (probOK_update m i p hm hp)
      · rw [hres] at a c hp
        exact ⟨a, c, probOK_update m i p hm hp⟩
    | direct b =>
      obtain ⟨a, c⟩ := DirectEncodeBit_range e b h1 h2
      unfold encodeOps
      rcases hres : e.DirectEncodeBit b with ⟨e1, _ | err⟩
      · rw [hres] at a c
        exact ih e1 m a c hm
      · rw [hres] at a c
        exact ⟨a, c, hm⟩

theorem updateCode_nrange (d : rangeDecoder) : d.updateCode.1.nrange = d.nrange := by
  unfold rangeDecoder.updateCode
  rcases hres : d.r.ReadByte with ⟨r, b, _ | err⟩ <;> rfl

/-- The decoder's `normalize` on a range in `[2^16, 2^32)`. -/
theorem dec_normalize_range (d : rangeDecoder) (h16 : 2 ^ 16 ≤ d.nrange)
    (h32 : d.nrange < 2 ^ 32) :
    2 ^ 24 ≤ d.normalize.1.nrange ∧ d.normalize.1.nrange < 2 ^ 32 := by
  unfold rangeDecoder.normalize
  by_cases hlt : d.nrange < 2 ^ 24
  · rw [if_pos hlt, updateCode_nrange]
    simp only [Nat.shiftLeft_eq]
    omega
  · rw [if_neg hlt]; exact ⟨Nat.le_of_not_lt hlt, h32⟩

theorem DecodeBit_range (d : rangeDecoder) (p : Nat) (hp : probOK p)
    (h24 : 2 ^ 24 ≤ d.nrange) (h32 : d.nrange < 2 ^ 32) :
    2 ^ 24 ≤ (d.DecodeBit p).1.nrange ∧ (d.DecodeBit p).1.nrange < 2 ^ 32 ∧
    probOK (d.DecodeBit p).2.1 := by
  obtain ⟨hb1, hb2⟩ := bound_range p d.nrange hp h24 h32
  unfold rangeDecoder.DecodeBit
  simp only
  split_ifs
  · obtain ⟨a, c⟩ := dec_normalize_range { d with nrange := prob.bound p d.nrange }
      (by simp only; omega) (by simp only; omega)
    rcases hres : rangeDecoder.normalize { d with nrange := prob.bound p d.nrange } with
      ⟨d1, _ | err⟩
    · rw [hres] at a c; exact ⟨a, c, probOK_inc p hp⟩
    · rw [hres] at a c; exact ⟨a, c, probOK_inc p hp⟩
  · obtain ⟨a, c⟩ := dec_normalize_range
      { d with code := (d.code + 2 ^ 32 - prob.bound p d.nrange) % 2 ^ 32,
               nrange := (d.nrange + 2 ^ 32 - prob.bound p d.nrange) % 2 ^ 32 }
      (by simp only; omega) (by simp only; omega)
    rcases hres : rangeDecoder.normalize
      { d with code := (d.code + 2 ^ 32 - prob.bound p d.nrange) % 2 ^ 32,
               nrange := (d.nrange + 2 ^ 32 - prob.bound p d.nrange) % 2 ^ 32 } with
      ⟨d1, _ | err⟩
    · rw [hres] at a c; exact ⟨a, c, probOK_dec p hp⟩
    · rw [hres] at a c; exact ⟨a, c, probOK_dec p hp⟩

theorem DirectDecodeBit_range (d : rangeDecoder)
    (h24 : 2 ^ 24 ≤ d.nrange) (h32 : d.nrange < 2 ^ 32) :
    2 ^ 24 ≤ d.DirectDecodeBit.1.nrange ∧ d.DirectDecodeBit.1.nrange < 2 ^ 32 := by
  unfold rangeDecoder.DirectDecodeBit
  simp only
  generalize hcode : (((d.code + 2 ^ 32 - d.nrange >>> 1) % 2 ^ 32 +
    (d.nrange >>> 1 &&&
      (2 ^ 32 - ((d.code + 2 ^ 32 - d.nrange >>> 1) % 2 ^ 32) >>> 31) % 2 ^ 32)) %
    2 ^ 32) = c
  obtain ⟨a, b⟩ := dec_normalize_range { d with nrange := d.nrange >>> 1, code := c }
    (by simp only [Nat.shiftRight_eq_div_pow]; omega)
    (by simp only [Nat.shiftRight_eq_div_pow]; omega)
  rcases hres : rangeDecoder.normalize { d with nrange := d.nrange >>> 1, code := c } with
    ⟨d1, _ | err⟩
  · rw [hres] at a b; exact ⟨a, b⟩
  · rw [hres] at a b; exact ⟨a, b⟩

theorem decodeOps_range (ops : List Op) : ∀ (d : rangeDecoder) (m : Nat → prob),
    2 ^ 24 ≤ d.nrange → d.nrange < 2 ^ 32 → (∀ i, probOK (m i)) →
    2 ^ 24 ≤ (decodeOps ops d m).1.nrange ∧ (decodeOps ops d m).1.nrange < 2 ^ 32 ∧
    ∀ i, probOK ((decodeOps ops d m).2.1 i) := by
  induction ops with
  | nil => intro d m h1 h2 hm; exact ⟨h1, h2, hm⟩
  | cons op ops ih =>
    intro d m h1 h2 hm
    cases op with
    | bit b i =>
      obtain ⟨a, c, hp⟩ := DecodeBit_range d (m i) (hm i) h1 h2
      unfold decodeOps
      rcases hres : d.DecodeBit (m i) with ⟨d1, p, bit, _ | err⟩
      · rw [hres] at a c hp
        exact ih d1 _ a c (probOK_update m i p hm hp)
      · rw [hres] at a c hp
        exact ⟨a, c, probOK_update m i p hm hp⟩
    | direct b =>
      obtain ⟨a, c⟩ := DirectDecodeBit_range d h1 h2
      unfold decodeOps
      rcases hres : d.DirectDecodeBit with ⟨d1, bit, _ | err⟩
      · rw [hres] at a c
        exact ih d1 m a c hm
      · rw [hres] at a c
        exact ⟨a, c, hm⟩

theorem enc_normalizeLoop_done (f : Nat) (e : rangeEncoder) (h : 2 ^ 24 ≤ e.nrange) :
    e.normalizeLoop f = (e, none) := by
  cases f with
  | zero => rfl
  | succ f => unfold rangeEncoder.normalizeLoop; rw [if_neg (by omega)]

theorem dec_normalizeLoop_done (f : Nat) (d : rangeDecoder) (h : 2 ^ 24 ≤ d.nrange) :
    d.normalizeLoop f = (d, none) := by
  cases f with
  | zero => rfl
  | succ f => unfold rangeDecoder.normalizeLoop; rw [if_neg (by omega)]

/-- The single-step `normalize` of the encoder is the loop of the specification
on every range in `[2^16, 2^32)`. -/
theorem enc_normalizeLoop_eq (e : rangeEncoder) (fuel : Nat) (h16 : 2 ^ 16 ≤ e.nrange)
    (h32 : e.nrange < 2 ^ 32) (hf : 1 ≤ fuel) : e.normalizeLoop fuel = e.normalize := by
  obtain ⟨f, rfl⟩ : ∃ f, fuel = f + 1 := ⟨fuel - 1, by omega⟩
  unfold rangeEncoder.normalizeLoop rangeEncoder.normalize
  by_cases hlt : e.nrange < 2 ^ 24
  · rw [if_pos hlt, if_neg (by omega)]
    have hn := shiftLow_nrange { e with nrange := (e.nrange <<< 8) % 2 ^ 32 }
    rcases hres : rangeEncoder.shiftLow { e with nrange := (e.nrange <<< 8) % 2 ^ 32 } with
      ⟨e1, _ | err⟩
    · rw [hres] at hn
      simp only [Nat.shiftLeft_eq] at hn
      exact enc_normalizeLoop_done f e1 (by omega)
    · rfl
  · rw [if_neg hlt, if_pos (by omega)]

/-- The single-step `normalize` of the decoder is the loop of the specification
on every range in `[2^16, 2^32)`. -/
theorem dec_normalizeLoop_eq (d : rangeDecoder) (fuel : Nat) (h16 : 2 ^ 16 ≤ d.nrange)
    (h32 : d.nrange < 2 ^ 32) (hf : 1 ≤ fuel) : d.normalizeLoop fuel = d.normalize := by
  obtain ⟨f, rfl⟩ : ∃ f, fuel = f + 1 := ⟨fuel - 1, by omega⟩
  unfold rangeDecoder.normalizeLoop rangeDecoder.normalize
  by_cases hlt : d.nrange < 2 ^ 24
  · rw [if_pos hlt, if_pos hlt]
    have hn := updateCode_nrange { d with nrange := (d.nrange <<< 8) % 2 ^ 32 }
    rcases hres : rangeDecoder.updateCode { d with nrange := (d.nrange <<< 8) % 2 ^ 32 } with
      ⟨d1, _ | err⟩
    · rw [hres] at hn
      simp only [Nat.shiftLeft_eq] at hn
      exact dec_normalizeLoop_done f d1 (by omega)
    · rfl
  · rw [if_neg hlt, if_neg hlt]

/-- C16 (range invariant, single-step normalize): starting from
`nrange = 0xFFFFFFFF`, after any sequence of `EncodeBit` / `DirectEncodeBit`
calls on the encoder, and of `DecodeBit` / `DirectDecodeBit` calls on the
decoder, on models initialised to 1024 (the state after a failed call
included), `2^24 <= nrange < 2^32`; the range the next call hands to
`normalize` (the bound, the range less the bound, or half the range) is at
least `2^16`; on such a range the shift `nrange <<= 8` does not overflow, and
`normalize`, which shifts at most once, gives the same result as the loop
`while nrange < 2^24` of the specification. -/
theorem range_stays_normalized (e0 : rangeEncoder) (d0 : rangeDecoder) (ops : List Op)
    (he : e0.nrange = 0xffffffff) (hd : d0.nrange = 0xffffffff) :
    (2 ^ 24 ≤ (encodeOps ops e0 freshModels).1.nrange ∧
      (encodeOps ops e0 freshModels).1.nrange < 2 ^ 32) ∧
    (2 ^ 24 ≤ (decodeOps ops d0 freshModels).1.nrange ∧
      (decodeOps ops d0 freshModels).1.nrange < 2 ^ 32) ∧
    (∀ i, 2 ^ 16 ≤ prob.bound ((encodeOps ops e0 freshModels).2.1 i)
            (encodeOps ops e0 freshModels).1.nrange ∧
          prob.bound ((encodeOps ops e0 freshModels).2.1 i)
            (encodeOps ops e0 freshModels).1.nrange + 2 ^ 16 ≤
            (encodeOps ops e0 freshModels).1.nrange ∧
          2 ^ 16 ≤ (encodeOps ops e0 freshModels).1.nrange >>> 1) ∧
    (∀ i, 2 ^ 16 ≤ prob.bound ((decodeOps ops d0 freshModels).2.1 i)
            (decodeOps ops d0 freshModels).1.nrange ∧
          prob.bound ((decodeOps ops d0 freshModels).2.1 i)
            (decodeOps ops d0 freshModels).1.nrange + 2 ^ 16 ≤
            (decodeOps ops d0 freshModels).1.nrange ∧
          2 ^ 16 ≤ (decodeOps ops d0 freshModels).1.nrange >>> 1) ∧
    (∀ (e : rangeEncoder) (fuel : Nat), 2 ^ 16 ≤ e.nrange → e.nrange < 2 ^ 32 → 1 ≤ fuel →
      e.normalizeLoop fuel = e.normalize ∧
      (e.nrange < 2 ^ 24 → (e.nrange <<< 8) % 2 ^ 32 = e.nrange * 256)) ∧
    (∀ (d : rangeDecoder) (fuel : Nat), 2 ^ 16 ≤ d.nrange → d.nrange < 2 ^ 32 → 1 ≤ fuel →
      d.normalizeLoop fuel = d.normalize ∧
      (d.nrange < 2 ^ 24 → (d.nrange <<< 8) % 2 ^ 32 = d.nrange * 256)) := by
  obtain ⟨a1, a2, a3⟩ := encodeOps_range ops e0 freshModels (by rw [he]; norm_num)
    (by rw [he]; norm_num) probOK_fresh
  obtain ⟨b1, b2, b3⟩ := decodeOps_range ops d0 freshModels (by rw [hd]; norm_num)
    (by rw [hd]; norm_num) probOK_fresh
  refine ⟨⟨a1, a2⟩, ⟨b1, b2⟩, ?_, ?_, ?_, ?_⟩
  · intro i
    obtain ⟨c1, c2⟩ := bound_range _ _ (a3 i) a1 a2
    refine ⟨c1, c2, ?_⟩
    rw [Nat.shiftRight_eq_div_pow]; omega
  · intro i
    obtain ⟨c1, c2⟩ := bound_range _ _ (b3 i) b1 b2
    refine ⟨c1, c2, ?_⟩
    rw [Nat.shiftRight_eq_div_pow]; omega
  · intro e fuel h16 h32 hf
    refine ⟨enc_normalizeLoop_eq e fuel h16 h32 hf, fun hlt => ?_⟩
    simp only [Nat.shiftLeft_eq]; omega
  · intro d fuel h16 h32 hf
    refine ⟨dec_normalizeLoop_eq d fuel h16 h32 hf, fun hlt => ?_⟩
    simp only [Nat.shiftLeft_eq]; omega

/-- Witness for C16: two calls from the initial states of encoder and decoder. -/
theorem range_stays_normalized_witness :
    (0xffffffff : Nat) = 0xffffffff ∧
    2 ^ 24 ≤ (encodeOps [Op.bit 1 0, Op.direct 1]
      { w := limitByteWriter ByteSink.accepting 9, nrange := 0xffffffff, low := 0,
        cacheLen := 1, cache := 0 } freshModels).1.nrange ∧
    2 ^ 24 ≤ (decodeOps [Op.bit 1 0, Op.direct 1]
      { r := limitByteReader [7] 9, nrange := 0xffffffff, code := 5 }
      freshModels).1.nrange :=
  ⟨rfl,
    (range_stays_normalized
      { w := limitByteWriter ByteSink.accepting 9, nrange := 0xffffffff, low := 0,
        cacheLen := 1, cache := 0 }
      { r := limitByteReader [7] 9, nrange := 0xffffffff, code := 5 }
      [Op.bit 1 0, Op.direct 1] rfl rfl).1.1,
    (range_stays_normalized
      { w := limitByteWriter ByteSink.accepting 9, nrange := 0xffffffff, low := 0,
        cacheLen := 1, cache := 0 }
      { r := limitByteReader [7] 9, nrange := 0xffffffff, code := 5 }
      [Op.bit 1 0, Op.direct 1] rfl rfl).2.1.1⟩

/-! ## The decoder dictionary -/

theorem mod_ne_of_close (i n m : Nat) (h1 : i < n) (h2 : n - i < m) : i % m ≠ n % m := by
  intro h
  have hd : m ∣ n - i := (Nat.modEq_iff_dvd' (le_of_lt h1)).mp h
  have := Nat.le_of_dvd (by omega) hd
  omega

theorem DictInv_init (dictCap bufCap : Nat) (d : decoderDict)
    (h : initDecoderDict dictCap bufCap = Except.ok d) :
    DictInv d [] ∧ d.capacity = dictCap ∧ d.bufCap = bufCap ∧ d.totalWritten = 0 ∧
      d.totalRead = 0 := by
  unfold initDecoderDict at h
  split_ifs at h with hc
  simp only [Except.ok.injEq] at h
  subst h
  refine ⟨⟨rfl, le_rfl, by simp, by simp only; omega, by simp only; omega, ?_⟩, rfl, rfl,
    rfl, rfl⟩
  intro i hi
  simp at hi

theorem WriteByte_inv (d : decoderDict) (ws : List Nat) (b : Nat) (h : DictInv d ws)
    (hroom : d.Buffered < d.bufCap) :
    d.WriteByte b =
      ({ d with data := Function.update d.data (d.totalWritten % d.bufCap) b,
                totalWritten := d.totalWritten + 1 }, none) ∧
    DictInv { d with data := Function.update d.data (d.totalWritten % d.bufCap) b,
                     totalWritten := d.totalWritten + 1 } (ws ++ [b]) := by
  obtain ⟨htw, hrd, hbuf, hcp, hcl, hsl⟩ := h
  unfold decoderDict.Buffered at hroom
  constructor
  · unfold decoderDict.WriteByte
    rw [if_neg (by omega)]
  · refine ⟨by simp [htw], by simp only; omega, by simp only; omega, hcp, hcl, ?_⟩
    intro i hi hle
    simp only [List.length_append, List.length_singleton] at hi hle
    simp only
    by_cases hlast : i = ws.length
    · subst hlast
      rw [htw, Function.update_same]
      simp [List.getD_eq_getElem?_getD]
    · have hi' : i < ws.length := by omega
      rw [htw, Function.update_noteq (mod_ne_of_close i ws.length d.bufCap hi' (by omega))]
      rw [hsl i hi' (by omega)]
      simp [List.getD_eq_getElem?_getD, List.getElem?_append_left hi']

theorem ByteAt_inv (d : decoderDict) (ws : List Nat) (distance : Int) (h : DictInv d ws)
    (h1 : 1 ≤ distance) (h2 : distance ≤ d.Len) :
    d.ByteAt distance = ws.getD (ws.length - distance.toNat) 0 := by
  obtain ⟨htw, hrd, hbuf, hcp, hcl, hsl⟩ := h
  unfold decoderDict.Len at h2
  unfold decoderDict.ByteAt
  have hle : distance.toNat ≤ min d.totalWritten d.capacity := by omega
  have hle1 : distance.toNat ≤ d.totalWritten := le_trans hle (Nat.min_le_left _ _)
  have hle2 : distance.toNat ≤ d.capacity := le_trans hle (Nat.min_le_right _ _)
  rw [if_neg (by omega)]
  have hidx : d.totalWritten + d.bufCap - distance.toNat =
      (ws.length - distance.toNat) + d.bufCap := by omega
  rw [hidx, Nat.add_mod_right]
  exact hsl _ (by omega) (by omega)

/-- The copy loop of `writeMatch` with a valid distance and enough room writes
the bytes of the overlapping copy. -/
theorem copyLoop_inv (n : Nat) : ∀ (d : decoderDict) (ws : List Nat) (distance : Int),
    DictInv d ws → 1 ≤ distance → distance ≤ d.Len → d.Buffered + n ≤ d.bufCap →
    ∃ d', d.copyLoop n distance = (d', none) ∧
      DictInv d' (ws ++ matchBytes n ws distance.toNat) ∧
      d'.totalRead = d.totalRead ∧ d'.capacity = d.capacity ∧ d'.bufCap = d.bufCap := by
  induction n with
  | zero =>
    intro d ws distance h _ _ _
    exact ⟨d, rfl, by simpa [matchBytes] using h, rfl, rfl, rfl⟩
  | succ n ih =>
    intro d ws distance h h1 h2 hroom
    obtain ⟨hw, hinv⟩ := WriteByte_inv d ws (d.ByteAt distance) h (by omega)
    have hb := ByteAt_inv d ws distance h h1 h2
    rw [hb] at hinv
    obtain ⟨d', hd', hinv', hr, hc, hbc⟩ := ih _ _ distance hinv h1
      (by unfold decoderDict.Len at h2 ⊢; simp only; omega)
      (by unfold decoderDict.Buffered at hroom ⊢; simp only; have := h.rd; omega)
    refine ⟨d', ?_, ?_, hr, hc, hbc⟩
    · unfold decoderDict.copyLoop
      rw [hw]
      simp only
      rw [hb]
      exact hd'
    · simpa [matchBytes, List.append_assoc] using hinv'

theorem take_min_length (l : List Nat) (k : Nat) : l.take (min k l.length) = l.take k := by
  by_cases h : k ≤ l.length
  · rw [Nat.min_eq_left h]
  · rw [Nat.min_eq_right (by omega), List.take_of_length_le (le_refl _),
      List.take_of_length_le (by omega)]

/-- After its checks the copy loop has room for every byte: it cannot fail. -/
theorem copyLoop_ok (n : Nat) : ∀ (d : decoderDict) (distance : Int),
    d.Buffered + n ≤ d.bufCap → (d.copyLoop n distance).2 = none := by
  induction n with
  | zero => intro d distance _; rfl
  | succ n ih =>
    intro d distance h
    unfold decoderDict.Buffered at h
    unfold decoderDict.copyLoop decoderDict.WriteByte
    rw [if_neg (by omega)]
    simp only
    apply ih
    unfold decoderDict.Buffered
    simp only
    omega

theorem oldest_eq (d : decoderDict) (ws : List Nat) (n : Nat) (h : DictInv d ws)
    (hn : n ≤ d.Buffered) : d.oldest n = (ws.drop d.totalRead).take n := by
  obtain ⟨htw, hrd, hbuf, hcp, hcl, hsl⟩ := h
  unfold decoderDict.Buffered at hn
  apply List.ext_getElem
  · simp [decoderDict.oldest]
    omega
  · intro j h1 h2
    simp only [decoderDict.oldest, List.length_map, List.length_range] at h1
    simp only [decoderDict.oldest, List.getElem_map, List.getElem_range, List.getElem_take,
      List.getElem_drop]
    rw [hsl (d.totalRead + j) (by omega) (by omega)]
    simp [List.getD_eq_getElem?_getD, List.getElem?_eq_getElem (show d.totalRead + j < ws.length by omega)]

/-- `Read` delivers the oldest `min k Buffered()` buffered bytes and keeps the
history. -/
theorem Read_inv (d : decoderDict) (ws : List Nat) (k : Nat) (h : DictInv d ws) :
    (d.Read k).2.2 = none ∧
    (d.Read k).2.1 = (ws.drop d.totalRead).take k ∧
    (d.Read k).2.1.length = min k d.Buffered ∧
    (d.Read k).1.totalRead = d.totalRead + (d.Read k).2.1.length ∧
    (d.Read k).1.Buffered = d.Buffered - (d.Read k).2.1.length ∧
    DictInv (d.Read k).1 ws := by
  have ho := oldest_eq d ws (min k d.Buffered) h (Nat.min_le_right _ _)
  obtain ⟨htw, hrd, hbuf, hcp, hcl, hsl⟩ := h
  have hlen : (d.oldest (min k d.Buffered)).length = min k d.Buffered := by
    simp [decoderDict.oldest]
  have htake : (ws.drop d.totalRead).take (min k d.Buffered) = (ws.drop d.totalRead).take k := by
    unfold decoderDict.Buffered
    rw [htw, ← List.length_drop, take_min_length]
  unfold decoderDict.Read
  simp only
  refine ⟨trivial, by rw [ho, htake], hlen, by rw [hlen], ?_, ?_⟩
  · rw [hlen]; unfold decoderDict.Buffered; simp only; omega
  · refine ⟨htw, ?_, ?_, hcp, hcl, hsl⟩
    · unfold decoderDict.Buffered; simp only; omega
    · unfold decoderDict.Buffered; simp only; omega

/-- `WriteMatch` with a valid distance, a positive length and enough room
succeeds and appends the bytes of the overlapping copy. -/
theorem WriteMatch_inv (d : decoderDict) (ws : List Nat) (distance length : Int)
    (h : DictInv d ws) (h1 : 0 < distance) (h2 : distance ≤ d.Len) (h3 : 0 < length)
    (h4 : (d.Buffered : Int) + length ≤ d.bufCap) :
    d.WriteMatch distance length = d.copyLoop length.toNat distance ∧
    ∃ d', d.WriteMatch distance length = (d', none) ∧
      DictInv d' (ws ++ matchBytes length.toNat ws distance.toNat) ∧
      d'.totalRead = d.totalRead ∧ d'.capacity = d.capacity ∧ d'.bufCap = d.bufCap := by
  have hcap : distance ≤ d.capacity := by
    unfold decoderDict.Len at h2
    have := Nat.min_le_right d.totalWritten d.capacity
    omega
  have heq : d.WriteMatch distance length = d.copyLoop length.toNat distance := by
    unfold decoderDict.WriteMatch
    rw [if_neg (by omega), if_neg (by omega), if_neg (by omega)]
  refine ⟨heq, ?_⟩
  rw [heq]
  exact copyLoop_inv length.toNat d ws distance h (by omega) h2 (by omega)

/-- A failed `WriteMatch` leaves the dictionary as it was; a successful one had
a valid distance, a positive length and room. -/
theorem WriteMatch_cases (d : decoderDict) (distance length : Int) :
    ((d.WriteMatch distance length).2 ≠ none → (d.WriteMatch distance length).1 = d) ∧
    (0 < distance ∧ distance ≤ d.Len ∧ 0 < length ∧
        (d.Buffered : Int) + length ≤ d.bufCap →
      d.WriteMatch distance length = d.copyLoop length.toNat distance) ∧
    (¬ (0 < distance ∧ distance ≤ d.Len ∧ 0 < length ∧
        (d.Buffered : Int) + length ≤ d.bufCap) →
      (d.WriteMatch distance length).2 ≠ none ∧ (d.WriteMatch distance length).1 = d) := by
  have hcap : (d.Len : Int) ≤ d.capacity := by
    unfold decoderDict.Len
    have := Nat.min_le_right d.totalWritten d.capacity
    omega
  refine ⟨?_, ?_, ?_⟩
  · intro herr
    unfold decoderDict.WriteMatch at herr ⊢
    split_ifs at herr ⊢ with c1 c2 c3
    · rfl
    · rfl
    · rfl
    · exact absurd (copyLoop_ok length.toNat d distance (by omega)) herr
  · rintro ⟨a, b, c, e⟩
    unfold decoderDict.WriteMatch
    rw [if_neg (by omega), if_neg (by omega), if_neg (by omega)]
  · intro hn
    unfold decoderDict.WriteMatch
    split_ifs with c1 c2 c3
    · exact ⟨by simp, rfl⟩
    · exact ⟨by simp, rfl⟩
    · exact ⟨by simp, rfl⟩
    · exfalso; apply hn; exact ⟨by omega, by omega, by omega, by omega⟩

theorem take_read (ws : List Nat) (a k : Nat) :
    ws.take a ++ (ws.drop a).take k = ws.take (a + ((ws.drop a).take k).length) := by
  rw [List.length_take, ← take_min_length (ws.drop a) k, List.take_add]

/-- A run of calls in which every write succeeds keeps the history, and the
bytes delivered so far are its first `totalRead` bytes. -/
theorem runDict_inv (ops : List DictOp) : ∀ (d : decoderDict) (ws : List Nat)
    (d' : decoderDict) (outs : List (List Nat)),
    DictInv d ws → runDict ops d = some (d', outs) →
    DictInv d' (writtenBy ops ws) ∧
    ws.take d.totalRead ++ outs.flatten = (writtenBy ops ws).take d'.totalRead ∧
    d'.capacity = d.capacity ∧ d'.bufCap = d.bufCap := by
  induction ops with
  | nil =>
    intro d ws d' outs h hrun
    simp only [runDict, Option.some.injEq, Prod.mk.injEq] at hrun
    obtain ⟨rfl, rfl⟩ := hrun
    exact ⟨h, by simp [writtenBy], rfl, rfl⟩
  | cons op ops ih =>
    intro d ws d' outs h hrun
    cases op with
    | writeByte b =>
      have hroom : d.Buffered < d.bufCap := by
        by_contra hfull
        have hb := h.buf
        unfold decoderDict.Buffered at hfull
        simp only [runDict, decoderDict.WriteByte] at hrun
        rw [if_pos (by omega)] at hrun
        simp at hrun
      obtain ⟨hw, hinv⟩ := WriteByte_inv d ws b h hroom
      simp only [runDict, hw] at hrun
      obtain ⟨a1, a2, a3, a4⟩ := ih _ _ d' outs hinv hrun
      refine ⟨a1, ?_, a3, a4⟩
      simp only [writtenBy]
      rw [← a2]
      simp only
      rw [List.take_append_of_le_length (by have := h.rd; have := h.tw; omega)]
    | writeMatch distance length =>
      obtain ⟨_, _, hfail⟩ := WriteMatch_cases d distance length
      by_cases hc : 0 < distance ∧ distance ≤ d.Len ∧ 0 < length ∧
          (d.Buffered : Int) + length ≤ d.bufCap
      · obtain ⟨c1, c2, c3, c4⟩ := hc
        obtain ⟨_, d1, hd1, hinv, hr, hcap, hbc⟩ := WriteMatch_inv d ws distance length h c1 c2 c3 c4
        simp only [runDict, hd1] at hrun
        obtain ⟨a1, a2, a3, a4⟩ := ih _ _ d' outs hinv hrun
        refine ⟨a1, ?_, by rw [a3, hcap], by rw [a4, hbc]⟩
        simp only [writtenBy]
        rw [← a2, hr]
        rw [List.take_append_of_le_length (by have := h.rd; have := h.tw; omega)]
      · obtain ⟨herr, _⟩ := hfail hc
        simp only [runDict] at hrun
        rcases hres : d.WriteMatch distance length with ⟨d1, _ | err⟩
        · rw [hres] at herr; simp at herr
        · rw [hres] at hrun; simp at hrun
    | read k =>
      obtain ⟨r1, r2, r3, r4, r5, r6⟩ := Read_inv d ws k h
      simp only [runDict] at hrun
      rcases hres : runDict ops (d.Read k).1 with _ | ⟨d2, outs2⟩
      · rw [hres] at hrun; simp at hrun
      · rw [hres] at hrun
        simp only [Option.some.injEq, Prod.mk.injEq] at hrun
        obtain ⟨rfl, rfl⟩ := hrun
        obtain ⟨a1, a2, a3, a4⟩ := ih _ _ d2 outs2 r6 hres
        refine ⟨a1, ?_, ?_, ?_⟩
        · simp only [writtenBy, List.flatten_cons]
          rw [← a2, r4, r2, ← List.append_assoc, take_read]
        · rw [a3]; rfl
        · rw [a4]; rfl

theorem succ_mod_cases (i d : Nat) (hd : 0 < d) :
    (i % d + 1 < d ∧ (i + 1) % d = i % d + 1) ∨ (i % d + 1 = d ∧ (i + 1) % d = 0) := by
  have hlt := Nat.mod_lt i hd
  by_cases h : i % d + 1 < d
  · left
    refine ⟨h, ?_⟩
    rw [Nat.add_mod, Nat.mod_eq_of_lt (show 1 < d by omega), Nat.mod_eq_of_lt h]
  · right
    have he : i % d + 1 = d := by omega
    refine ⟨he, ?_⟩
    by_cases h1 : d = 1
    · subst h1; exact Nat.mod_one _
    · rw [Nat.add_mod, Nat.mod_eq_of_lt (show 1 < d by omega), he, Nat.mod_self]

/-- The bytes of an overlapping copy in closed form: byte `i` is the byte
`i mod distance` of the last `distance` bytes of the history. -/
theorem matchBytes_closed (n : Nat) : ∀ (ws : List Nat) (dist : Nat), 1 ≤ dist →
    dist ≤ ws.length →
    matchBytes n ws dist =
      (List.range n).map fun i => ws.getD (ws.length - dist + i % dist) 0 := by
  induction n with
  | zero => intro ws dist _ _; rfl
  | succ n ih =>
    intro ws dist h1 h2
    rw [matchBytes, List.range_succ_eq_map, List.map_cons, List.map_map,
      ih _ dist h1 (by simp only [List.length_append, List.length_singleton]; omega)]
    congr 1
    apply List.map_congr_left
    intro i _
    simp only [Function.comp, List.length_append, List.length_singleton]
    rcases succ_mod_cases i dist (by omega) with ⟨c1, c2⟩ | ⟨c1, c2⟩
    · rw [c2]
      have hidx : ws.length + 1 - dist + i % dist = ws.length - dist + (i % dist + 1) := by
        omega
      rw [hidx]
      simp only [List.getD_eq_getElem?_getD]
      rw [List.getElem?_append_left (by omega)]
    · rw [c2]
      have hidx : ws.length + 1 - dist + i % dist = ws.length := by omega
      rw [hidx]
      simp [List.getD_eq_getElem?_getD]

theorem drop_totalRead (d : decoderDict) (ws : List Nat) (h : DictInv d ws) :
    (d.Peek d.Buffered).1 = ws.drop d.totalRead ∧ (d.Peek d.Buffered).2 = none := by
  have ho := oldest_eq d ws d.Buffered h le_rfl
  unfold decoderDict.Peek
  rw [if_neg (by omega)]
  refine ⟨?_, rfl⟩
  simp only
  rw [ho]
  apply List.take_of_length_le
  rw [List.length_drop]
  unfold decoderDict.Buffered
  rw [h.tw]

/-- C14 (capacity property): `initDecoderDict` with capacities `dictCap` and
`bufCap` returns an error, the invalid-capacity error, if and only if
`dictCap = 0` or `bufCap < dictCap`; on success the dictionary is empty
(`Len() = 0`, `Buffered() = 0`) with history capacity `dictCap` and buffer
capacity `bufCap`.  In particular (0, 0) and (1, 0) fail and (8, 12) succeeds. -/
theorem init_capacity (dictCap bufCap : Nat) :
    ((∃ err, initDecoderDict dictCap bufCap = Except.error err) ↔
      (dictCap = 0 ∨ bufCap < dictCap)) ∧
    (∀ err, initDecoderDict dictCap bufCap = Except.error err →
      err = DictErr.invalidCapacity) ∧
    (∀ d, initDecoderDict dictCap bufCap = Except.ok d →
      d.Len = 0 ∧ d.Buffered = 0 ∧ d.capacity = dictCap ∧ d.bufCap = bufCap) ∧
    (∃ err, initDecoderDict 0 0 = Except.error err) ∧
    (∃ err, initDecoderDict 1 0 = Except.error err) ∧
    (∃ d, initDecoderDict 8 12 = Except.ok d) := by
  refine ⟨?_, ?_, ?_, ⟨_, rfl⟩, ⟨_, rfl⟩, ⟨_, rfl⟩⟩
  · unfold initDecoderDict
    by_cases h : dictCap = 0 ∨ bufCap < dictCap
    · rw [if_pos h]; simp [h]
    · rw [if_neg h]; simp [h]
  · intro err h
    unfold initDecoderDict at h
    split_ifs at h
    simp only [Except.error.injEq] at h
    exact h.symm
  · intro d h
    obtain ⟨_, h1, h2, h3, h4⟩ := DictInv_init dictCap bufCap d h
    exact ⟨by simp [decoderDict.Len, h3], by simp [decoderDict.Buffered, h3], h1, h2⟩

/-- C13 (`WriteMatch` is atomic on failure): in every dictionary state
`WriteMatch(distance, length)` fails with the invalid-distance error if
`distance` is not positive, exceeds `Len()` or exceeds `dictCap`, and with the
no-room error if the distance is valid, the length positive and
`Buffered() + length > bufCap`; whenever it returns an error the dictionary is
unchanged, so `Buffered()`, `Len()`, the result of `Peek` and every `ByteAt(x)`
are as before. -/
theorem writeMatch_atomic (d : decoderDict) (distance length : Int) :
    (distance ≤ 0 ∨ distance > d.Len ∨ distance > d.capacity →
      d.WriteMatch distance length = (d, some DictErr.invalidDistance)) ∧
    (0 < distance → distance ≤ d.Len → distance ≤ d.capacity → 0 < length →
      (d.Buffered : Int) + length > d.bufCap →
      d.WriteMatch distance length = (d, some DictErr.noRoom)) ∧
    ((d.WriteMatch distance length).2 ≠ none →
      (d.WriteMatch distance length).1 = d ∧
      (d.WriteMatch distance length).1.Buffered = d.Buffered ∧
      (d.WriteMatch distance length).1.Len = d.Len ∧
      (∀ k, (d.WriteMatch distance length).1.Peek k = d.Peek k) ∧
      (∀ x, (d.WriteMatch distance length).1.ByteAt x = d.ByteAt x)) := by
  refine ⟨?_, ?_, ?_⟩
  · intro h
    unfold decoderDict.WriteMatch
    rw [if_pos h]
  · intro h1 h2 h3 h4 h5
    unfold decoderDict.WriteMatch
    rw [if_neg (by omega), if_neg (by omega), if_pos h5]
  · intro herr
    have h := (WriteMatch_cases d distance length).1 herr
    rw [h]
    exact ⟨rfl, rfl, rfl, fun _ => rfl, fun _ => rfl⟩

/-- C12 (dictionary history): for a dictionary created with capacities `dictCap`
and `bufCap` and any sequence of successful writes and of reads after which the
bytes `writtenBy ops []` have been written, `Len()` is the minimum of their
number and `dictCap`; for `1 <= distance <= Len()`, `ByteAt(distance)` is the
byte written `distance` positions before the write cursor, however many bytes
have been read; and `ByteAt(distance) = 0` for `distance <= 0` or
`distance > dictCap`. -/
theorem dict_history (dictCap bufCap : Nat) (ops : List DictOp) (d0 d : decoderDict)
    (outs : List (List Nat)) (distance : Int)
    (h0 : initDecoderDict dictCap bufCap = Except.ok d0)
    (hrun : runDict ops d0 = some (d, outs)) :
    dictCap ≤ bufCap ∧
    d.Len = min (writtenBy ops []).length dictCap ∧
    (1 ≤ distance → distance ≤ d.Len →
      d.ByteAt distance =
        (writtenBy ops []).getD ((writtenBy ops []).length - distance.toNat) 0) ∧
    (distance ≤ 0 ∨ distance > dictCap → d.ByteAt distance = 0) := by
  obtain ⟨hinv0, hc0, hb0, _, _⟩ := DictInv_init dictCap bufCap d0 h0
  obtain ⟨hinv, _, hc, hb⟩ := runDict_inv ops d0 [] d outs hinv0 hrun
  refine ⟨?_, ?_, ?_, ?_⟩
  · have := hinv0.capLe; omega
  · unfold decoderDict.Len
    rw [hinv.tw, hc, hc0]
  · intro h1 h2
    exact ByteAt_inv d _ distance hinv h1 h2
  · intro h
    unfold decoderDict.ByteAt
    rw [hc, hc0, if_pos h]

/-- C10 (dictionary FIFO): for a dictionary created with valid capacities and
any interleaving `ops` of successful `WriteByte` / `WriteMatch` calls with `Read`
calls, the concatenation of the bytes returned by the `Read` calls is a prefix
of the sequence of all bytes written, `Buffered()` is the number of bytes
written less the number delivered, and the two sequences are equal once
`Buffered() = 0`; a further `Read` into `k` bytes returns without error the
`min(k, Buffered())` oldest undelivered bytes in write order and reduces
`Buffered()` by their number. -/
theorem dict_fifo (dictCap bufCap : Nat) (ops : List DictOp) (d0 d : decoderDict)
    (outs : List (List Nat)) (k : Nat)
    (h0 : initDecoderDict dictCap bufCap = Except.ok d0)
    (hrun : runDict ops d0 = some (d, outs)) :
    outs.flatten <+: writtenBy ops [] ∧
    outs.flatten = (writtenBy ops []).take outs.flatten.length ∧
    d.Buffered + outs.flatten.length = (writtenBy ops []).length ∧
    (d.Buffered = 0 → outs.flatten = writtenBy ops []) ∧
    (d.Read k).2.2 = none ∧
    (d.Read k).2.1.length = min k d.Buffered ∧
    (d.Read k).2.1 = ((writtenBy ops []).drop outs.flatten.length).take k ∧
    (d.Read k).1.Buffered = d.Buffered - (d.Read k).2.1.length := by
  obtain ⟨hinv0, _, _, _, hr0⟩ := DictInv_init dictCap bufCap d0 h0
  obtain ⟨hinv, hout, _, _⟩ := runDict_inv ops d0 [] d outs hinv0 hrun
  simp only [List.take_nil, List.nil_append] at hout
  obtain ⟨r1, r2, r3, r4, r5, _⟩ := Read_inv d _ k hinv
  have hrd := hinv.rd
  have htw := hinv.tw
  have hlen : outs.flatten.length = d.totalRead := by
    rw [hout, List.length_take]; omega
  refine ⟨?_, ?_, ?_, ?_, r1, r3, ?_, r5⟩
  · rw [hout]; exact List.take_prefix _ _
  · rw [hlen]; exact hout
  · rw [hlen]; unfold decoderDict.Buffered; omega
  · intro hz
    unfold decoderDict.Buffered at hz
    rw [hout]
    exact List.take_of_length_le (by omega)
  · rw [hlen]; exact r2

/-- Witness for C10: the scenario of the dictionary test; after "abcdabcda",
`Read(7)` gives "abcdabc", and after `WriteMatch(3, 3)` a `Read` into 8 bytes
gives the 5 bytes "dacda" and leaves `Buffered() = 0`. -/
theorem dict_fifo_witness :
    ∃ d0 d outs, initDecoderDict 8 12 = Except.ok d0 ∧
      runDict (testOps1 ++ [DictOp.read 7, DictOp.writeMatch 3 3]) d0 = some (d, outs) ∧
      outs = [[97, 98, 99, 100, 97, 98, 99]] ∧
      (d.Read 8).2.1 = [100, 97, 99, 100, 97] ∧
      (d.Read 8).1.Buffered = 0 ∧
      outs.flatten <+: writtenBy (testOps1 ++ [DictOp.read 7, DictOp.writeMatch 3 3]) [] ∧
      (d.Read 8).2.1.length = min 8 d.Buffered := by
  have hsome : ((testRun (testOps1 ++ [DictOp.read 7, DictOp.writeMatch 3 3])).map
      fun r => (r.2, (r.1.Read 8).2.1, (r.1.Read 8).1.Buffered)) =
      some ([[97, 98, 99, 100, 97, 98, 99]], [100, 97, 99, 100, 97], 0) := by decide
  unfold testRun at hsome
  simp only [initDecoderDict] at hsome
  rcases hrun : runDict (testOps1 ++ [DictOp.read 7, DictOp.writeMatch 3 3])
      { data := fun _ => 0, capacity := 8, bufCap := 12, totalWritten := 0,
        totalRead := 0 } with _ | ⟨d, outs⟩
  · simp [hrun] at hsome
  · simp [hrun] at hsome
    obtain ⟨e1, e2, e3⟩ := hsome
    have hthm := dict_fifo 8 12 (testOps1 ++ [DictOp.read 7, DictOp.writeMatch 3 3]) _ d outs 8
      rfl hrun
    exact ⟨_, d, outs, rfl, hrun, e1, e2, e3, hthm.1, hthm.2.2.2.2.2.1⟩

theorem writtenBy_append (ops ops' : List DictOp) : ∀ ws : List Nat,
    writtenBy (ops ++ ops') ws = writtenBy ops' (writtenBy ops ws) := by
  induction ops with
  | nil => intro ws; rfl
  | cons op ops ih =>
    intro ws
    cases op <;> simp only [List.cons_append, writtenBy] <;> exact ih _

theorem getD_drop_zero (ws : List Nat) (a j : Nat) :
    (ws.drop a).getD j 0 = ws.getD (a + j) 0 := by
  simp [List.getD_eq_getElem?_getD, List.getElem?_drop]

/-- Witness for C12: the scenario of the dictionary test with capacities 8 and
12; after "abcdabcda", `Len() = 8`, `ByteAt(10) = 0` and `ByteAt(2) = 'd'`. -/
theorem dict_history_witness :
    ∃ d0 d outs, initDecoderDict 8 12 = Except.ok d0 ∧
      runDict testOps1 d0 = some (d, outs) ∧
      d.Len = 8 ∧ d.ByteAt 10 = 0 ∧ d.ByteAt 2 = 100 ∧
      d.Len = min (writtenBy testOps1 []).length 8 ∧
      ((1 : Int) ≤ 2 → (2 : Int) ≤ d.Len →
        d.ByteAt 2 =
          (writtenBy testOps1 []).getD ((writtenBy testOps1 []).length - (2 : Int).toNat) 0) := by
  have hsome : ((testRun testOps1).map fun r => (r.1.Len, r.1.ByteAt 10, r.1.ByteAt 2)) =
      some (8, 0, 100) := by decide
  unfold testRun at hsome
  simp only [initDecoderDict] at hsome
  rcases hrun : runDict testOps1
      { data := fun _ => 0, capacity := 8, bufCap := 12, totalWritten := 0,
        totalRead := 0 } with _ | ⟨d, outs⟩
  · simp [hrun] at hsome
  · simp [hrun] at hsome
    obtain ⟨e1, e2, e3⟩ := hsome
    have hthm := dict_history 8 12 testOps1 _ d outs 2 rfl hrun
    exact ⟨_, d, outs, rfl, hrun, e1, e2, e3, hthm.2.1, hthm.2.2.1⟩

/-- C11 (`WriteMatch` is the LZ77 overlapping copy): in a dictionary state
reached by successful writes and reads, for `0 < distance <= Len()`,
`length > 0` and `Buffered() + length <= bufCap`, `WriteMatch(distance, length)`
succeeds and is `length` successive calls `WriteByte(ByteAt(distance))`; the
buffered content grows by `length` bytes, the `i`-th of which is the byte
`i mod distance` of the last `distance` bytes written before the call (the byte
that `ByteAt(distance - i mod distance)` returned before the call), also when
`distance < length`. -/
theorem writeMatch_overlapping_copy (dictCap bufCap : Nat) (ops : List DictOp)
    (d0 d : decoderDict) (outs : List (List Nat)) (distance length : Int)
    (h0 : initDecoderDict dictCap bufCap = Except.ok d0)
    (hrun : runDict ops d0 = some (d, outs))
    (h1 : 0 < distance) (h2 : distance ≤ d.Len) (h3 : 0 < length)
    (h4 : (d.Buffered : Int) + length ≤ d.bufCap) :
    ∃ d', d.WriteMatch distance length = (d', none) ∧
      d.copyLoop length.toNat distance = (d', none) ∧
      d'.Buffered = d.Buffered + length.toNat ∧
      d'.Peek d'.Buffered =
        ((d.Peek d.Buffered).1 ++
          (List.range length.toNat).map
            (fun i => d.ByteAt (distance - ((i % distance.toNat : Nat) : Int))), none) ∧
      writtenBy (ops ++ [DictOp.writeMatch distance length]) [] =
        writtenBy ops [] ++
          (List.range length.toNat).map fun i =>
            ((writtenBy ops []).drop
              ((writtenBy ops []).length - distance.toNat)).getD (i % distance.toNat) 0 := by
  obtain ⟨hinv0, _, _, _, _⟩ := DictInv_init dictCap bufCap d0 h0
  obtain ⟨hinv, _, _, _⟩ := runDict_inv ops d0 [] d outs hinv0 hrun
  obtain ⟨heq, d', hd', hinv', hr, hc, hb⟩ :=
    WriteMatch_inv d _ distance length hinv h1 h2 h3 h4
  have hdist : distance.toNat ≤ (writtenBy ops []).length := by
    unfold decoderDict.Len at h2
    have := Nat.min_le_left d.totalWritten d.capacity
    have := hinv.tw
    omega
  have hclosed := matchBytes_closed length.toNat (writtenBy ops []) distance.toNat
    (by omega) hdist
  have hpos : 0 < distance.toNat := by omega
  obtain ⟨p1, _⟩ := drop_totalRead d _ hinv
  obtain ⟨p1', p2'⟩ := drop_totalRead d' _ hinv'
  have hrd := hinv.rd
  have htw := hinv.tw
  have htw' := hinv'.tw
  refine ⟨d', hd', by rw [← heq]; exact hd', ?_, ?_, ?_⟩
  · unfold decoderDict.Buffered
    rw [htw', hr, htw, List.length_append, hclosed, List.length_map, List.length_range]
    omega
  · rw [Prod.ext_iff]
    refine ⟨?_, p2'⟩
    rw [p1', p1, hr, List.drop_append_of_le_length (by omega), hclosed]
    congr 1
    apply List.map_congr_left
    intro i _
    have hj := Nat.mod_lt i hpos
    rw [ByteAt_inv d _ _ hinv (by omega) (by omega)]
    congr 1
    omega
  · rw [writtenBy_append]
    simp only [writtenBy]
    rw [hclosed]
    congr 1
    apply List.map_congr_left
    intro i _
    rw [getD_drop_zero]

/-- Witness for C11: after writing 'a', 'b', 'c', 'd' into a dictionary with
capacities 8 and 12, `WriteMatch(4, 5)` makes the buffered content
"abcdabcda". -/
theorem writeMatch_overlapping_copy_witness :
    ∃ d0 d outs d', initDecoderDict 8 12 = Except.ok d0 ∧
      runDict (testOps1.take 4) d0 = some (d, outs) ∧
      (0 : Int) < 4 ∧ (4 : Int) ≤ d.Len ∧ (0 : Int) < 5 ∧
      (d.Buffered : Int) + 5 ≤ d.bufCap ∧
      d.WriteMatch 4 5 = (d', none) ∧
      d'.Peek d'.Buffered = ([97, 98, 99, 100, 97, 98, 99, 100, 97], none) := by
  have hsome : ((testRun (testOps1.take 4)).map fun r =>
      (r.1.Len, r.1.Buffered, r.1.bufCap, (r.1.Peek r.1.Buffered).1,
        List.map (fun i => r.1.ByteAt (4 - ((i % 4 : Nat) : Int))) (List.range 5))) =
      some (4, 4, 12, [97, 98, 99, 100], [97, 98, 99, 100, 97]) := by decide
  unfold testRun at hsome
  simp only [initDecoderDict] at hsome
  rcases hrun : runDict (testOps1.take 4)
      { data := fun _ => 0, capacity := 8, bufCap := 12, totalWritten := 0,
        totalRead := 0 } with _ | ⟨d, outs⟩
  · simp [hrun] at hsome
  · simp [hrun] at hsome
    obtain ⟨e1, e2, e3, e4, e5⟩ := hsome
    have c2 : (4 : Int) ≤ d.Len := by rw [e1]; norm_num
    have c4 : (d.Buffered : Int) + 5 ≤ d.bufCap := by rw [e2, e3]; norm_num
    obtain ⟨d', t1, _, _, t4, _⟩ :=
      writeMatch_overlapping_copy 8 12 (testOps1.take 4) _ d outs 4 5 rfl hrun
        (by norm_num) c2 (by norm_num) c4
    refine ⟨_, d, outs, d', rfl, hrun, by norm_num, c2, by norm_num, c4, t1, ?_⟩
    rw [t4, e4]
    have e5' : List.map (fun i => d.ByteAt (4 - ((i % (4 : Int).toNat : Nat) : Int)))
        (List.range (5 : Int).toNat) = [97, 98, 99, 100, 97] := by
      simpa using e5
    rw [e5']
    rfl

end Newlzma
